import Mathlib

/-!
# Kronos: the persisted-record codec, node identity and the blocking time read

A shallow embedding of

* `checksumfile-updated/fileextent.pb.go` (`FileExtent.Marshal`, `MarshalTo`,
  `encodeVarintFileextent`, `Size`, `sovFileextent`, `Unmarshal`, `skipFileextent`),
* `metadata/node.go` (`FetchOrAssignNodeID`, `PersistNewNodeID`, `FetchNodeID`),
* `time.go` (`Now`, `RemoveNode`),

followed by the properties proved about them.

Conventions of the embedding.

* A byte is a `Fin 256`; a `[]byte` is a `List Byte` (a nil slice and an empty slice are
  the same list).  A Go slice has fewer than `2^63` elements.
* `Unmarshal` is embedded twice.  `FileExtent.Unmarshal` takes the receiver as two values; it
  is the code on a receiver whose slices overlap neither each other nor the input, such as
  a zero `FileExtent`.  `Store.Unmarshal` keeps the memory, with the address, the length and
  the capacity of every slice, and is the code on any receiver: there
  `append(m.X[:0], ...)` writes into the backing array of the receiver.
* A Go `int` is a mathematical integer kept in `[-2^63, 2^63)`; every addition of the source
  is followed by `wrapInt`.  A `uint64` is a natural number below `2^64`.
* A function that can fail returns a `Res`: a value, a returned `error`, a runtime panic, or
  `outOfFuel` when the bound put on a source loop is exhausted.
-/

namespace Kronos

/-! ## Machine integers, bytes, results -/

/-- A byte, Go `uint8`. -/
abbrev Byte := Fin 256

/-- Two's complement wrap-around of a mathematical integer into Go's 64-bit `int`. -/
def wrapInt (x : Int) : Int :=
  (x + 9223372036854775808) % 18446744073709551616 - 9223372036854775808

/-- The conversion `int(u)` of a `uint64` (same 64 bits, read as signed). -/
def toInt64 (u : Nat) : Int := wrapInt (u : Int)

/-- The conversion `int32(u)` of a `uint64` (low 32 bits, read as signed). -/
def toInt32 (u : Nat) : Int := ((u : Int) + 2147483648) % 4294967296 - 2147483648

/-- The conversion `uint64(x)` of an `int`. -/
def toUint64 (x : Int) : Nat := (x % 18446744073709551616).toNat

/-- The `error` values returned by the generated code. -/
inductive Err
  /-- The value `io.ErrUnexpectedEOF`. -/
  | ErrUnexpectedEOF
  /-- The value `ErrIntOverflowFileextent`, "proto: integer overflow". -/
  | ErrIntOverflowFileextent
  /-- The value `ErrInvalidLengthFileextent`, "proto: negative length found during unmarshaling". -/
  | ErrInvalidLengthFileextent
  /-- The error "proto: FileExtent: wiretype end group for non-group". -/
  | endGroupForNonGroup
  /-- The error "proto: FileExtent: illegal tag %d (wire type %d)". -/
  | illegalTag (fieldNum : Int) (wire : Nat)
  /-- The error "proto: wrong wireType = %d for field Checksum". -/
  | wrongWireTypeChecksum (wireType : Int)
  /-- The error "proto: wrong wireType = %d for field Data". -/
  | wrongWireTypeData (wireType : Int)
  /-- The error "proto: illegal wireType %d". -/
  | illegalWireType (wireType : Int)
  deriving DecidableEq, Repr

/-- The runtime panics the generated code can raise. -/
inductive Panic
  /-- An index or a slice bound out of range. -/
  | outOfRange
  /-- The statement `panic("unreachable")` that ends `skipFileextent`. -/
  | unreachable
  /-- A `make([]byte, n)` with a negative `n`. -/
  | makeslice
  deriving DecidableEq, Repr

/-- The outcome of a call. -/
inductive Res (α : Type) where
  /-- Normal return. -/
  | ok (a : α)
  /-- Return of a non-nil `error`. -/
  | err (e : Err)
  /-- A runtime panic. -/
  | panicked (p : Panic)
  /-- The iteration bound of the embedding was reached. -/
  | outOfFuel
  deriving DecidableEq, Repr

/-- Sequencing of calls: the first outcome that is not a value ends the computation. -/
def Res.bind {α β : Type} (r : Res α) (f : α → Res β) : Res β :=
  match r with
  | .ok a => f a
  | .err e => .err e
  | .panicked p => .panicked p
  | .outOfFuel => .outOfFuel

instance : Monad Res where
  pure := Res.ok
  bind := Res.bind

/-- The indexing `dAtA[i]`. -/
def index (dAtA : List Byte) (i : Int) : Res Byte :=
  if 0 ≤ i ∧ i < dAtA.length then .ok (dAtA.getD i.toNat 0) else .panicked .outOfRange

/-- The assignment `dAtA[i] = b`. -/
def setIndex (dAtA : List Byte) (i : Int) (b : Byte) : Res (List Byte) :=
  if 0 ≤ i ∧ i < dAtA.length then .ok (dAtA.set i.toNat b) else .panicked .outOfRange

/-- The slice expression `dAtA[lo:hi]` for `hi` within the length. -/
def slice (dAtA : List Byte) (lo hi : Int) : Res (List Byte) :=
  if 0 ≤ lo ∧ lo ≤ hi ∧ hi ≤ dAtA.length then
    .ok ((dAtA.drop lo.toNat).take (hi.toNat - lo.toNat))
  else .panicked .outOfRange

/-- The slice expression `dAtA[lo:]`. -/
def sliceFrom (dAtA : List Byte) (lo : Int) : Res (List Byte) :=
  if 0 ≤ lo ∧ lo ≤ dAtA.length then .ok (dAtA.drop lo.toNat) else .panicked .outOfRange

/-- The call `copy(dAtA[i:], src)`: the updated `dAtA` and the number of bytes copied. -/
def copyAt (dAtA : List Byte) (i : Int) (src : List Byte) : Res (List Byte × Int) :=
  if 0 ≤ i ∧ i ≤ dAtA.length then
    let n := min (dAtA.length - i.toNat) src.length
    .ok (dAtA.take i.toNat ++ src.take n ++ dAtA.drop (i.toNat + n), (n : Int))
  else .panicked .outOfRange

/-! ## `fileextent.pb.go` -/

/-- The message `FileExtent`. -/
structure FileExtent where
  Checksum : List Byte := []
  Data : List Byte := []
  deriving DecidableEq, Repr

/-- The loop of `encodeVarintFileextent` (at most ten bytes for a `uint64`). -/
def encodeVarintLoop : Nat → List Byte → Int → Nat → Res (List Byte × Int)
  | 0, _, _, _ => .outOfFuel
  | fuel + 1, dAtA, offset, v =>
    if v ≥ 128 then do
      let dAtA ← setIndex dAtA offset (Fin.ofNat ((v &&& 0x7f) ||| 0x80))
      encodeVarintLoop fuel dAtA (wrapInt (offset + 1)) (v >>> 7)
    else do
      let dAtA ← setIndex dAtA offset (Fin.ofNat v)
      .ok (dAtA, wrapInt (offset + 1))

/-- The function `encodeVarintFileextent(dAtA, offset, v)`: the updated buffer and the
offset after the varint. -/
def encodeVarintFileextent (dAtA : List Byte) (offset : Int) (v : Nat) : Res (List Byte × Int) :=
  encodeVarintLoop 10 dAtA offset v

/-- The loop of `sovFileextent`. -/
def sovLoop : Nat → Nat → Int → Res Int
  | 0, _, _ => .outOfFuel
  | fuel + 1, x, n =>
    let n := wrapInt (n + 1)
    let x := x >>> 7
    if x = 0 then .ok n else sovLoop fuel x n

/-- The function `sovFileextent(x)`. -/
def sovFileextent (x : Nat) : Res Int := sovLoop 10 x 0

/-- One block `l = len(...); if l > 0 { n += 1 + l + sovFileextent(uint64(l)) }` of `Size`
(lines 87-90 and 91-94): the new value of `n`. -/
def sizeField (content : List Byte) (n : Int) : Res Int := do
  let l : Int := content.length
  if l > 0 then do
    let s ← sovFileextent (toUint64 l)
    pure (wrapInt (n + wrapInt (wrapInt (1 + l) + s)))
  else pure n

/-- The method `Size`. -/
def FileExtent.Size (m : FileExtent) : Res Int := do
  let n : Int := 0
  let n ← sizeField m.Checksum n
  let n ← sizeField m.Data n
  pure n

/-- One block `if len(...) > 0 { dAtA[i] = tag; i++; i = encodeVarintFileextent(...);
i += copy(dAtA[i:], ...) }` of `MarshalTo` (lines 60-65 and 66-71): the updated buffer and
the new value of `i`. -/
def marshalField (tag : Byte) (content : List Byte) (dAtA : List Byte) (i : Int) :
    Res (List Byte × Int) :=
  if (content.length : Int) > 0 then do
    let dAtA ← setIndex dAtA i tag
    let i := wrapInt (i + 1)
    let (dAtA, i) ← encodeVarintFileextent dAtA i (toUint64 content.length)
    let (dAtA, c) ← copyAt dAtA i content
    pure (dAtA, wrapInt (i + c))
  else pure (dAtA, i)

/-- The method `MarshalTo`: the updated buffer and the number of bytes written. -/
def FileExtent.MarshalTo (m : FileExtent) (dAtA : List Byte) : Res (List Byte × Int) := do
  let i : Int := 0
  let (dAtA, i) ← marshalField 0xa m.Checksum dAtA i
  let (dAtA, i) ← marshalField 0x12 m.Data dAtA i
  pure (dAtA, i)

/-- The method `Marshal`. -/
def FileExtent.Marshal (m : FileExtent) : Res (List Byte) := do
  let size ← m.Size
  if size < 0 then .panicked .makeslice
  else do
    let dAtA := List.replicate size.toNat (0 : Byte)
    let (dAtA, n) ← m.MarshalTo dAtA
    slice dAtA 0 n

/-- The varint loops of `Unmarshal` and `skipFileextent`
(`for shift := uint(0); ; shift += 7 { ... }`, lines 117-130, 145-158, 176-189, 228-241,
263-276 and 286-299): the accumulated 64 bits and the index after the varint.  The
accumulator of the `int` loops is kept as its 64-bit pattern and converted by `toInt64`. -/
def readVarint (dAtA : List Byte) (l : Int) : Nat → Nat → Int → Nat → Res (Nat × Int)
  | 0, _, _, _ => .outOfFuel
  | fuel + 1, shift, iNdEx, acc =>
    if shift ≥ 64 then .err .ErrIntOverflowFileextent
    else if iNdEx ≥ l then .err .ErrUnexpectedEOF
    else do
      let b ← index dAtA iNdEx
      let iNdEx := wrapInt (iNdEx + 1)
      let acc := acc ||| (((b.val &&& 0x7F) <<< shift) % 18446744073709551616)
      if b.val < 0x80 then .ok (acc, iNdEx)
      else readVarint dAtA l fuel (shift + 7) iNdEx acc

/-- The varint loop of `skipFileextent` for wire type 0 (lines 245-256). -/
def skipVarint (dAtA : List Byte) (l : Int) : Nat → Nat → Int → Res Int
  | 0, _, _ => .outOfFuel
  | fuel + 1, shift, iNdEx =>
    if shift ≥ 64 then .err .ErrIntOverflowFileextent
    else if iNdEx ≥ l then .err .ErrUnexpectedEOF
    else do
      let iNdEx := wrapInt (iNdEx + 1)
      let b ← index dAtA (wrapInt (iNdEx - 1))
      if b.val < 0x80 then .ok iNdEx
      else skipVarint dAtA l fuel (shift + 7) iNdEx

/-- The statements of `case 2` of `skipFileextent` (lines 262-281). -/
def skipBytes (dAtA : List Byte) (l : Int) (iNdEx : Int) : Res Int := do
  let (length, iNdEx) ← readVarint dAtA l 11 0 iNdEx 0
  let length := toInt64 length
  let iNdEx := wrapInt (iNdEx + length)
  if length < 0 then .err .ErrInvalidLengthFileextent
  else .ok iNdEx

mutual
/-- The function `skipFileextent`, with a bound on the depth of its recursion.  Every branch
of the body of `for iNdEx < l` returns, so the loop is entered at most once. -/
def skipFileextentFuel : Nat → List Byte → Res Int
  | 0, _ => .outOfFuel
  | fuel + 1, dAtA =>
    let l : Int := dAtA.length
    let iNdEx : Int := 0
    if iNdEx < l then do
      let (wire, iNdEx) ← readVarint dAtA l 11 0 iNdEx 0
      let wireType := toInt64 (wire &&& 0x7)
      if wireType = 0 then skipVarint dAtA l 11 0 iNdEx
      else if wireType = 1 then .ok (wrapInt (iNdEx + 8))
      else if wireType = 2 then skipBytes dAtA l iNdEx
      else if wireType = 3 then skipGroup fuel dAtA l iNdEx
      else if wireType = 4 then .ok iNdEx
      else if wireType = 5 then .ok (wrapInt (iNdEx + 4))
      else .err (.illegalWireType wireType)
    else .panicked .unreachable
/-- The loop `for { ... }` of wire type 3 in `skipFileextent` (lines 283-310). -/
def skipGroup : Nat → List Byte → Int → Int → Res Int
  | 0, _, _, _ => .outOfFuel
  | fuel + 1, dAtA, l, iNdEx => do
    let start := iNdEx
    let (innerWire, iNdEx) ← readVarint dAtA l 11 0 iNdEx 0
    let innerWireType := toInt64 (innerWire &&& 0x7)
    if innerWireType = 4 then .ok iNdEx
    else do
      let sub ← sliceFrom dAtA start
      let next ← skipFileextentFuel fuel sub
      skipGroup fuel dAtA l (wrapInt (start + next))
end

/-- The function `skipFileextent`: the depth of the recursion is at most twice the length
of the input. -/
def skipFileextent (dAtA : List Byte) : Res Int :=
  skipFileextentFuel (2 * dAtA.length + 1) dAtA

/-- The statements shared by `case 1` and `case 2` of `Unmarshal` after the check of the wire
type (lines 144-166 and 175-197): `postIndex` and the bytes `dAtA[iNdEx:postIndex]`. -/
def unmarshalBytes (dAtA : List Byte) (l : Int) (iNdEx : Int) : Res (Int × List Byte) := do
  let (byteLen, iNdEx) ← readVarint dAtA l 11 0 iNdEx 0
  let byteLen := toInt64 byteLen
  if byteLen < 0 then .err .ErrInvalidLengthFileextent
  else
    let postIndex := wrapInt (iNdEx + byteLen)
    if postIndex > l then .err .ErrUnexpectedEOF
    else do
      let s ← slice dAtA iNdEx postIndex
      .ok (postIndex, s)

/-- The `default` case of `Unmarshal` (lines 203-214): the index after the skipped field. -/
def unmarshalSkip (dAtA : List Byte) (l : Int) (preIndex : Int) : Res Int := do
  let iNdEx := preIndex
  let sub ← sliceFrom dAtA iNdEx
  let skippy ← skipFileextent sub
  if skippy < 0 then .err .ErrInvalidLengthFileextent
  else if wrapInt (iNdEx + skippy) > l then .err .ErrUnexpectedEOF
  else .ok (wrapInt (iNdEx + skippy))

/-- The body of the loop of `Unmarshal` once the tag `wire` is read (lines 131-215).  The
fields of the receiver are values: `m.Checksum = append(m.Checksum[:0], s...)` makes
`Checksum` the bytes `s` and leaves `Data` alone, which is the statement on a receiver whose
slices overlap neither each other nor the input, a zero receiver among them
(`unmarshalFieldMem` is the statement on any receiver). -/
def unmarshalField (dAtA : List Byte) (l : Int) (preIndex : Int) (wire : Nat) (iNdEx : Int)
    (m : FileExtent) : Res (Int × FileExtent) :=
  let fieldNum := toInt32 (wire >>> 3)
  let wireType := toInt64 (wire &&& 0x7)
  if wireType = 4 then .err .endGroupForNonGroup
  else if fieldNum ≤ 0 then .err (.illegalTag fieldNum wire)
  else if fieldNum = 1 then
    if wireType ≠ 2 then .err (.wrongWireTypeChecksum wireType)
    else do
      let (postIndex, s) ← unmarshalBytes dAtA l iNdEx
      .ok (postIndex, { m with Checksum := s })
  else if fieldNum = 2 then
    if wireType ≠ 2 then .err (.wrongWireTypeData wireType)
    else do
      let (postIndex, s) ← unmarshalBytes dAtA l iNdEx
      .ok (postIndex, { m with Data := s })
  else do
    let iNdEx ← unmarshalSkip dAtA l preIndex
    .ok (iNdEx, m)

/-- One iteration of the body of `for iNdEx < l` in `Unmarshal` (lines 115-215): the index
and the receiver at the end of the iteration. -/
def unmarshalStep (dAtA : List Byte) (l : Int) (iNdEx : Int) (m : FileExtent) :
    Res (Int × FileExtent) := do
  let preIndex := iNdEx
  let (wire, iNdEx) ← readVarint dAtA l 11 0 iNdEx 0
  unmarshalField dAtA l preIndex wire iNdEx m

/-- The loop `for iNdEx < l` of `Unmarshal` and the statements after it. -/
def unmarshalLoop (dAtA : List Byte) (l : Int) : Nat → Int → FileExtent → Res FileExtent
  | 0, _, _ => .outOfFuel
  | fuel + 1, iNdEx, m =>
    if iNdEx < l then do
      let (iNdEx, m) ← unmarshalStep dAtA l iNdEx m
      unmarshalLoop dAtA l fuel iNdEx m
    else if iNdEx > l then .err .ErrUnexpectedEOF
    else .ok m

/-- The method `Unmarshal`: the receiver after the call, when the call returns nil. -/
def FileExtent.Unmarshal (m : FileExtent) (dAtA : List Byte) : Res FileExtent :=
  unmarshalLoop dAtA dAtA.length (dAtA.length + 1) 0 m

/-! ### `Unmarshal` on a receiver in memory

The statements `m.Checksum = append(m.Checksum[:0], dAtA[iNdEx:postIndex]...)` (line 166) and
`m.Data = append(m.Data[:0], dAtA[iNdEx:postIndex]...)` (line 197) write into the backing
array of the receiver when its capacity suffices.  The definitions above take the two fields
of the receiver as values, which is the code on a receiver whose slices overlap neither each
other nor the input (`Unmarshal_in_memory` below).  The definitions of this section keep the
memory: the bytes, and for every slice its address, its length and its capacity. -/

/-- A `[]byte` value: the address of its first element, its length and its capacity. -/
structure Slice where
  ptr : Nat
  len : Nat
  cap : Nat
  deriving DecidableEq, Repr

/-- The elements of a slice. -/
def Slice.bytes (s : Slice) (mem : List Byte) : List Byte := (mem.drop s.ptr).take s.len

/-- The memory of a call of `Unmarshal`: the bytes, in which the arrays lie one after the
other, the argument `dAtA` and the two fields of the receiver `m`. -/
structure Store where
  mem : List Byte
  dAtA : Slice
  Checksum : Slice
  Data : Slice
  deriving DecidableEq, Repr

/-- The expression `append(x[:0], src...)`: the memory and the slice after it.  The slice
`x[:0]` has the address and the capacity of `x`.  When `len(src) ≤ cap(x)` the elements are
written at the address of `x`; otherwise the runtime allocates a new array, here past the
end of the memory in use, of the capacity it chooses from the old capacity and the length
needed, `grow (cap x) (len src)`, and at least that length. -/
def appendReuse (grow : Nat → Nat → Nat) (mem : List Byte) (x : Slice) (src : List Byte) :
    List Byte × Slice :=
  if src.length ≤ x.cap then
    (mem.take x.ptr ++ src ++ mem.drop (x.ptr + src.length), { x with len := src.length })
  else
    let cap := max src.length (grow x.cap src.length)
    (mem ++ src ++ List.replicate (cap - src.length) 0,
      { ptr := mem.length, len := src.length, cap := cap })

/-- The statements `m.Checksum = append(m.Checksum[:0], s...)` and
`if m.Checksum == nil { m.Checksum = []byte{} }` (lines 166-169). -/
def Store.setChecksum (grow : Nat → Nat → Nat) (st : Store) (s : List Byte) : Store :=
  let r := appendReuse grow st.mem st.Checksum s
  { st with mem := r.1, Checksum := r.2 }

/-- The statements `m.Data = append(m.Data[:0], s...)` and
`if m.Data == nil { m.Data = []byte{} }` (lines 197-200). -/
def Store.setData (grow : Nat → Nat → Nat) (st : Store) (s : List Byte) : Store :=
  let r := appendReuse grow st.mem st.Data s
  { st with mem := r.1, Data := r.2 }

/-- The body of the loop of `Unmarshal` once the tag `wire` is read (lines 131-215), on the
memory `st`; `dAtA` holds the elements of the input as they are at the start of the
iteration. -/
def unmarshalFieldMem (grow : Nat → Nat → Nat) (dAtA : List Byte) (l : Int) (preIndex : Int)
    (wire : Nat) (iNdEx : Int) (st : Store) : Res (Int × Store) :=
  let fieldNum := toInt32 (wire >>> 3)
  let wireType := toInt64 (wire &&& 0x7)
  if wireType = 4 then .err .endGroupForNonGroup
  else if fieldNum ≤ 0 then .err (.illegalTag fieldNum wire)
  else if fieldNum = 1 then
    if wireType ≠ 2 then .err (.wrongWireTypeChecksum wireType)
    else do
      let (postIndex, s) ← unmarshalBytes dAtA l iNdEx
      .ok (postIndex, st.setChecksum grow s)
  else if fieldNum = 2 then
    if wireType ≠ 2 then .err (.wrongWireTypeData wireType)
    else do
      let (postIndex, s) ← unmarshalBytes dAtA l iNdEx
      .ok (postIndex, st.setData grow s)
  else do
    let iNdEx ← unmarshalSkip dAtA l preIndex
    .ok (iNdEx, st)

/-- One iteration of the body of `for iNdEx < l` in `Unmarshal` (lines 115-215) on the
memory `st`.  The iteration reads the input before its one write, so the reads are those of
the elements of `dAtA` at the start of the iteration. -/
def unmarshalStepMem (grow : Nat → Nat → Nat) (l : Int) (iNdEx : Int) (st : Store) :
    Res (Int × Store) := do
  let dAtA := st.dAtA.bytes st.mem
  let preIndex := iNdEx
  let (wire, iNdEx) ← readVarint dAtA l 11 0 iNdEx 0
  unmarshalFieldMem grow dAtA l preIndex wire iNdEx st

/-- The loop `for iNdEx < l` of `Unmarshal` and the statements after it, on the memory. -/
def unmarshalLoopMem (grow : Nat → Nat → Nat) (l : Int) : Nat → Int → Store → Res Store
  | 0, _, _ => .outOfFuel
  | fuel + 1, iNdEx, st =>
    if iNdEx < l then do
      let (iNdEx, st) ← unmarshalStepMem grow l iNdEx st
      unmarshalLoopMem grow l fuel iNdEx st
    else if iNdEx > l then .err .ErrUnexpectedEOF
    else .ok st

/-- The method `Unmarshal` on the memory `st`, with `l := len(dAtA)`: the memory after the
call, when the call returns nil. -/
def Store.Unmarshal (grow : Nat → Nat → Nat) (st : Store) : Res Store :=
  unmarshalLoopMem grow st.dAtA.len (st.dAtA.len + 1) 0 st

/-! ## `metadata/node.go` -/

/-- The name of the identity file, `nodeIDFileName`. -/
def nodeIDFileName : String := "node-info"

/-- The collaborators of `metadata/node.go` that live outside the file, over a state `σ` of
the file system and a type `ε` of `error` values: `filepath.Join`, `os.Stat`,
`os.IsNotExist`, `checksumfile_updated.Write`, `checksumfile_updated.Read`, and
`types.ID.String` / `types.IDFromString`.  A Go string that holds an ID is the list of its
bytes, so `[]byte(s)` and `string(b)` are the identity. -/
structure NodeEnv (σ ε : Type) where
  /-- The function `filepath.Join(dir, name)`. -/
  Join : String → String → String
  /-- The error returned by `os.Stat(path)`, `none` for nil. -/
  Stat : σ → String → Option ε
  /-- The predicate `os.IsNotExist(err)`. -/
  IsNotExist : ε → Bool
  /-- The call `checksumfile_updated.Write(path, payload)`: the state after the call and the
  error returned, `none` for nil. -/
  Write : σ → String → List Byte → σ × Option ε
  /-- The call `checksumfile_updated.Read(path)`. -/
  Read : σ → String → Except ε (List Byte)
  /-- The conversion `[]byte(id.String())`. -/
  IDString : Nat → List Byte
  /-- The call `types.IDFromString(string(raw))`. -/
  IDFromString : List Byte → Except ε Nat

/-- A call made on the file system. -/
inductive FsOp
  | stat (path : String)
  | read (path : String)
  | write (path : String) (payload : List Byte)
  deriving DecidableEq, Repr

/-- How a call of `metadata/node.go` ends: it returns, or `log.Fatal` / `log.Fatalf` aborts
the process with the error it was given. -/
inductive Exit (ε α : Type)
  | returned (a : α)
  | fatal (e : ε)
  deriving DecidableEq, Repr

/-- A finished call: how it ended, the file system after it, and the calls it made on the
file system, in order. -/
structure Run (σ ε α : Type) where
  exit : Exit ε α
  fs : σ
  ops : List FsOp

/-- The function `nodeInfoFilePath`. -/
def nodeInfoFilePath {σ ε : Type} (env : NodeEnv σ ε) (dataDir : String) : String :=
  env.Join dataDir nodeIDFileName

/-- The function `FetchNodeID`: the returned `(id, err)` and the calls made. -/
def FetchNodeID {σ ε : Type} (env : NodeEnv σ ε) (fs : σ) (dataDir : String) :
    Except ε Nat × List FsOp :=
  let nodeInfoFile := nodeInfoFilePath env dataDir
  match env.Stat fs nodeInfoFile with
  | some err => (.error err, [.stat nodeInfoFile])
  | none =>
    match env.Read fs nodeInfoFile with
    | .error err => (.error err, [.stat nodeInfoFile, .read nodeInfoFile])
    | .ok rawNodeID => (env.IDFromString rawNodeID, [.stat nodeInfoFile, .read nodeInfoFile])

/-- The function `FetchOrAssignNodeID`; `r` is the value `r.Uint64()` that `newNodeID` draws. -/
def FetchOrAssignNodeID {σ ε : Type} (env : NodeEnv σ ε) (r : Nat) (fs : σ)
    (dataDir : String) : Run σ ε Nat :=
  let nodeInfoFile := nodeInfoFilePath env dataDir
  match env.Stat fs nodeInfoFile with
  | some err =>
    if env.IsNotExist err then
      let id := r
      match env.Write fs nodeInfoFile (env.IDString id) with
      | (fs1, some err) =>
        ⟨.fatal err, fs1, [.stat nodeInfoFile, .write nodeInfoFile (env.IDString id)]⟩
      | (fs1, none) =>
        ⟨.returned id, fs1, [.stat nodeInfoFile, .write nodeInfoFile (env.IDString id)]⟩
    else ⟨.fatal err, fs, [.stat nodeInfoFile]⟩
  | none =>
    match FetchNodeID env fs dataDir with
    | (.error err, ops) => ⟨.fatal err, fs, .stat nodeInfoFile :: ops⟩
    | (.ok id, ops) => ⟨.returned id, fs, .stat nodeInfoFile :: ops⟩

/-- The function `PersistNewNodeID`; `id` is the bytes of the string argument. -/
def PersistNewNodeID {σ ε : Type} (env : NodeEnv σ ε) (id : List Byte) (fs : σ)
    (dataDir : String) : Run σ ε Unit :=
  let nodeInfoFile := nodeInfoFilePath env dataDir
  match env.Stat fs nodeInfoFile with
  | some err =>
    if env.IsNotExist err then
      match env.Write fs nodeInfoFile id with
      | (fs1, some err) => ⟨.fatal err, fs1, [.stat nodeInfoFile, .write nodeInfoFile id]⟩
      | (fs1, none) => ⟨.returned (), fs1, [.stat nodeInfoFile, .write nodeInfoFile id]⟩
    else ⟨.fatal err, fs, [.stat nodeInfoFile]⟩
  | none => ⟨.returned (), fs, [.stat nodeInfoFile]⟩

/-! ## `time.go` -/

/-- The value `time.Millisecond`, in nanoseconds. -/
def Millisecond : Int := 1000000

/-- The constant `timePollInterval` of `Now`. -/
def timePollInterval : Int := 100 * Millisecond

/-- The value returned by `KronosTimeNow`, of which `Now` reads the field `Time`. -/
structure KronosTime where
  Time : Int
  deriving DecidableEq, Repr

/-- A non-nil `*server.Server` as `Now` sees it: the outcome of the `n`-th call (from 0) of
`KronosTimeNow`. -/
abbrev Server (ε : Type) := Nat → Except ε KronosTime

/-- What `Now` does, in order. -/
inductive NowEvent (ε : Type)
  /-- A call of `kronosServer.KronosTimeNow(ctx)`. -/
  | kronosTimeNow
  /-- The call `log.Errorf(ctx, "Failed to get KronosTime, ...", err, timePollInterval)`. -/
  | errorf (err : ε) (interval : Int)
  /-- The call `time.Sleep(d)`. -/
  | sleep (d : Int)
  deriving DecidableEq, Repr

/-- How a call of `Now` ends. -/
inductive NowResult
  /-- The statement `return kt.Time`. -/
  | returned (t : Int)
  /-- The call `log.Fatalf(context.TODO(), "Kronos server is not initialized")`. -/
  | fatal
  /-- The loop is still running when the bound of the embedding is reached. -/
  | outOfFuel
  deriving DecidableEq, Repr

/-- The loop `for { ... }` of `Now`, from the call number `calls` on; `trace` is what was
done so far. -/
def nowLoop {ε : Type} (kronosServer : Server ε) :
    Nat → Nat → List (NowEvent ε) → NowResult × List (NowEvent ε)
  | 0, _, trace => (.outOfFuel, trace)
  | fuel + 1, calls, trace =>
    match kronosServer calls with
    | .error err =>
      nowLoop kronosServer fuel (calls + 1)
        (trace ++ [.kronosTimeNow, .errorf err timePollInterval, .sleep timePollInterval])
    | .ok kt => (.returned kt.Time, trace ++ [.kronosTimeNow])

/-- The function `Now`, run for at most `fuel` iterations of its loop; the handle is `none`
for a nil `kronosServer`. -/
def Now {ε : Type} (kronosServer : Option (Server ε)) (fuel : Nat) :
    NowResult × List (NowEvent ε) :=
  match kronosServer with
  | none => (.fatal, [])
  | some s => nowLoop s fuel 0 []

/-- The `error` values `RemoveNode` returns: the value `errors.New("node id is empty")`, or
an error handed back by a collaborator. -/
inductive RemoveErr (ε : Type)
  | nodeIDEmpty
  | other (e : ε)
  deriving DecidableEq, Repr

/-- The cluster client as `RemoveNode` uses it: what the remote call
`client.RemoveNode(ctx, &kronoshttp.RemoveNodeRequest{NodeID: nodeID})` returns, `none` for
nil.  The node id is the list of the bytes of the Go string. -/
structure ClusterClient (κ ε : Type) where
  RemoveNode : κ → List Byte → Option ε

/-- A server handle as `RemoveNode` uses it: what `kronosServer.NewClusterClient()` returns. -/
structure ClusterServer (κ ε : Type) where
  NewClusterClient : Except ε (ClusterClient κ ε)

/-- What `RemoveNode` does, in order. -/
inductive RemoveEvent (κ : Type)
  /-- The call `log.Infof(ctx, "Removing kronos node %s", nodeID)`. -/
  | infof (ctx : κ) (nodeID : List Byte)
  /-- The call `kronosServer.NewClusterClient()`. -/
  | newClusterClient
  /-- The remote call `client.RemoveNode(ctx, ...)`. -/
  | removeNode (ctx : κ) (nodeID : List Byte)
  /-- The deferred call `client.Close()`. -/
  | close
  deriving DecidableEq, Repr

/-- The function `RemoveNode`: the error returned (`none` for nil) and what was done. -/
def RemoveNode {κ ε : Type} (ctx : κ) (nodeID : List Byte) (kronosServer : ClusterServer κ ε) :
    Option (RemoveErr ε) × List (RemoveEvent κ) :=
  if nodeID.length = 0 then (some .nodeIDEmpty, [])
  else
    match kronosServer.NewClusterClient with
    | .error err => (some (.other err), [.infof ctx nodeID, .newClusterClient])
    | .ok client =>
      ((client.RemoveNode ctx nodeID).map .other,
        [.infof ctx nodeID, .newClusterClient, .removeNode ctx nodeID, .close])

/-! ## Vocabulary of the statements -/

/-- The base-128 little-endian varint of `n`: seven bits a byte, least significant group
first, the top bit set on every byte but the last. -/
def varint (n : Nat) : List Byte :=
  if h : n < 128 then [Fin.ofNat n]
  else Fin.ofNat (n % 128 + 128) :: varint (n / 128)
decreasing_by omega

/-- A length-delimited field on the wire: the tag byte, the varint of the length, the
content. -/
def lenField (tag : Byte) (content : List Byte) : List Byte :=
  tag :: (varint content.length ++ content)

/-- A field as `MarshalTo` writes it: nothing at all when the content is empty. -/
def optField (tag : Byte) (content : List Byte) : List Byte :=
  if content = [] then [] else lenField tag content

/-- The bytes of a varint as a reader accepts them, canonical or not: at most `n` bytes, the
top bit set on every byte but the last. -/
def isVarintBytes : Nat → List Byte → Bool
  | 0, _ => false
  | _ + 1, [] => false
  | _ + 1, [b] => decide (b.val < 128)
  | n + 1, b :: b2 :: rest => decide (128 ≤ b.val) && isVarintBytes n (b2 :: rest)

/-- The content of a field the message does not know, by wire type. -/
inductive Unknown
  /-- Wire type 0: a varint, of at most ten bytes. -/
  | varint (bs : List Byte)
  /-- Wire type 1: eight bytes. -/
  | fixed64 (bs : List Byte)
  /-- Wire type 2: a length and that many bytes. -/
  | bytes (content : List Byte)
  /-- Wire type 5: four bytes. -/
  | fixed32 (bs : List Byte)
  deriving DecidableEq, Repr

/-- The wire type of an unknown field. -/
def Unknown.wireType : Unknown → Nat
  | .varint _ => 0
  | .fixed64 _ => 1
  | .bytes _ => 2
  | .fixed32 _ => 5

/-- The bytes that follow the tag of an unknown field. -/
def Unknown.body : Unknown → List Byte
  | .varint bs => bs
  | .fixed64 bs => bs
  | .bytes content => Kronos.varint content.length ++ content
  | .fixed32 bs => bs

/-- The content of an unknown field is fully present. -/
def Unknown.WF : Unknown → Prop
  | .varint bs => isVarintBytes 10 bs = true
  | .fixed64 bs => bs.length = 8
  | .bytes _ => True
  | .fixed32 bs => bs.length = 4

instance (u : Unknown) : Decidable u.WF := by
  cases u <;> unfold Unknown.WF <;> infer_instance

/-- A field on the wire. -/
inductive Field
  /-- Field 1, length-delimited: the checksum. -/
  | checksum (content : List Byte)
  /-- Field 2, length-delimited: the payload. -/
  | data (content : List Byte)
  /-- A field with another number. -/
  | unknown (fieldNum : Nat) (u : Unknown)
  deriving DecidableEq, Repr

/-- The encoding of a field: the varint of `fieldNum << 3 | wireType`, then the content. -/
def Field.bytes : Field → List Byte
  | .checksum content => lenField 0xa content
  | .data content => lenField 0x12 content
  | .unknown fieldNum u => Kronos.varint (fieldNum * 8 + u.wireType) ++ u.body

/-- A well-formed field: a known field, or an unknown field with a number between 3 and
`2^29 - 1` whose content is fully present. -/
def Field.WF : Field → Prop
  | .checksum _ => True
  | .data _ => True
  | .unknown fieldNum u => 3 ≤ fieldNum ∧ fieldNum < 2 ^ 29 ∧ u.WF

instance (f : Field) : Decidable f.WF := by
  cases f <;> unfold Field.WF <;> infer_instance

/-- What decoding a field does to the receiver. -/
def Field.apply (m : FileExtent) : Field → FileExtent
  | .checksum content => { m with Checksum := content }
  | .data content => { m with Data := content }
  | .unknown _ _ => m

/-- The encoding of a sequence of fields. -/
def encodeFields : List Field → List Byte
  | [] => []
  | f :: fs => f.bytes ++ encodeFields fs

/-- The fields `MarshalTo` writes for a message: an empty field is left out. -/
def fieldsOf (m : FileExtent) : List Field :=
  (if m.Checksum = [] then [] else [Field.checksum m.Checksum])
    ++ (if m.Data = [] then [] else [Field.data m.Data])

/-- An error of the small file system `witnessEnv`. -/
inductive WitnessErr
  | notExist
  | corrupt
  | denied
  deriving DecidableEq, Repr

/-- A file of the small file system `witnessEnv`. -/
inductive WitnessFile
  /-- No file at the path. -/
  | absent
  /-- A record that reads back as `payload`. -/
  | record (payload : List Byte)
  /-- A file whose checksum does not match. -/
  | damaged
  /-- A path that `os.Stat` cannot examine. -/
  | unreachable
  deriving DecidableEq, Repr

/-- A small file system that satisfies the contract of the collaborators of
`metadata/node.go`: a state maps a path to a file, `Write` never fails, and the string of an
ID is that many zero bytes. It serves to instantiate the statements on concrete inputs. -/
def witnessEnv : NodeEnv (String → WitnessFile) WitnessErr where
  Join dir name := dir ++ "/" ++ name
  Stat fs path :=
    match fs path with
    | .absent => some .notExist
    | .unreachable => some .denied
    | _ => none
  IsNotExist e := decide (e = .notExist)
  Write fs path payload := (fun q => if q = path then .record payload else fs q, none)
  Read fs path :=
    match fs path with
    | .record payload => .ok payload
    | .absent => .error .notExist
    | _ => .error .corrupt
  IDString id := List.replicate id 0
  IDFromString raw := if raw.all (fun b => b = 0) then .ok raw.length else .error .corrupt

/-- The events of `k` failed iterations of the loop of `Now`, from the call number `c` on,
when the call number `j` fails with `errs j`. -/
def retryTrace {ε : Type} (errs : Nat → ε) : Nat → Nat → List (NowEvent ε)
  | _, 0 => []
  | c, k + 1 =>
    [.kronosTimeNow, .errorf (errs c) timePollInterval, .sleep timePollInterval]
      ++ retryTrace errs (c + 1) k

/-- The event is a call of `KronosTimeNow`. -/
def NowEvent.isCall {ε : Type} : NowEvent ε → Bool
  | .kronosTimeNow => true
  | _ => false

/-- The event is a call of `time.Sleep`. -/
def NowEvent.isSleep {ε : Type} : NowEvent ε → Bool
  | .sleep _ => true
  | _ => false

/-- The event is a call of `time.Sleep` for `d` nanoseconds. -/
def NowEvent.isSleepFor {ε : Type} (d : Int) : NowEvent ε → Bool
  | .sleep x => decide (x = d)
  | _ => false

/-- The event is the call `client.Close()`. -/
def RemoveEvent.isClose {κ : Type} : RemoveEvent κ → Bool
  | .close => true
  | _ => false

/-- The event is the remote call `client.RemoveNode`. -/
def RemoveEvent.isRemote {κ : Type} : RemoveEvent κ → Bool
  | .removeNode _ _ => true
  | _ => false

/-- The event is the call `kronosServer.NewClusterClient()`. -/
def RemoveEvent.isNewClient {κ : Type} : RemoveEvent κ → Bool
  | .newClusterClient => true
  | _ => false

/-- The content of a field, when it is a Checksum field. -/
def Field.checksumContent : Field → Option (List Byte)
  | .checksum content => some content
  | _ => none

/-- The content of a field, when it is a Data field. -/
def Field.dataContent : Field → Option (List Byte)
  | .data content => some content
  | _ => none

/-- The number the bytes of a varint stand for: seven bits a byte, least significant group
first. -/
def varintValue : List Byte → Nat
  | [] => 0
  | b :: rest => b.val % 128 + 128 * varintValue rest

/-- A tag that `Unmarshal` must reject, by its field number `w / 8` and its wire type `w % 8`:
field number 0, or wire type 4 (end group), or field 1 or 2 with a wire type other than 2. -/
def MalformedTag (w : Nat) : Prop :=
  w / 8 = 0 ∨ w % 8 = 4 ∨ ((w / 8 = 1 ∨ w / 8 = 2) ∧ w % 8 ≠ 2)

instance (w : Nat) : Decidable (MalformedTag w) := by
  unfold MalformedTag; infer_instance

/-- The tags read at the field boundaries by the loop of `Unmarshal`, in order: the loop
`for iNdEx < l` with the value `wire` of every iteration recorded. -/
def unmarshalTagsLoop (dAtA : List Byte) (l : Int) : Nat → Int → FileExtent → List Nat
  | 0, _, _ => []
  | fuel + 1, iNdEx, m =>
    if iNdEx < l then
      match readVarint dAtA l 11 0 iNdEx 0, unmarshalStep dAtA l iNdEx m with
      | .ok (wire, _), .ok (iNdEx, m) => wire :: unmarshalTagsLoop dAtA l fuel iNdEx m
      | .ok (wire, _), _ => [wire]
      | _, _ => []
    else []

/-- The tags that `Unmarshal` reads at the field boundaries of the input. -/
def unmarshalTags (recv : FileExtent) (dAtA : List Byte) : List Nat :=
  unmarshalTagsLoop dAtA dAtA.length (dAtA.length + 1) 0 recv

/-- The outcome of a call with its value replaced by `f` of it. -/
def Res.map {α β : Type} (f : α → β) : Res α → Res β
  | .ok a => .ok (f a)
  | .err e => .err e
  | .panicked p => .panicked p
  | .outOfFuel => .outOfFuel

/-- The receiver held in a memory, as a value. -/
def Store.values (st : Store) : FileExtent :=
  ⟨st.Checksum.bytes st.mem, st.Data.bytes st.mem⟩

/-- The elements of the input held in a memory. -/
def Store.input (st : Store) : List Byte := st.dAtA.bytes st.mem

/-- A slice of a memory: its length is at most its capacity and its capacity ends within
the memory. -/
def Slice.WF (s : Slice) (mem : List Byte) : Prop :=
  s.len ≤ s.cap ∧ s.ptr + s.cap ≤ mem.length

instance (s : Slice) (mem : List Byte) : Decidable (s.WF mem) := by
  unfold Slice.WF; infer_instance

/-- The three slices of a memory are slices of it. -/
def Store.WF (st : Store) : Prop :=
  st.dAtA.WF st.mem ∧ st.Checksum.WF st.mem ∧ st.Data.WF st.mem

instance (st : Store) : Decidable st.WF := by
  unfold Store.WF; infer_instance

/-- The `n` addresses from `a` and the `k` addresses from `b` have none in common. -/
def Apart (a n b k : Nat) : Prop :=
  n = 0 ∨ k = 0 ∨ a + n ≤ b ∨ b + k ≤ a

instance (a n b k : Nat) : Decidable (Apart a n b k) := by
  unfold Apart; infer_instance

/-- The receiver shares no memory: the addresses within the capacity of `Checksum`, those
within the capacity of `Data` and those of the elements of the input have none in common. -/
def Store.Separate (st : Store) : Prop :=
  Apart st.Checksum.ptr st.Checksum.cap st.Data.ptr st.Data.cap ∧
  Apart st.Checksum.ptr st.Checksum.cap st.dAtA.ptr st.dAtA.len ∧
  Apart st.Data.ptr st.Data.cap st.dAtA.ptr st.dAtA.len

instance (st : Store) : Decidable st.Separate := by
  unfold Store.Separate; infer_instance

/-- The tags read at the field boundaries by the loop of `Unmarshal` on a memory, in order:
the loop `for iNdEx < l` with the value `wire` of every iteration recorded. -/
def unmarshalTagsLoopMem (grow : Nat → Nat → Nat) (l : Int) : Nat → Int → Store → List Nat
  | 0, _, _ => []
  | fuel + 1, iNdEx, st =>
    if iNdEx < l then
      match readVarint (st.dAtA.bytes st.mem) l 11 0 iNdEx 0, unmarshalStepMem grow l iNdEx st with
      | .ok (wire, _), .ok (iNdEx, st) => wire :: unmarshalTagsLoopMem grow l fuel iNdEx st
      | .ok (wire, _), _ => [wire]
      | _, _ => []
    else []

/-- The tags that `Unmarshal` reads at the field boundaries of the input held in a memory. -/
def Store.tags (grow : Nat → Nat → Nat) (st : Store) : List Nat :=
  unmarshalTagsLoopMem grow st.dAtA.len (st.dAtA.len + 1) 0 st

/-- The capacity of a new array taken as the length needed. -/
def growExact : Nat → Nat → Nat := fun _ n => n

/-- A memory in which `Checksum` and `Data` are the same three bytes `01 02 03` of one
array, followed by the input `12 03 09 09 09`. -/
def sharedStore : Store :=
  ⟨[1, 2, 3, 0x12, 3, 9, 9, 9], ⟨3, 5, 5⟩, ⟨0, 3, 3⟩, ⟨0, 3, 3⟩⟩

/-- A memory of two arrays: `Checksum` is nil, `Data` is `09`, the input is
`92 80 80 80 80 01 01 55`. -/
def wideTagStore : Store :=
  ⟨[9, 0x92, 0x80, 0x80, 0x80, 0x80, 0x01, 0x01, 0x55], ⟨1, 8, 8⟩, ⟨0, 0, 0⟩, ⟨0, 1, 1⟩⟩

/-- A memory of three arrays: `Checksum` is `07`, `Data` is `09` with one spare byte of
capacity, the input is `0A 01 05`. -/
def witnessStore : Store :=
  ⟨[7, 9, 0, 0x0a, 1, 5], ⟨3, 3, 3⟩, ⟨0, 1, 1⟩, ⟨1, 1, 2⟩⟩

/-- A memory of three arrays: `Checksum` is `07`, `Data` is `09`, the input is the
Checksum field `0A 03 01 02 03`. -/
def witnessStoreCut : Store :=
  ⟨[7, 9, 0x0a, 3, 1, 2, 3], ⟨2, 5, 5⟩, ⟨0, 1, 1⟩, ⟨1, 1, 1⟩⟩

/-! ## Auxiliary facts -/

theorem wrapInt_eq {x : Int} (h1 : -9223372036854775808 ≤ x) (h2 : x < 9223372036854775808) :
    wrapInt x = x := by
  unfold wrapInt; omega

@[simp] theorem Res.ok_bind {α β : Type} (a : α) (f : α → Res β) : (Res.ok a >>= f) = f a := rfl
@[simp] theorem Res.err_bind {α β : Type} (e : Err) (f : α → Res β) :
    ((Res.err e : Res α) >>= f) = Res.err e := rfl
@[simp] theorem Res.panicked_bind {α β : Type} (p : Panic) (f : α → Res β) :
    ((Res.panicked p : Res α) >>= f) = Res.panicked p := rfl
@[simp] theorem Res.outOfFuel_bind {α β : Type} (f : α → Res β) :
    ((Res.outOfFuel : Res α) >>= f) = Res.outOfFuel := rfl
@[simp] theorem Res.pure_eq {α : Type} (a : α) : (pure a : Res α) = Res.ok a := rfl

theorem varint_lt {n : Nat} (h : n < 128) : varint n = [Fin.ofNat n] := by
  rw [varint]; simp [h]

theorem varint_ge {n : Nat} (h : 128 ≤ n) :
    varint n = Fin.ofNat (n % 128 + 128) :: varint (n / 128) := by
  rw [varint]; simp [Nat.not_lt.mpr h]

theorem varint_length_pos (n : Nat) : 0 < (varint n).length := by
  by_cases h : n < 128
  · simp [varint_lt h]
  · simp [varint_ge (Nat.not_lt.mp h)]

/-- A varint of a value below `2^(7k)` has at most `k` bytes. -/
theorem varint_length_le : ∀ (k n : Nat), 0 < k → n < 2 ^ (7 * k) → (varint n).length ≤ k
  | 0, _, h, _ => by omega
  | k + 1, n, _, hn => by
    by_cases h : n < 128
    · simp [varint_lt h]
    · have h128 : 128 ≤ n := Nat.not_lt.mp h
      rw [varint_ge h128]
      have hk : 0 < k := by
        rcases Nat.eq_zero_or_pos k with h0 | h0
        · subst h0; simp at hn; omega
        · exact h0
      have : n / 128 < 2 ^ (7 * k) := by
        rw [Nat.div_lt_iff_lt_mul (by norm_num)]
        have : 2 ^ (7 * (k + 1)) = 2 ^ (7 * k) * 128 := by
          rw [Nat.mul_add, Nat.pow_add]
        omega
      have := varint_length_le k (n / 128) hk this
      simp; omega

theorem index_append (pre : List Byte) (b : Byte) (post : List Byte) :
    index (pre ++ b :: post) pre.length = .ok b := by
  unfold index
  simp
  rw [List.getElem_append_right (Nat.le_refl _)]
  simp

theorem and_127 (n : Nat) : n &&& 0x7f = n % 128 :=
  Nat.and_pow_two_sub_one_eq_mod n 7

theorem or_128 {x : Nat} (h : x < 128) : x ||| 0x80 = x + 128 := by
  have := Nat.mul_add_lt_is_or (i := 7) h 1
  simp at this
  rw [Nat.lor_comm, ← this]; omega

theorem shift_or {d s : Nat} (w : Nat) (h : d < 128) :
    (d <<< s) ||| (w <<< (s + 7)) = (128 * w + d) <<< s := by
  have hb : d * 2 ^ s < 2 ^ (s + 7) := by
    rw [Nat.pow_add, Nat.mul_comm]
    exact Nat.mul_lt_mul_of_pos_left h (by positivity)
  have := Nat.mul_add_lt_is_or hb w
  rw [Nat.shiftLeft_eq, Nat.shiftLeft_eq, Nat.shiftLeft_eq, Nat.lor_comm,
    Nat.mul_comm w, ← this, Nat.pow_add]
  ring

/-- Reading back a varint written in canonical form. -/
theorem readVarint_varint : ∀ (v : Nat) (pre post : List Byte) (fuel shift acc : Nat),
    (varint v).length ≤ fuel → shift < 64 → v * 2 ^ shift < 2 ^ 64 →
    (pre ++ varint v ++ post).length < 2 ^ 63 →
    readVarint (pre ++ varint v ++ post) (pre ++ varint v ++ post).length fuel shift
        pre.length acc
      = .ok (acc ||| (v <<< shift), (pre.length + (varint v).length : Nat)) := by
  intro v
  induction v using Nat.strong_induction_on with
  | _ v ih =>
    intro pre post fuel shift acc hfuel hs hv hl
    have hpos := varint_length_pos v
    obtain ⟨fuel, rfl⟩ : ∃ f, fuel = f + 1 := ⟨fuel - 1, by omega⟩
    by_cases h : v < 128
    · rw [varint_lt h] at hl hfuel ⊢
      unfold readVarint
      simp only [List.append_assoc, List.singleton_append] at hl ⊢
      rw [index_append]
      have h1 : ¬ (64 ≤ shift) := by omega
      have h2 : ¬ ((pre ++ Fin.ofNat v :: post).length : Int) ≤ (pre.length : Int) := by
        simp
      have hval : (Fin.ofNat v : Byte).val = v := by
        simp [Fin.ofNat]; omega
      have hmod : (v <<< shift) % 18446744073709551616 = v <<< shift := by
        rw [Nat.shiftLeft_eq]; exact Nat.mod_eq_of_lt (by simpa using hv)
      simp only [ge_iff_le, h1, h2, if_false, Res.ok_bind, hval, and_127,
        Nat.mod_eq_of_lt h, hmod, h, if_true, List.length_singleton]
      rw [wrapInt_eq (by omega) (by simp at hl; omega)]
      simp
    · have h128 : 128 ≤ v := Nat.not_lt.mp h
      rw [varint_ge h128] at hl hfuel ⊢
      unfold readVarint
      simp only [List.append_assoc, List.cons_append] at hl ⊢
      rw [index_append]
      have h1 : ¬ (64 ≤ shift) := by omega
      have h2 : ¬ ((pre ++ Fin.ofNat (v % 128 + 128) :: (varint (v / 128) ++ post)).length : Int)
          ≤ (pre.length : Int) := by
        simp; omega
      have hval : (Fin.ofNat (v % 128 + 128) : Byte).val = v % 128 + 128 := by
        simp [Fin.ofNat]; omega
      have hd : (v % 128 + 128) % 128 = v % 128 := by omega
      have hle : (v % 128) * 2 ^ shift ≤ v * 2 ^ shift :=
        Nat.mul_le_mul_right _ (Nat.mod_le _ _)
      have hmod : ((v % 128) <<< shift) % 18446744073709551616 = (v % 128) <<< shift := by
        rw [Nat.shiftLeft_eq]; exact Nat.mod_eq_of_lt (by simp at hv; omega)
      have h3 : ¬ (v % 128 + 128 < 128) := by omega
      simp only [ge_iff_le, h1, h2, if_false, Res.ok_bind, hval, and_127, hd, hmod, h3]
      rw [wrapInt_eq (by omega) (by simp at hl; omega)]
      have hv2 : v / 128 * 2 ^ (shift + 7) < 2 ^ 64 := by
        have : v / 128 * 2 ^ (shift + 7) ≤ v * 2 ^ shift := by
          rw [Nat.pow_add, Nat.mul_comm (2 ^ shift), ← Nat.mul_assoc]
          exact Nat.mul_le_mul_right _ (Nat.div_mul_le_self v 128)
        omega
      have hs2 : shift + 7 < 64 := by
        by_contra hc
        have h64 : 2 ^ 64 ≤ 2 ^ (shift + 7) := Nat.pow_le_pow_right (by norm_num) (by omega)
        have : 1 ≤ v / 128 := (Nat.one_le_div_iff (by norm_num)).mpr h128
        have : 2 ^ (shift + 7) ≤ v / 128 * 2 ^ (shift + 7) := Nat.le_mul_of_pos_left _ this
        omega
      have e : pre ++ Fin.ofNat (v % 128 + 128) :: (varint (v / 128) ++ post)
          = (pre ++ [Fin.ofNat (v % 128 + 128)]) ++ varint (v / 128) ++ post := by simp
      have e2 : ((pre.length : Int) + 1) = ((pre ++ [(Fin.ofNat (v % 128 + 128) : Byte)]).length : Nat) := by
        simp
      rw [e2, e]
      rw [ih (v / 128) (Nat.div_lt_self (by omega) (by norm_num)) _ post fuel (shift + 7) _
        (by simp at hfuel; omega) hs2 hv2 (by rw [← e]; exact hl)]
      rw [Nat.or_assoc, shift_or _ (Nat.mod_lt _ (by norm_num))]
      have : 128 * (v / 128) + v % 128 = v := Nat.div_add_mod v 128
      rw [this]
      simp
      omega

/-- Reading a canonical varint of a `uint64` that sits at index `i` of the input. -/
theorem readVarint_at {D pre post : List Byte} {v : Nat} {i : Int}
    (hD : D = pre ++ varint v ++ post) (hi : i = pre.length) (hv : v < 2 ^ 64)
    (hl : D.length < 2 ^ 63) :
    readVarint D D.length 11 0 i 0 = .ok (v, i + (varint v).length) := by
  subst hD hi
  have h10 : (varint v).length ≤ 10 :=
    varint_length_le 10 v (by norm_num) (lt_of_lt_of_le hv (by norm_num))
  rw [readVarint_varint v pre post 11 0 0 (by omega) (by norm_num) (by simpa using hv) hl]
  simp

theorem toInt64_eq {n : Nat} (h : n < 2 ^ 63) : toInt64 n = n := by
  unfold toInt64; exact wrapInt_eq (by omega) (by omega)

theorem slice_append (pre c post : List Byte) (lo hi : Int) (hlo : lo = pre.length)
    (hhi : hi = lo + c.length) : slice (pre ++ c ++ post) lo hi = .ok c := by
  subst hlo hhi
  unfold slice
  have h : (0 : Int) ≤ pre.length ∧ (pre.length : Int) ≤ pre.length + c.length ∧
      (pre.length : Int) + c.length ≤ ((pre ++ c ++ post).length : Nat) := by
    simp
  rw [if_pos h]
  have e : ((pre.length : Int) + c.length).toNat - (pre.length : Int).toNat = c.length := by
    omega
  rw [e]
  simp

theorem varint_10 : varint 10 = [0xa] := by rw [varint_lt (by norm_num)]; rfl
theorem varint_18 : varint 18 = [0x12] := by rw [varint_lt (by norm_num)]; rfl

/-- Reading the length and the content of a complete length-delimited field. -/
theorem unmarshalBytes_at {D pre post : List Byte} (c : List Byte) {i : Int}
    (hD : D = pre ++ (varint c.length ++ c) ++ post) (hi : i = pre.length)
    (hl : D.length < 2 ^ 63) :
    unmarshalBytes D D.length i = .ok (i + (varint c.length).length + c.length, c) := by
  have hD2 : D = pre ++ varint c.length ++ (c ++ post) := by rw [hD]; simp
  have hD3 : D = (pre ++ varint c.length) ++ c ++ post := by rw [hD]; simp
  have hlen : D.length = pre.length + (varint c.length).length + c.length + post.length := by
    rw [hD]; simp; omega
  have hc : c.length < 2 ^ 63 := by omega
  unfold unmarshalBytes
  rw [readVarint_at hD2 hi (lt_trans hc (by norm_num)) hl, Res.ok_bind]
  dsimp only
  rw [toInt64_eq hc]
  have hw : wrapInt (i + ((varint c.length).length : Int) + (c.length : Int))
      = i + ((varint c.length).length : Int) + (c.length : Int) :=
    wrapInt_eq (by omega) (by omega)
  rw [hw, if_neg (by omega), if_neg (by omega)]
  rw [show slice D (i + ((varint c.length).length : Int))
      (i + ((varint c.length).length : Int) + (c.length : Int)) = .ok c from by
    rw [hD3]; exact slice_append _ c post _ _ (by simp [hi]) rfl]
  rfl

theorem unmarshalField_10 (D : List Byte) (l pre i : Int) (m : FileExtent) :
    unmarshalField D l pre 10 i m
      = (unmarshalBytes D l i >>= fun r => .ok (r.1, { m with Checksum := r.2 })) := by
  unfold unmarshalField
  have e1 : toInt32 (10 >>> 3) = 1 := by decide
  have e2 : toInt64 (10 &&& 7) = 2 := by decide
  dsimp only
  rw [e1, e2, if_neg (by decide), if_neg (by decide), if_pos rfl, if_neg (by decide)]

theorem unmarshalField_18 (D : List Byte) (l pre i : Int) (m : FileExtent) :
    unmarshalField D l pre 18 i m
      = (unmarshalBytes D l i >>= fun r => .ok (r.1, { m with Data := r.2 })) := by
  unfold unmarshalField
  have e1 : toInt32 (18 >>> 3) = 2 := by decide
  have e2 : toInt64 (18 &&& 7) = 2 := by decide
  dsimp only
  rw [e1, e2, if_neg (by decide), if_neg (by decide), if_neg (by decide), if_pos rfl,
    if_neg (by decide)]

/-- One iteration of `Unmarshal` on a complete Checksum field at index `i`. -/
theorem unmarshalStep_checksum {D pre post : List Byte} (c : List Byte) (m : FileExtent)
    {i : Int} (hD : D = pre ++ lenField 0xa c ++ post) (hi : i = pre.length)
    (hl : D.length < 2 ^ 63) :
    unmarshalStep D D.length i m
      = .ok (i + (lenField 0xa c).length, { m with Checksum := c }) := by
  have hD1 : D = pre ++ varint 10 ++ (varint c.length ++ c ++ post) := by
    rw [hD, varint_10]; simp [lenField]
  have hD2 : D = (pre ++ [0xa]) ++ (varint c.length ++ c) ++ post := by
    rw [hD]; simp [lenField]
  unfold unmarshalStep
  rw [readVarint_at hD1 hi (by norm_num) hl, Res.ok_bind]
  dsimp only
  rw [unmarshalField_10, unmarshalBytes_at c hD2 (by rw [hi, varint_10]; simp) hl, Res.ok_bind]
  simp only [varint_10, lenField, List.length_cons, List.length_append, List.length_nil]
  congr 2
  push_cast
  omega

/-- One iteration of `Unmarshal` on a complete Data field at index `i`. -/
theorem unmarshalStep_data {D pre post : List Byte} (c : List Byte) (m : FileExtent)
    {i : Int} (hD : D = pre ++ lenField 0x12 c ++ post) (hi : i = pre.length)
    (hl : D.length < 2 ^ 63) :
    unmarshalStep D D.length i m
      = .ok (i + (lenField 0x12 c).length, { m with Data := c }) := by
  have hD1 : D = pre ++ varint 18 ++ (varint c.length ++ c ++ post) := by
    rw [hD, varint_18]; simp [lenField]
  have hD2 : D = (pre ++ [0x12]) ++ (varint c.length ++ c) ++ post := by
    rw [hD]; simp [lenField]
  unfold unmarshalStep
  rw [readVarint_at hD1 hi (by norm_num) hl, Res.ok_bind]
  dsimp only
  rw [unmarshalField_18, unmarshalBytes_at c hD2 (by rw [hi, varint_18]; simp) hl, Res.ok_bind]
  simp only [varint_18, lenField, List.length_cons, List.length_append, List.length_nil]
  congr 2
  push_cast
  omega

/-- Skipping the bytes of a varint that sit at index `pre.length`. -/
theorem skipVarint_bytes : ∀ (n : Nat) (bs pre post : List Byte) (fuel shift : Nat),
    isVarintBytes n bs = true → n ≤ fuel → shift + 7 * n ≤ 70 →
    (pre ++ bs ++ post).length < 2 ^ 63 →
    skipVarint (pre ++ bs ++ post) (pre ++ bs ++ post).length fuel shift pre.length
      = .ok ((pre.length + bs.length : Nat) : Int)
  | 0, _, _, _, _, _, h, _, _, _ => by simp [isVarintBytes] at h
  | _ + 1, [], _, _, _, _, h, _, _, _ => by simp [isVarintBytes] at h
  | n + 1, [b], pre, post, fuel, shift, h, hf, hs, hl => by
    obtain ⟨fuel, rfl⟩ : ∃ f, fuel = f + 1 := ⟨fuel - 1, by omega⟩
    have hb : b.val < 128 := by simpa [isVarintBytes] using h
    unfold skipVarint
    simp only [List.append_assoc, List.singleton_append, List.length_append,
      List.length_cons] at hl ⊢
    rw [if_neg (by omega), if_neg (by push_cast; omega)]
    have hw : wrapInt ((pre.length : Int) + 1) = pre.length + 1 :=
      wrapInt_eq (by omega) (by omega)
    have hw2 : wrapInt ((pre.length : Int) + 1 - 1) = pre.length := by
      rw [wrapInt_eq (by omega) (by omega)]; omega
    try dsimp only
    rw [hw, hw2, index_append, Res.ok_bind, if_pos hb]
    simp
  | n + 1, b :: b2 :: rest, pre, post, fuel, shift, h, hf, hs, hl => by
    obtain ⟨fuel, rfl⟩ : ∃ f, fuel = f + 1 := ⟨fuel - 1, by omega⟩
    have hb : 128 ≤ b.val ∧ isVarintBytes n (b2 :: rest) = true := by
      simpa [isVarintBytes] using h
    have ih := skipVarint_bytes n (b2 :: rest) (pre ++ [b]) post fuel (shift + 7) hb.2
      (by omega) (by omega) (by simpa using hl)
    have e : pre ++ [b] ++ b2 :: rest ++ post = pre ++ b :: b2 :: rest ++ post := by simp
    rw [e] at ih
    unfold skipVarint
    have hlen : (pre ++ b :: b2 :: rest ++ post).length
        = pre.length + (rest.length + 2) + post.length := by
      simp; omega
    rw [hlen] at hl
    rw [if_neg (by omega), if_neg (by rw [hlen]; push_cast; omega)]
    have hw : wrapInt ((pre.length : Int) + 1) = pre.length + 1 :=
      wrapInt_eq (by omega) (by omega)
    have hw2 : wrapInt ((pre.length : Int) + 1 - 1) = pre.length := by
      rw [wrapInt_eq (by omega) (by omega)]; omega
    try dsimp only
    rw [hw, hw2]
    have hidx : index (pre ++ b :: b2 :: rest ++ post) pre.length = .ok b := by
      have := index_append pre b (b2 :: rest ++ post)
      simpa using this
    rw [hidx, Res.ok_bind, if_neg (by omega)]
    have e3 : ((pre.length : Int) + 1) = ((pre ++ [b]).length : Nat) := by simp
    rw [e3, ih]
    simp
    omega

theorem tag_and_7 {fieldNum wt : Nat} (h : wt < 8) : (fieldNum * 8 + wt) &&& 7 = wt := by
  have := Nat.and_pow_two_sub_one_eq_mod (fieldNum * 8 + wt) 3
  simp at this
  rw [this]; omega

theorem tag_shift_3 {fieldNum wt : Nat} (h : wt < 8) : (fieldNum * 8 + wt) >>> 3 = fieldNum := by
  rw [Nat.shiftRight_eq_div_pow]; norm_num; omega

theorem Unknown.wireType_lt (u : Unknown) : u.wireType < 8 := by
  cases u <;> simp [Unknown.wireType]

/-- The statements of wire type 2 in `skipFileextent`, on a complete field. -/
theorem skipBytes_at {D pre post : List Byte} (c : List Byte) {i : Int}
    (hD : D = pre ++ (varint c.length ++ c) ++ post) (hi : i = pre.length)
    (hl : D.length < 2 ^ 63) :
    skipBytes D D.length i = .ok (i + (varint c.length).length + c.length) := by
  have hD2 : D = pre ++ varint c.length ++ (c ++ post) := by rw [hD]; simp
  have hlen : D.length = pre.length + (varint c.length).length + c.length + post.length := by
    rw [hD]; simp; omega
  have hc : c.length < 2 ^ 63 := by omega
  unfold skipBytes
  rw [readVarint_at hD2 hi (lt_trans hc (by norm_num)) hl, Res.ok_bind]
  dsimp only
  rw [toInt64_eq hc, if_neg (by omega), wrapInt_eq (by omega) (by omega)]

/-- The function `skipFileextent` on a slice that starts with a complete unknown field
returns the length of that field. -/
theorem skipFileextent_unknown (fieldNum : Nat) (u : Unknown) (post : List Byte)
    (hfn : fieldNum < 2 ^ 29) (hu : u.WF)
    (hl : ((Field.unknown fieldNum u).bytes ++ post).length < 2 ^ 63) :
    skipFileextent ((Field.unknown fieldNum u).bytes ++ post)
      = .ok ((Field.unknown fieldNum u).bytes.length : Int) := by
  have hwt := u.wireType_lt
  generalize hS : (Field.unknown fieldNum u).bytes ++ post = S at hl ⊢
  have hS1 : S = [] ++ varint (fieldNum * 8 + u.wireType) ++ (u.body ++ post) := by
    rw [← hS]; simp [Field.bytes]
  have hSlen : S.length
      = (varint (fieldNum * 8 + u.wireType)).length + u.body.length + post.length := by
    rw [hS1]; simp; omega
  have hpos := varint_length_pos (fieldNum * 8 + u.wireType)
  have htag : fieldNum * 8 + u.wireType < 2 ^ 64 := by
    have : (2 : Nat) ^ 29 * 8 + 8 < 2 ^ 64 := by norm_num
    omega
  have hblen : (Field.unknown fieldNum u).bytes.length
      = (varint (fieldNum * 8 + u.wireType)).length + u.body.length := by
    simp [Field.bytes]
  unfold skipFileextent
  rw [skipFileextentFuel]
  dsimp only
  rw [if_pos (by omega), readVarint_at hS1 (by simp) htag hl, Res.ok_bind]
  dsimp only
  rw [tag_and_7 hwt, toInt64_eq (lt_trans hwt (by norm_num)), hblen]
  cases u with
  | varint bs =>
    simp only [Unknown.wireType, Unknown.body, Unknown.WF] at *
    rw [if_pos (by rfl)]
    have := skipVarint_bytes 10 bs (varint (fieldNum * 8 + 0)) post 11 0 hu (by norm_num)
      (by norm_num) (by rw [hS1] at hl; simpa using hl)
    have e : varint (fieldNum * 8 + 0) ++ bs ++ post = S := by rw [hS1]; simp
    rw [e] at this
    rw [show (0 : Int) + ((varint (fieldNum * 8 + 0)).length : Int)
      = ((varint (fieldNum * 8 + 0)).length : Nat) from by simp, this]
  | fixed64 bs =>
    simp only [Unknown.wireType, Unknown.body, Unknown.WF] at *
    rw [if_neg (by decide), if_pos (by rfl), wrapInt_eq (by omega) (by omega), hu]
    simp
  | bytes c =>
    simp only [Unknown.wireType, Unknown.body, Unknown.WF] at *
    rw [if_neg (by decide), if_neg (by decide), if_pos (by rfl)]
    have hS2 : S = varint (fieldNum * 8 + 2) ++ (varint c.length ++ c) ++ post := by
      rw [hS1]; simp
    rw [skipBytes_at c hS2 (by simp) hl]
    simp
    omega
  | fixed32 bs =>
    simp only [Unknown.wireType, Unknown.body, Unknown.WF] at *
    rw [if_neg (by decide), if_neg (by decide), if_neg (by decide), if_neg (by decide),
      if_neg (by decide), if_pos (by rfl), wrapInt_eq (by omega) (by omega), hu]
    simp

theorem toInt32_eq {n : Nat} (h : n < 2 ^ 31) : toInt32 n = n := by
  unfold toInt32; omega

theorem sliceFrom_append (pre rest : List Byte) (i : Int) (hi : i = pre.length) :
    sliceFrom (pre ++ rest) i = .ok rest := by
  subst hi
  unfold sliceFrom
  rw [if_pos (by simp)]
  simp

/-- One iteration of `Unmarshal` on a complete unknown field at index `i`. -/
theorem unmarshalStep_unknown {D pre post : List Byte} (fieldNum : Nat) (u : Unknown)
    (m : FileExtent) {i : Int} (hD : D = pre ++ (Field.unknown fieldNum u).bytes ++ post)
    (hi : i = pre.length) (hwf : (Field.unknown fieldNum u).WF) (hl : D.length < 2 ^ 63) :
    unmarshalStep D D.length i m = .ok (i + (Field.unknown fieldNum u).bytes.length, m) := by
  obtain ⟨h3, hfn, hu⟩ := hwf
  have hwt := u.wireType_lt
  have hD1 : D = pre ++ varint (fieldNum * 8 + u.wireType) ++ (u.body ++ post) := by
    rw [hD]; simp [Field.bytes]
  have hD2 : D = pre ++ ((Field.unknown fieldNum u).bytes ++ post) := by
    rw [hD]; simp
  have hlen : D.length = pre.length + (Field.unknown fieldNum u).bytes.length + post.length := by
    rw [hD]; simp; omega
  have htag : fieldNum * 8 + u.wireType < 2 ^ 64 := by
    have : (2 : Nat) ^ 29 * 8 + 8 < 2 ^ 64 := by norm_num
    omega
  have hfn31 : fieldNum < 2 ^ 31 := lt_trans hfn (by norm_num)
  have hne4 : ¬ ((u.wireType : Int) = 4) := by cases u <;> simp [Unknown.wireType]
  unfold unmarshalStep
  rw [readVarint_at hD1 hi htag hl, Res.ok_bind]
  dsimp only
  unfold unmarshalField
  dsimp only
  rw [tag_and_7 hwt, tag_shift_3 hwt, toInt64_eq (lt_trans hwt (by norm_num)),
    toInt32_eq hfn31, if_neg hne4, if_neg (by omega), if_neg (by omega), if_neg (by omega)]
  unfold unmarshalSkip
  dsimp only
  have hsl : sliceFrom D i = .ok ((Field.unknown fieldNum u).bytes ++ post) := by
    rw [hD2]; exact sliceFrom_append _ _ _ hi
  rw [hsl, Res.ok_bind,
    skipFileextent_unknown fieldNum u post hfn hu (by rw [hD2] at hl; simp at hl ⊢; omega),
    Res.ok_bind, if_neg (by omega), wrapInt_eq (by omega) (by omega), if_neg (by omega),
    Res.ok_bind]

/-- One iteration of `Unmarshal` on a complete well-formed field at index `i`. -/
theorem unmarshalStep_field {D pre post : List Byte} (f : Field) (m : FileExtent) {i : Int}
    (hD : D = pre ++ f.bytes ++ post) (hi : i = pre.length) (hwf : f.WF)
    (hl : D.length < 2 ^ 63) :
    unmarshalStep D D.length i m = .ok (i + f.bytes.length, f.apply m) := by
  cases f with
  | checksum c => exact unmarshalStep_checksum c m hD hi hl
  | data c => exact unmarshalStep_data c m hD hi hl
  | unknown fieldNum u => exact unmarshalStep_unknown fieldNum u m hD hi hwf hl

theorem Field.bytes_length_pos (f : Field) : 0 < f.bytes.length := by
  cases f with
  | checksum c => simp [Field.bytes, lenField]
  | data c => simp [Field.bytes, lenField]
  | unknown fieldNum u =>
    have := varint_length_pos (fieldNum * 8 + u.wireType)
    simp [Field.bytes]; omega

theorem encodeFields_length_ge : ∀ fs : List Field, fs.length ≤ (encodeFields fs).length
  | [] => by simp [encodeFields]
  | f :: fs => by
    have := encodeFields_length_ge fs
    have := f.bytes_length_pos
    simp [encodeFields]; omega

/-- The loop of `Unmarshal` on a sequence of complete well-formed fields: every field is
decoded in turn. -/
theorem unmarshalLoop_fields : ∀ (fs : List Field) (pre : List Byte) (m : FileExtent)
    (fuel : Nat), (∀ f ∈ fs, f.WF) → fs.length < fuel →
    (pre ++ encodeFields fs).length < 2 ^ 63 →
    unmarshalLoop (pre ++ encodeFields fs) (pre ++ encodeFields fs).length fuel pre.length m
      = .ok (fs.foldl Field.apply m)
  | [], pre, m, fuel, _, hf, _ => by
    obtain ⟨fuel, rfl⟩ : ∃ f, fuel = f + 1 := ⟨fuel - 1, by simp at hf; omega⟩
    unfold unmarshalLoop
    simp [encodeFields]
  | f :: fs, pre, m, fuel, hwf, hf, hl => by
    obtain ⟨fuel, rfl⟩ : ∃ f, fuel = f + 1 := ⟨fuel - 1, by simp at hf; omega⟩
    have hpos := f.bytes_length_pos
    have hD : pre ++ encodeFields (f :: fs) = pre ++ f.bytes ++ encodeFields fs := by
      simp [encodeFields]
    have hD2 : pre ++ encodeFields (f :: fs) = (pre ++ f.bytes) ++ encodeFields fs := by
      simp [encodeFields]
    have ih := unmarshalLoop_fields fs (pre ++ f.bytes) (f.apply m) fuel
      (fun g hg => hwf g (List.mem_cons_of_mem _ hg)) (by simp at hf; omega)
      (by rw [← hD2]; exact hl)
    rw [← hD2] at ih
    unfold unmarshalLoop
    rw [if_pos (by rw [hD]; simp; omega),
      unmarshalStep_field f m hD rfl (hwf f (List.mem_cons_self _ _)) hl, Res.ok_bind]
    dsimp only
    rw [show (pre.length : Int) + (f.bytes.length : Int) = ((pre ++ f.bytes).length : Nat) from by
      simp, ih]
    rfl

/-- Decoding a sequence of complete well-formed fields: every field is applied in turn. -/
theorem Unmarshal_fields (fs : List Field) (m : FileExtent) (hwf : ∀ f ∈ fs, f.WF)
    (hl : (encodeFields fs).length < 2 ^ 63) :
    m.Unmarshal (encodeFields fs) = .ok (fs.foldl Field.apply m) := by
  have := unmarshalLoop_fields fs [] m ((encodeFields fs).length + 1) hwf
    (by have := encodeFields_length_ge fs; omega) (by simpa using hl)
  simpa [FileExtent.Unmarshal] using this

/-! ### The encoder -/

theorem toUint64_eq {n : Nat} (h : n < 2 ^ 64) : toUint64 (n : Int) = n := by
  unfold toUint64; omega

theorem shiftRight_7 (x : Nat) : x >>> 7 = x / 128 := by
  rw [Nat.shiftRight_eq_div_pow]

theorem sovLoop_eq : ∀ (x fuel : Nat) (n : Int), (varint x).length ≤ fuel → 0 ≤ n →
    n + (varint x).length < 2 ^ 63 → sovLoop fuel x n = .ok (n + (varint x).length) := by
  intro x
  induction x using Nat.strong_induction_on with
  | _ x ih =>
    intro fuel n hf hn hlt
    have hpos := varint_length_pos x
    obtain ⟨fuel, rfl⟩ : ∃ f, fuel = f + 1 := ⟨fuel - 1, by omega⟩
    unfold sovLoop
    dsimp only
    rw [shiftRight_7]
    by_cases h : x < 128
    · rw [varint_lt h] at hlt ⊢
      simp only [List.length_singleton] at hlt ⊢
      rw [if_pos (by omega), wrapInt_eq (by omega) (by omega)]
      rfl
    · have h128 : 128 ≤ x := Nat.not_lt.mp h
      rw [varint_ge h128] at hlt hf ⊢
      simp only [List.length_cons] at hlt hf ⊢
      rw [if_neg (by omega), wrapInt_eq (by omega) (by push_cast at hlt; omega),
        ih (x / 128) (by omega) fuel (n + 1) (by omega) (by omega) (by push_cast at hlt ⊢; omega)]
      congr 1
      push_cast
      omega

theorem varint_length_le_10 {x : Nat} (h : x < 2 ^ 64) : (varint x).length ≤ 10 :=
  varint_length_le 10 x (by norm_num) (lt_of_lt_of_le h (by norm_num))

/-- The function `sovFileextent` counts the bytes of the varint. -/
theorem sovFileextent_eq {x : Nat} (h : x < 2 ^ 64) :
    sovFileextent x = .ok ((varint x).length : Int) := by
  have h10 := varint_length_le_10 h
  unfold sovFileextent
  rw [sovLoop_eq x 10 0 h10 (le_refl _) (by omega)]
  simp

theorem setIndex_append (pre : List Byte) (z b : Byte) (rest : List Byte) (i : Int)
    (hi : i = pre.length) : setIndex (pre ++ z :: rest) i b = .ok (pre ++ b :: rest) := by
  subst hi
  unfold setIndex
  rw [if_pos (by simp)]
  simp

theorem encodeVarintLoop_eq : ∀ (v fuel : Nat) (pre zs : List Byte),
    (varint v).length ≤ fuel → (varint v).length ≤ zs.length →
    (pre ++ zs).length < 2 ^ 63 →
    encodeVarintLoop fuel (pre ++ zs) pre.length v
      = .ok (pre ++ varint v ++ zs.drop (varint v).length,
          ((pre.length + (varint v).length : Nat) : Int)) := by
  intro v
  induction v using Nat.strong_induction_on with
  | _ v ih =>
    intro fuel pre zs hf hz hl
    have hpos := varint_length_pos v
    obtain ⟨fuel, rfl⟩ : ∃ f, fuel = f + 1 := ⟨fuel - 1, by omega⟩
    obtain ⟨z, zs, rfl⟩ : ∃ z zs', zs = z :: zs' := by
      cases zs with
      | nil => exact absurd (show (varint v).length ≤ 0 from hz) (by omega)
      | cons z zs' => exact ⟨z, zs', rfl⟩
    simp only [List.length_append, List.length_cons] at hl
    unfold encodeVarintLoop
    by_cases h : v < 128
    · rw [varint_lt h] at hz ⊢
      rw [if_neg (by omega), setIndex_append pre z _ zs _ rfl, Res.ok_bind,
        wrapInt_eq (by omega) (by omega)]
      simp
    · have h128 : 128 ≤ v := Nat.not_lt.mp h
      rw [varint_ge h128] at hz hf ⊢
      simp only [List.length_cons] at hz hf ⊢
      rw [if_pos h128, setIndex_append pre z _ zs _ rfl, Res.ok_bind,
        wrapInt_eq (by omega) (by omega), shiftRight_7, and_127,
        or_128 (Nat.mod_lt _ (by norm_num))]
      have e : pre ++ Fin.ofNat (v % 128 + 128) :: zs
          = (pre ++ [Fin.ofNat (v % 128 + 128)]) ++ zs := by simp
      have e2 : (pre.length : Int) + 1
          = ((pre ++ [(Fin.ofNat (v % 128 + 128) : Byte)]).length : Nat) := by simp
      rw [e, e2, ih (v / 128) (by omega) fuel _ zs (by omega) (by omega) (by simp; omega)]
      simp
      omega

theorem copyAt_append (pre zs src : List Byte) (i : Int) (hi : i = pre.length)
    (hz : src.length ≤ zs.length) :
    copyAt (pre ++ zs) i src = .ok (pre ++ src ++ zs.drop src.length, (src.length : Int)) := by
  subst hi
  unfold copyAt
  rw [if_pos (by simp)]
  have hmin : min ((pre ++ zs).length - ((pre.length : Int)).toNat) src.length = src.length := by
    simp; omega
  dsimp only
  rw [hmin]
  simp

theorem optField_length_le (tag : Byte) (c : List Byte) (h : c.length < 2 ^ 63) :
    (optField tag c).length ≤ c.length + 10 := by
  unfold optField
  split
  · simp
  · have := varint_length_le 9 c.length (by norm_num) (by simpa using h)
    simp [lenField]; omega

/-- One block of `Size` adds the length of the field as it is written. -/
theorem sizeField_eq (tag : Byte) (c : List Byte) (n : Int) (hn : 0 ≤ n)
    (hl : n + c.length + 10 < 2 ^ 63) :
    sizeField c n = .ok (n + (optField tag c).length) := by
  unfold sizeField optField
  dsimp only
  by_cases hc : c = []
  · subst hc; simp
  · have hpos : 0 < c.length := List.length_pos.mpr hc
    have h9 := varint_length_le 9 c.length (by norm_num) (by norm_num; omega)
    rw [if_pos (by omega), toUint64_eq (by omega), sovFileextent_eq (by omega), Res.ok_bind,
      if_neg hc, @wrapInt_eq (1 + (c.length : Int)) (by omega) (by omega),
      @wrapInt_eq (1 + (c.length : Int) + ((varint c.length).length : Int)) (by omega) (by omega),
      wrapInt_eq (by omega) (by omega)]
    simp [lenField]
    omega

/-- One block of `MarshalTo` writes the field at `i` and leaves the rest of the buffer. -/
theorem marshalField_eq (tag : Byte) (c pre zs : List Byte) (i : Int) (hi : i = pre.length)
    (hz : (optField tag c).length ≤ zs.length) (hl : (pre ++ zs).length < 2 ^ 63) :
    marshalField tag c (pre ++ zs) i
      = .ok (pre ++ optField tag c ++ zs.drop (optField tag c).length,
          i + (optField tag c).length) := by
  subst hi
  unfold marshalField
  by_cases hc : c = []
  · subst hc; simp [optField]
  · have hpos : 0 < c.length := List.length_pos.mpr hc
    have hopt : optField tag c = tag :: (varint c.length ++ c) := by
      simp [optField, hc, lenField]
    rw [hopt] at hz ⊢
    simp only [List.length_cons, List.length_append] at hz hl ⊢
    obtain ⟨z, zs, rfl⟩ : ∃ z zs', zs = z :: zs' := by
      cases zs with
      | nil => simp at hz
      | cons z zs' => exact ⟨z, zs', rfl⟩
    simp only [List.length_cons] at hz hl
    have hc64 : c.length < 2 ^ 64 := by omega
    have h10 := varint_length_le_10 hc64
    rw [if_pos (by omega), setIndex_append pre z tag zs _ rfl, Res.ok_bind]
    try dsimp only
    rw [wrapInt_eq (by omega) (by omega), toUint64_eq hc64]
    unfold encodeVarintFileextent
    have e : pre ++ tag :: zs = (pre ++ [tag]) ++ zs := by simp
    have e2 : (pre.length : Int) + 1 = ((pre ++ [tag]).length : Nat) := by simp
    rw [e, e2, encodeVarintLoop_eq c.length 10 (pre ++ [tag]) zs h10 (by omega)
      (by simp; omega), Res.ok_bind]
    dsimp only
    rw [copyAt_append (pre ++ [tag] ++ varint c.length) _ c _ (by simp; omega) (by simp; omega),
      Res.ok_bind]
    dsimp only
    rw [wrapInt_eq (by simp; omega) (by simp; omega)]
    simp
    omega

theorem Size_eq (m : FileExtent) (h : m.Checksum.length + m.Data.length + 20 < 2 ^ 63) :
    m.Size = .ok (((optField 0xa m.Checksum ++ optField 0x12 m.Data).length : Nat) : Int) := by
  have h1 := optField_length_le 0xa m.Checksum (by omega)
  unfold FileExtent.Size
  dsimp only
  rw [sizeField_eq 0xa m.Checksum 0 (le_refl _) (by omega), Res.ok_bind,
    sizeField_eq 0x12 m.Data _ (by omega) (by omega), Res.ok_bind]
  simp

theorem MarshalTo_eq (m : FileExtent) (h : m.Checksum.length + m.Data.length + 20 < 2 ^ 63) :
    m.MarshalTo (List.replicate (optField 0xa m.Checksum ++ optField 0x12 m.Data).length 0)
      = .ok (optField 0xa m.Checksum ++ optField 0x12 m.Data,
          (((optField 0xa m.Checksum ++ optField 0x12 m.Data).length : Nat) : Int)) := by
  have h1 := optField_length_le 0xa m.Checksum (by omega)
  have h2 := optField_length_le 0x12 m.Data (by omega)
  unfold FileExtent.MarshalTo
  dsimp only
  have e0 : List.replicate (optField 0xa m.Checksum ++ optField 0x12 m.Data).length (0 : Byte)
      = [] ++ List.replicate (optField 0xa m.Checksum ++ optField 0x12 m.Data).length 0 := rfl
  rw [e0, marshalField_eq 0xa m.Checksum [] _ 0 rfl (by simp) (by simp; omega), Res.ok_bind]
  dsimp only
  rw [marshalField_eq 0x12 m.Data ([] ++ optField 0xa m.Checksum) _ _ (by simp) (by simp)
    (by simp; omega), Res.ok_bind]
  simp

/-- The bytes `Marshal` returns. -/
theorem Marshal_eq (m : FileExtent) (h : m.Checksum.length + m.Data.length + 20 < 2 ^ 63) :
    m.Marshal = .ok (optField 0xa m.Checksum ++ optField 0x12 m.Data) := by
  unfold FileExtent.Marshal
  rw [Size_eq m h, Res.ok_bind, if_neg (by omega)]
  dsimp only
  rw [Int.toNat_ofNat, MarshalTo_eq m h, Res.ok_bind]
  dsimp only
  have := slice_append [] (optField 0xa m.Checksum ++ optField 0x12 m.Data) [] 0
    (((optField 0xa m.Checksum ++ optField 0x12 m.Data).length : Nat) : Int) rfl (by simp)
  simpa using this

theorem encodeFields_fieldsOf (m : FileExtent) :
    encodeFields (fieldsOf m) = optField 0xa m.Checksum ++ optField 0x12 m.Data := by
  unfold fieldsOf optField
  by_cases hc : m.Checksum = [] <;> by_cases hd : m.Data = [] <;>
    simp [hc, hd, encodeFields, Field.bytes]

theorem foldl_fieldsOf (m : FileExtent) :
    (fieldsOf m).foldl Field.apply {} = m := by
  unfold fieldsOf
  obtain ⟨c, d⟩ := m
  by_cases hc : c = [] <;> by_cases hd : d = [] <;> simp [hc, hd, Field.apply]

theorem fieldsOf_WF (m : FileExtent) : ∀ f ∈ fieldsOf m, f.WF := by
  intro f hf
  unfold fieldsOf at hf
  by_cases hc : m.Checksum = [] <;> by_cases hd : m.Data = [] <;>
    simp [hc, hd] at hf
  all_goals (try rcases hf with rfl | rfl) <;> simp [Field.WF]

theorem optFields_length_lt (m : FileExtent)
    (h : m.Checksum.length + m.Data.length + 20 < 2 ^ 63) :
    (optField 0xa m.Checksum ++ optField 0x12 m.Data).length < 2 ^ 63 := by
  have h1 := optField_length_le 0xa m.Checksum (by omega)
  have h2 := optField_length_le 0x12 m.Data (by omega)
  simp; omega

/-- The loop of `Unmarshal` decodes a run of complete well-formed fields and goes on with
what follows them. -/
theorem unmarshalLoop_fields_then : ∀ (fs : List Field) (pre post : List Byte) (m : FileExtent)
    (fuel : Nat), (∀ f ∈ fs, f.WF) → (pre ++ encodeFields fs ++ post).length < 2 ^ 63 →
    unmarshalLoop (pre ++ encodeFields fs ++ post) (pre ++ encodeFields fs ++ post).length
        (fs.length + fuel) pre.length m
      = unmarshalLoop (pre ++ encodeFields fs ++ post) (pre ++ encodeFields fs ++ post).length
        fuel ((pre ++ encodeFields fs).length : Nat) (fs.foldl Field.apply m)
  | [], pre, post, m, fuel, _, _ => by simp [encodeFields]
  | f :: fs, pre, post, m, fuel, hwf, hl => by
    have hpos := f.bytes_length_pos
    have hD : pre ++ encodeFields (f :: fs) ++ post
        = pre ++ f.bytes ++ (encodeFields fs ++ post) := by
      simp [encodeFields]
    have hD2 : pre ++ encodeFields (f :: fs) ++ post
        = (pre ++ f.bytes) ++ encodeFields fs ++ post := by
      simp [encodeFields]
    have hD3 : pre ++ encodeFields (f :: fs) = (pre ++ f.bytes) ++ encodeFields fs := by
      simp [encodeFields]
    have ih := unmarshalLoop_fields_then fs (pre ++ f.bytes) post (f.apply m) fuel
      (fun g hg => hwf g (List.mem_cons_of_mem _ hg)) (by rw [← hD2]; exact hl)
    rw [← hD2, ← hD3] at ih
    rw [show (f :: fs).length + fuel = (fs.length + fuel) + 1 from by simp; omega]
    rw [unmarshalLoop]
    rw [if_pos (by rw [hD]; simp; omega),
      unmarshalStep_field f m hD rfl (hwf f (List.mem_cons_self _ _)) hl, Res.ok_bind]
    dsimp only
    rw [show (pre.length : Int) + (f.bytes.length : Int) = ((pre ++ f.bytes).length : Nat) from by
      simp, ih]
    rfl

theorem encodeFields_append : ∀ (a b : List Field),
    encodeFields (a ++ b) = encodeFields a ++ encodeFields b
  | [], b => by simp [encodeFields]
  | f :: a, b => by simp [encodeFields, encodeFields_append a b]

theorem encodeFields_checksum (c : List Byte) :
    encodeFields (if c = [] then [] else [Field.checksum c]) = optField 0xa c := by
  by_cases hc : c = [] <;> simp [hc, encodeFields, optField, Field.bytes]

theorem encodeFields_data (d : List Byte) :
    encodeFields (if d = [] then [] else [Field.data d]) = optField 0x12 d := by
  by_cases hd : d = [] <;> simp [hd, encodeFields, optField, Field.bytes]

theorem encodeFields_singleton (f : Field) : encodeFields [f] = f.bytes := by
  simp [encodeFields]

/-- Decoding the fields of a message with one more well-formed field among them. -/
theorem Unmarshal_with_extra (m : FileExtent) (a b : List Field) (hm : fieldsOf m = a ++ b)
    (f : Field) (hwf : f.WF) (hf : ∀ r : FileExtent, f.apply r = r)
    (h : m.Checksum.length + m.Data.length + f.bytes.length + 20 < 2 ^ 63) :
    ({} : FileExtent).Unmarshal (encodeFields a ++ f.bytes ++ encodeFields b) = .ok m := by
  have hlen := optFields_length_lt m (by omega)
  have h1 := optField_length_le 0xa m.Checksum (by omega)
  have h2 := optField_length_le 0x12 m.Data (by omega)
  have henc := encodeFields_fieldsOf m
  rw [hm, encodeFields_append] at henc
  have hl : (encodeFields a).length + (encodeFields b).length
      = (optField 0xa m.Checksum).length + (optField 0x12 m.Data).length := by
    rw [← List.length_append, henc, List.length_append]
  have hwfm := fieldsOf_WF m
  rw [hm] at hwfm
  have := Unmarshal_fields (a ++ f :: b) {}
    (by
      intro g hg
      rcases List.mem_append.mp hg with hg | hg
      · exact hwfm g (List.mem_append_left _ hg)
      · rcases List.mem_cons.mp hg with rfl | hg
        · exact hwf
        · exact hwfm g (List.mem_append_right _ hg))
    (by
      rw [encodeFields_append]
      simp only [encodeFields, List.length_append]
      omega)
  rw [encodeFields_append] at this
  simp only [encodeFields] at this
  rw [List.foldl_append, List.foldl_cons, hf, ← List.foldl_append, ← hm, foldl_fieldsOf] at this
  simpa using this

/-! ### Truncated input -/

/-- A varint cut before its last byte: the reader runs into the end of the input. -/
theorem readVarint_truncated : ∀ (j v : Nat) (pre : List Byte) (fuel shift acc : Nat),
    j < (varint v).length → j < fuel → shift + 7 * j < 64 →
    (pre ++ (varint v).take j).length < 2 ^ 63 →
    readVarint (pre ++ (varint v).take j) (pre ++ (varint v).take j).length fuel shift
        pre.length acc
      = .err .ErrUnexpectedEOF
  | 0, v, pre, fuel, shift, acc, _, hf, hs, _ => by
    obtain ⟨fuel, rfl⟩ : ∃ f, fuel = f + 1 := ⟨fuel - 1, by omega⟩
    unfold readVarint
    rw [if_neg (by omega), if_pos (by simp)]
  | j + 1, v, pre, fuel, shift, acc, hj, hf, hs, hl => by
    obtain ⟨fuel, rfl⟩ : ∃ f, fuel = f + 1 := ⟨fuel - 1, by omega⟩
    have h128 : 128 ≤ v := by
      by_contra hc
      rw [varint_lt (Nat.lt_of_not_le hc)] at hj
      simp at hj
    rw [varint_ge h128] at hj hl ⊢
    simp only [List.take_succ_cons, List.length_cons] at hj hl ⊢
    have ih := readVarint_truncated j (v / 128) (pre ++ [Fin.ofNat (v % 128 + 128)]) fuel
      (shift + 7) (acc ||| ((v % 128) <<< shift) % 18446744073709551616)
      (by omega) (by omega) (by omega) (by simpa using hl)
    have e : pre ++ [(Fin.ofNat (v % 128 + 128) : Byte)] ++ List.take j (varint (v / 128))
        = pre ++ Fin.ofNat (v % 128 + 128) :: List.take j (varint (v / 128)) := by simp
    rw [e] at ih
    have hval : (Fin.ofNat (v % 128 + 128) : Byte).val = v % 128 + 128 := by
      simp [Fin.ofNat]; omega
    have hd : (v % 128 + 128) % 128 = v % 128 := by omega
    unfold readVarint
    rw [if_neg (by omega), if_neg (by simp; omega), index_append, Res.ok_bind]
    dsimp only
    rw [hval, if_neg (by omega), and_127, hd, wrapInt_eq (by omega)
      (by simp at hl; omega)]
    have e2 : ((pre.length : Int) + 1)
        = ((pre ++ [(Fin.ofNat (v % 128 + 128) : Byte)]).length : Nat) := by simp
    rw [e2, ih]

/-- A length-delimited field cut before its last byte, read from its length on. -/
theorem unmarshalBytes_truncated {D pre : List Byte} (c : List Byte) (k : Nat) {i : Int}
    (hD : D = pre ++ (varint c.length ++ c).take k) (hi : i = pre.length)
    (hk : k < (varint c.length).length + c.length)
    (hl : pre.length + (varint c.length).length + c.length < 2 ^ 63) :
    unmarshalBytes D D.length i = .err .ErrUnexpectedEOF := by
  have hc : c.length < 2 ^ 63 := by omega
  have h9 := varint_length_le 9 c.length (by norm_num) (by simpa using hc)
  unfold unmarshalBytes
  by_cases hks : k < (varint c.length).length
  · have hD1 : D = pre ++ (varint c.length).take k := by
      rw [hD, List.take_append_of_le_length (by omega)]
    subst hi
    rw [hD1, readVarint_truncated k c.length pre 11 0 0 hks (by omega) (by omega)
      (by simp; omega)]
    rfl
  · have hD1 : D = pre ++ varint c.length ++ c.take (k - (varint c.length).length) := by
      rw [hD, List.take_append_eq_append_take, List.take_of_length_le (by omega)]
      simp
    have hlen : D.length = pre.length + (varint c.length).length
        + (k - (varint c.length).length) := by
      rw [hD1]; simp; omega
    rw [readVarint_at hD1 hi (lt_trans hc (by norm_num)) (by omega), Res.ok_bind]
    dsimp only
    rw [toInt64_eq hc, if_neg (by omega), wrapInt_eq (by omega) (by omega),
      if_pos (by omega)]

/-- One iteration of `Unmarshal` on a Checksum or Data field cut before its last byte. -/
theorem unmarshalStep_truncated {D pre : List Byte} (tag : Byte) (c : List Byte) (j : Nat)
    (m : FileExtent) {i : Int} (htag : tag = 0xa ∨ tag = 0x12)
    (hD : D = pre ++ (lenField tag c).take j) (hi : i = pre.length) (hj0 : 0 < j)
    (hj : j < (lenField tag c).length)
    (hl : pre.length + (lenField tag c).length < 2 ^ 63) :
    unmarshalStep D D.length i m = .err .ErrUnexpectedEOF := by
  obtain ⟨j, rfl⟩ : ∃ k, j = k + 1 := ⟨j - 1, by omega⟩
  simp only [lenField, List.length_cons, List.length_append, List.take_succ_cons] at hD hj hl
  have hD2 : D = (pre ++ [tag]) ++ (varint c.length ++ c).take j := by rw [hD]; simp
  have hlen : D.length ≤ pre.length + 1 + j := by
    rw [hD]; simp [List.length_take]; omega
  have hb := unmarshalBytes_truncated c j hD2 (i := i + 1) (by simp [hi]) (by omega)
    (by simp; omega)
  unfold unmarshalStep
  rcases htag with rfl | rfl
  · have hD1 : D = pre ++ varint 10 ++ (varint c.length ++ c).take j := by
      rw [hD, varint_10]; simp
    rw [readVarint_at hD1 hi (by norm_num) (by omega), Res.ok_bind]
    dsimp only
    rw [unmarshalField_10, varint_10]
    simp only [List.length_singleton, Nat.cast_one]
    rw [hb]
    rfl
  · have hD1 : D = pre ++ varint 18 ++ (varint c.length ++ c).take j := by
      rw [hD, varint_18]; simp
    rw [readVarint_at hD1 hi (by norm_num) (by omega), Res.ok_bind]
    dsimp only
    rw [unmarshalField_18, varint_18]
    simp only [List.length_singleton, Nat.cast_one]
    rw [hb]
    rfl

theorem optField_ne_nil {tag : Byte} {c : List Byte} (h : c ≠ []) :
    optField tag c = lenField tag c := by
  simp [optField, h]

/-- The loop of `Unmarshal` on complete fields followed by a Checksum or Data field cut
before its last byte. -/
theorem unmarshalLoop_truncated {D : List Byte} (fs : List Field) (tag : Byte)
    (c : List Byte) (j : Nat) (recv : FileExtent) (fuel : Nat)
    (hD : D = encodeFields fs ++ (lenField tag c).take j) (htag : tag = 0xa ∨ tag = 0x12)
    (hwf : ∀ f ∈ fs, f.WF) (hj0 : 0 < j) (hj : j < (lenField tag c).length)
    (hl : (encodeFields fs).length + (lenField tag c).length < 2 ^ 63)
    (hfuel : fs.length < fuel) :
    unmarshalLoop D D.length fuel 0 recv = .err .ErrUnexpectedEOF := by
  obtain ⟨x, rfl⟩ : ∃ x, fuel = fs.length + (x + 1) := ⟨fuel - fs.length - 1, by omega⟩
  have hlen : D.length = (encodeFields fs).length + j := by
    rw [hD]; simp [List.length_take]; omega
  have H := unmarshalLoop_fields_then fs [] ((lenField tag c).take j) recv (x + 1) hwf
    (by simp [List.length_take]; omega)
  simp only [List.nil_append, List.length_nil] at H
  rw [← hD] at H
  rw [show (0 : Int) = (([] : List Byte).length : Nat) from rfl]
  simp only [List.length_nil]
  rw [H, unmarshalLoop, if_pos (by rw [hlen]; push_cast; omega),
    unmarshalStep_truncated tag c j _ htag hD rfl hj0 hj hl]
  rfl

/-- The method `Unmarshal` on a prefix of the encoding that ends inside a field. -/
theorem Unmarshal_take_eq (m recv : FileExtent) (k : Nat)
    (h : m.Checksum.length + m.Data.length + 20 < 2 ^ 63) (hk0 : 0 < k)
    (hk : k < (optField 0xa m.Checksum).length + (optField 0x12 m.Data).length)
    (hb : k ≠ (optField 0xa m.Checksum).length) :
    recv.Unmarshal ((optField 0xa m.Checksum ++ optField 0x12 m.Data).take k)
      = .err .ErrUnexpectedEOF := by
  have h1 := optField_length_le 0xa m.Checksum (by omega)
  have h2 := optField_length_le 0x12 m.Data (by omega)
  unfold FileExtent.Unmarshal
  rcases Nat.lt_or_gt_of_ne hb with hlt | hgt
  · -- the prefix ends inside the Checksum field
    have hc : m.Checksum ≠ [] := by
      intro hc; rw [hc] at hlt; simp [optField] at hlt
    rw [optField_ne_nil hc] at hlt h1 ⊢
    have hD : (lenField 0xa m.Checksum ++ optField 0x12 m.Data).take k
        = encodeFields [] ++ (lenField 0xa m.Checksum).take k := by
      rw [List.take_append_of_le_length (by omega)]; simp [encodeFields]
    exact unmarshalLoop_truncated [] 0xa m.Checksum k recv _ hD (Or.inl rfl)
      (by simp) hk0 hlt (by simp [encodeFields]; omega) (by simp)
  · -- the prefix ends inside the Data field
    have hd : m.Data ≠ [] := by
      intro hd
      have : (optField 0x12 m.Data).length = 0 := by rw [hd]; simp [optField]
      omega
    rw [optField_ne_nil hd] at hk h2 ⊢
    have hfs1 := encodeFields_checksum m.Checksum
    have hfsl := encodeFields_length_ge (if m.Checksum = [] then [] else [Field.checksum m.Checksum])
    have hwf : ∀ f ∈ (if m.Checksum = [] then [] else [Field.checksum m.Checksum]), f.WF := by
      intro f hf
      by_cases hc : m.Checksum = [] <;> simp [hc] at hf
      subst hf; trivial
    have hD : (optField 0xa m.Checksum ++ lenField 0x12 m.Data).take k
        = encodeFields (if m.Checksum = [] then [] else [Field.checksum m.Checksum])
          ++ (lenField 0x12 m.Data).take (k - (optField 0xa m.Checksum).length) := by
      rw [List.take_append_eq_append_take, List.take_of_length_le (by omega), hfs1]
    have hlen : ((optField 0xa m.Checksum ++ lenField 0x12 m.Data).take k).length = k := by
      simp [List.length_take]; omega
    exact unmarshalLoop_truncated _ 0x12 m.Data _ recv _ hD (Or.inr rfl) hwf (by omega)
      (by omega) (by rw [hfs1]; omega) (by rw [hlen]; rw [hfs1] at hfsl; omega)

theorem optField_set (tag : Byte) (c : List Byte) (j : Nat) (b : Byte) (hj : j < c.length) :
    (optField tag c).set (1 + (varint c.length).length + j) b = optField tag (c.set j b) := by
  have hc : c ≠ [] := by intro hc; rw [hc] at hj; simp at hj
  have hc2 : c.set j b ≠ [] := by
    intro hc2
    have := List.length_set c j b
    rw [hc2, List.length_nil] at this
    omega
  rw [optField_ne_nil hc, optField_ne_nil hc2]
  unfold lenField
  rw [show 1 + (varint c.length).length + j = ((varint c.length).length + j) + 1 from by omega,
    List.set_cons_succ, List.set_append_right _ _ (by omega), List.length_set]
  simp

/-! ### The loop of `Now` -/

/-- The loop of `Now` when the first call that succeeds is the call number `c + k`. -/
theorem nowLoop_first_success {ε : Type} (srv : Server ε) (errs : Nat → ε) (kt : KronosTime) :
    ∀ (k c fuel : Nat) (trace : List (NowEvent ε)),
      (∀ j, c ≤ j → j < c + k → srv j = .error (errs j)) → srv (c + k) = .ok kt →
      k < fuel →
      nowLoop srv fuel c trace
        = (.returned kt.Time, trace ++ retryTrace errs c k ++ [.kronosTimeNow])
  | 0, c, fuel, trace, _, hok, hfuel => by
    obtain ⟨fuel, rfl⟩ : ∃ f, fuel = f + 1 := ⟨fuel - 1, by omega⟩
    simp only [Nat.add_zero] at hok
    simp [nowLoop, hok, retryTrace]
  | k + 1, c, fuel, trace, hfail, hok, hfuel => by
    obtain ⟨fuel, rfl⟩ : ∃ f, fuel = f + 1 := ⟨fuel - 1, by omega⟩
    have hc := hfail c (le_refl _) (by omega)
    have ih := nowLoop_first_success srv errs kt k (c + 1) fuel
      (trace ++ [.kronosTimeNow, .errorf (errs c) timePollInterval, .sleep timePollInterval])
      (fun j h1 h2 => hfail j (by omega) (by omega))
      (by rw [show c + 1 + k = c + (k + 1) from by omega]; exact hok) (by omega)
    simp only [nowLoop, hc, ih, retryTrace]
    simp

theorem retryTrace_counts {ε : Type} (errs : Nat → ε) : ∀ (k c : Nat),
    (retryTrace errs c k).countP NowEvent.isCall = k ∧
    (retryTrace errs c k).countP NowEvent.isSleep = k ∧
    (retryTrace errs c k).countP (NowEvent.isSleepFor 100000000) = k
  | 0, _ => by simp [retryTrace]
  | k + 1, c => by
    obtain ⟨h1, h2, h3⟩ := retryTrace_counts errs k (c + 1)
    simp only [retryTrace, List.countP_append, h1, h2, h3]
    refine ⟨?_, ?_, ?_⟩ <;>
      simp [List.countP_cons, NowEvent.isCall, NowEvent.isSleep, NowEvent.isSleepFor,
        timePollInterval, Millisecond] <;> omega

/-- A value returned by the loop of `Now` is the `Time` of a call that succeeded. -/
theorem nowLoop_returned {ε : Type} (srv : Server ε) : ∀ (fuel c : Nat)
    (trace trace1 : List (NowEvent ε)) (t : Int),
    nowLoop srv fuel c trace = (.returned t, trace1) →
    ∃ j kt, srv j = .ok kt ∧ kt.Time = t
  | 0, _, _, _, _, h => by simp [nowLoop] at h
  | fuel + 1, c, trace, trace1, t, h => by
    cases hc : srv c with
    | error e =>
      simp only [nowLoop, hc] at h
      exact nowLoop_returned srv fuel _ _ _ _ h
    | ok kt =>
      simp only [nowLoop, hc, Prod.mk.injEq, NowResult.returned.injEq] at h
      exact ⟨c, kt, hc, h.1⟩

/-- The loop of `Now` while the calls fail: after `n` iterations it is still running. -/
theorem nowLoop_all_fail {ε : Type} (srv : Server ε) (errs : Nat → ε) :
    ∀ (n c : Nat) (trace : List (NowEvent ε)),
      (∀ j, c ≤ j → j < c + n → srv j = .error (errs j)) →
      nowLoop srv n c trace = (.outOfFuel, trace ++ retryTrace errs c n)
  | 0, c, trace, _ => by simp [nowLoop, retryTrace]
  | n + 1, c, trace, hfail => by
    have hc := hfail c (le_refl _) (by omega)
    have ih := nowLoop_all_fail srv errs n (c + 1)
      (trace ++ [.kronosTimeNow, .errorf (errs c) timePollInterval, .sleep timePollInterval])
      (fun j h1 h2 => hfail j (by omega) (by omega))
    simp only [nowLoop, hc, ih, retryTrace]
    simp

/-- The method `MarshalTo` on any buffer that has the length of the encoding. -/
theorem MarshalTo_buffer (m : FileExtent) (buf : List Byte)
    (h : m.Checksum.length + m.Data.length + 20 < 2 ^ 63)
    (hbuf : buf.length = (optField 0xa m.Checksum ++ optField 0x12 m.Data).length) :
    m.MarshalTo buf
      = .ok (optField 0xa m.Checksum ++ optField 0x12 m.Data,
          (((optField 0xa m.Checksum ++ optField 0x12 m.Data).length : Nat) : Int)) := by
  have h1 := optField_length_le 0xa m.Checksum (by omega)
  have h2 := optField_length_le 0x12 m.Data (by omega)
  simp only [List.length_append] at hbuf
  unfold FileExtent.MarshalTo
  dsimp only
  have e0 : buf = [] ++ buf := rfl
  rw [e0, marshalField_eq 0xa m.Checksum [] buf 0 rfl (by omega) (by simp; omega), Res.ok_bind]
  dsimp only
  rw [marshalField_eq 0x12 m.Data ([] ++ optField 0xa m.Checksum) _ _ (by simp)
    (by simp; omega) (by simp; omega), Res.ok_bind]
  have hd : List.drop (optField 0x12 m.Data).length
      (List.drop (optField 0xa m.Checksum).length buf) = [] := by
    apply List.eq_nil_of_length_eq_zero
    simp; omega
  rw [hd]
  simp

/-- The function `encodeVarintFileextent` writes the bytes of the varint at `offset` and
nothing else. -/
theorem encodeVarintFileextent_eq (x : Nat) (pre zs : List Byte) (hx : x < 2 ^ 64)
    (hz : 10 ≤ zs.length) (hl : (pre ++ zs).length < 2 ^ 63) :
    encodeVarintFileextent (pre ++ zs) pre.length x
      = .ok (pre ++ varint x ++ zs.drop (varint x).length,
          ((pre.length + (varint x).length : Nat) : Int)) := by
  have h10 := varint_length_le_10 hx
  unfold encodeVarintFileextent
  exact encodeVarintLoop_eq x 10 pre zs h10 (by omega) hl

/-- Applying a sequence of fields leaves in `Data` the content of the last Data field. -/
theorem foldl_apply_Data : ∀ (fs : List Field) (m : FileExtent),
    (fs.foldl Field.apply m).Data = ((fs.filterMap Field.dataContent).getLast?).getD m.Data
  | [], m => by simp
  | f :: fs, m => by
    rw [List.foldl_cons, foldl_apply_Data fs (Field.apply m f)]
    cases f with
    | checksum content => simp [Field.apply, Field.dataContent]
    | data content =>
      simp [Field.apply, Field.dataContent, List.getLast?_cons]
    | unknown fieldNum u => simp [Field.apply, Field.dataContent]

/-- Applying a sequence of fields leaves in `Checksum` the content of the last Checksum
field. -/
theorem foldl_apply_Checksum : ∀ (fs : List Field) (m : FileExtent),
    (fs.foldl Field.apply m).Checksum
      = ((fs.filterMap Field.checksumContent).getLast?).getD m.Checksum
  | [], m => by simp
  | f :: fs, m => by
    rw [List.foldl_cons, foldl_apply_Checksum fs (Field.apply m f)]
    cases f with
    | checksum content =>
      simp [Field.apply, Field.checksumContent, List.getLast?_cons]
    | data content => simp [Field.apply, Field.checksumContent]
    | unknown fieldNum u => simp [Field.apply, Field.checksumContent]

theorem lenField_length_le (tag : Byte) (c : List Byte) (h : c.length < 2 ^ 63) :
    (lenField tag c).length ≤ c.length + 10 := by
  have := varint_length_le 9 c.length (by norm_num) (by simpa using h)
  simp [lenField]; omega

/-! ### Tags -/

theorem or_shift_mod {acc shift : Nat} (d : Nat) (hs : shift ≤ 63) (ha : acc < 2 ^ shift) :
    acc ||| ((d <<< shift) % 18446744073709551616)
      = (acc + d * 2 ^ shift) % 18446744073709551616 := by
  have e64 : (18446744073709551616 : Nat) = 2 ^ shift * 2 ^ (64 - shift) := by
    rw [← Nat.pow_add, show shift + (64 - shift) = 64 from by omega]
  have hx : (d * 2 ^ shift) % 18446744073709551616 = 2 ^ shift * (d % 2 ^ (64 - shift)) := by
    rw [e64, Nat.mul_comm d, Nat.mul_mod_mul_left]
  have hq : d % 2 ^ (64 - shift) < 2 ^ (64 - shift) := Nat.mod_lt _ (by positivity)
  have hlt : 2 ^ shift * (d % 2 ^ (64 - shift)) + acc < 18446744073709551616 := by
    have h1 : 2 ^ shift * (d % 2 ^ (64 - shift) + 1) ≤ 2 ^ shift * 2 ^ (64 - shift) :=
      Nat.mul_le_mul_left _ hq
    rw [Nat.mul_add, Nat.mul_one] at h1
    rw [e64]
    omega
  have hor := Nat.mul_add_lt_is_or ha (d % 2 ^ (64 - shift))
  have haM : acc < 18446744073709551616 := lt_of_le_of_lt (Nat.le_add_left _ _) hlt
  have hmod : (acc + d * 2 ^ shift) % 18446744073709551616
      = (acc + 2 ^ shift * (d % 2 ^ (64 - shift))) % 18446744073709551616 := by
    rw [Nat.add_mod, hx, Nat.mod_eq_of_lt haM]
  rw [Nat.shiftLeft_eq, hx, Nat.lor_comm, ← hor, hmod, Nat.add_comm acc,
    Nat.mod_eq_of_lt hlt]

/-- Reading the bytes of a varint, canonical or not, that sit at index `pre.length`. -/
theorem readVarint_bytes : ∀ (n : Nat) (t pre post : List Byte) (fuel shift acc : Nat),
    isVarintBytes n t = true → n ≤ fuel → shift + 7 * n ≤ 70 → acc < 2 ^ shift →
    (pre ++ t ++ post).length < 2 ^ 63 →
    readVarint (pre ++ t ++ post) (pre ++ t ++ post).length fuel shift pre.length acc
      = .ok ((acc + varintValue t * 2 ^ shift) % 18446744073709551616,
          ((pre.length + t.length : Nat) : Int))
  | 0, _, _, _, _, _, _, h, _, _, _, _ => by simp [isVarintBytes] at h
  | _ + 1, [], _, _, _, _, _, h, _, _, _, _ => by simp [isVarintBytes] at h
  | n + 1, [b], pre, post, fuel, shift, acc, h, hf, hs, ha, hl => by
    obtain ⟨fuel, rfl⟩ : ∃ f, fuel = f + 1 := ⟨fuel - 1, by omega⟩
    have hb : b.val < 128 := by simpa [isVarintBytes] using h
    unfold readVarint
    simp only [List.append_assoc, List.singleton_append, List.length_append,
      List.length_cons] at hl ⊢
    rw [if_neg (by omega), if_neg (by push_cast; omega), index_append, Res.ok_bind]
    try dsimp only
    rw [if_pos hb, and_127, or_shift_mod _ (by omega) ha, wrapInt_eq (by omega) (by omega)]
    simp [varintValue]
  | n + 1, b :: b2 :: rest, pre, post, fuel, shift, acc, h, hf, hs, ha, hl => by
    obtain ⟨fuel, rfl⟩ : ∃ f, fuel = f + 1 := ⟨fuel - 1, by omega⟩
    have hb : 128 ≤ b.val ∧ isVarintBytes n (b2 :: rest) = true := by
      simpa [isVarintBytes] using h
    have hn : 1 ≤ n := by
      rcases Nat.eq_zero_or_pos n with h0 | h0
      · rw [h0] at hb; simp [isVarintBytes] at hb
      · exact h0
    have hd : b.val % 128 < 128 := Nat.mod_lt _ (by norm_num)
    have hacc : (acc + b.val % 128 * 2 ^ shift) < 2 ^ (shift + 7) := by
      rw [Nat.pow_add]
      have : b.val % 128 * 2 ^ shift ≤ 127 * 2 ^ shift := Nat.mul_le_mul_right _ (by omega)
      norm_num
      omega
    have hacc2 : (acc + b.val % 128 * 2 ^ shift) % 18446744073709551616 < 2 ^ (shift + 7) :=
      lt_of_le_of_lt (Nat.mod_le _ _) hacc
    have ih := readVarint_bytes n (b2 :: rest) (pre ++ [b]) post fuel (shift + 7)
      ((acc + b.val % 128 * 2 ^ shift) % 18446744073709551616) hb.2
      (by omega) (by omega) hacc2 (by simpa using hl)
    have e : pre ++ [b] ++ b2 :: rest ++ post = pre ++ b :: b2 :: rest ++ post := by simp
    rw [e] at ih
    unfold readVarint
    have hlen : (pre ++ b :: b2 :: rest ++ post).length
        = pre.length + (rest.length + 2) + post.length := by
      simp; omega
    rw [hlen] at hl
    rw [if_neg (by omega), if_neg (by rw [hlen]; push_cast; omega)]
    have hidx : index (pre ++ b :: b2 :: rest ++ post) pre.length = .ok b := by
      have := index_append pre b (b2 :: rest ++ post)
      simpa using this
    rw [hidx, Res.ok_bind]
    dsimp only
    rw [if_neg (by omega), and_127, or_shift_mod _ (by omega) ha,
      wrapInt_eq (by omega) (by omega)]
    have e3 : ((pre.length : Int) + 1) = ((pre ++ [b]).length : Nat) := by simp
    rw [e3, ih]
    congr 2
    · rw [Nat.mod_add_mod]
      congr 1
      simp only [varintValue]
      rw [Nat.pow_add]
      ring
    · simp
      omega

/-- A varint of ten bytes that all have the top bit set: the reader reports an overflow. -/
theorem readVarint_overflow : ∀ (t pre post : List Byte) (fuel shift acc : Nat),
    (∀ b ∈ t, 128 ≤ b.val) → 64 ≤ shift + 7 * t.length → t.length < fuel →
    (pre ++ t ++ post).length < 2 ^ 63 →
    readVarint (pre ++ t ++ post) (pre ++ t ++ post).length fuel shift pre.length acc
      = .err .ErrIntOverflowFileextent
  | [], pre, post, fuel, shift, acc, _, hs, hf, _ => by
    obtain ⟨fuel, rfl⟩ : ∃ f, fuel = f + 1 := ⟨fuel - 1, by omega⟩
    unfold readVarint
    rw [if_pos (by simpa using hs)]
  | b :: t, pre, post, fuel, shift, acc, hb, hs, hf, hl => by
    obtain ⟨fuel, rfl⟩ : ∃ f, fuel = f + 1 := ⟨fuel - 1, by omega⟩
    unfold readVarint
    by_cases h64 : 64 ≤ shift
    · rw [if_pos h64]
    · have hlen : (pre ++ b :: t ++ post).length = pre.length + (t.length + 1) + post.length := by
        simp; omega
      rw [hlen] at hl
      have hidx : index (pre ++ b :: t ++ post) pre.length = .ok b := by
        have := index_append pre b (t ++ post)
        simpa using this
      have hb1 : 128 ≤ b.val := hb b (List.mem_cons_self _ _)
      have ih := readVarint_overflow t (pre ++ [b]) post fuel (shift + 7)
        (acc ||| (b.val &&& 127) <<< shift % 18446744073709551616)
        (fun x hx => hb x (List.mem_cons_of_mem _ hx))
        (by simp only [List.length_cons] at hs; omega)
        (by simp only [List.length_cons] at hf; omega)
        (by simp; omega)
      have e : pre ++ [b] ++ t ++ post = pre ++ b :: t ++ post := by simp
      rw [e] at ih
      rw [if_neg h64, if_neg (by rw [hlen]; push_cast; omega), hidx, Res.ok_bind]
      dsimp only
      rw [if_neg (by omega), wrapInt_eq (by omega) (by omega)]
      have e3 : ((pre.length : Int) + 1) = ((pre ++ [b]).length : Nat) := by simp
      rw [e3, ih]

theorem and_7 (w : Nat) : w &&& 7 = w % 8 := Nat.and_pow_two_sub_one_eq_mod w 3

theorem shiftRight_3 (w : Nat) : w >>> 3 = w / 8 := by
  rw [Nat.shiftRight_eq_div_pow]

/-- The body of the loop of `Unmarshal` on a malformed tag returns an error. -/
theorem unmarshalField_malformed (D : List Byte) (l pre i : Int) (w : Nat) (m : FileExtent)
    (hbad : MalformedTag w) : ∃ e, unmarshalField D l pre w i m = .err e := by
  have hwt : toInt64 (w % 8) = ((w % 8 : Nat) : Int) :=
    toInt64_eq (lt_trans (Nat.mod_lt _ (by norm_num)) (by norm_num))
  unfold unmarshalField
  dsimp only
  rw [and_7, shiftRight_3, hwt]
  by_cases h4 : w % 8 = 4
  · rw [if_pos (by rw [h4]; rfl)]
    exact ⟨_, rfl⟩
  · rw [if_neg (by omega)]
    rcases hbad with h0 | h | ⟨h12, hne⟩
    · rw [h0, if_pos (by decide)]
      exact ⟨_, rfl⟩
    · exact absurd h h4
    · rcases h12 with h1 | h2
      · rw [h1, if_neg (by decide), if_pos (by decide), if_pos (by omega)]
        exact ⟨_, rfl⟩
      · rw [h2, if_neg (by decide), if_neg (by decide), if_pos (by decide), if_pos (by omega)]
        exact ⟨_, rfl⟩

theorem isVarintBytes_length_pos : ∀ (n : Nat) (t : List Byte), isVarintBytes n t = true →
    0 < t.length
  | 0, _, h => by simp [isVarintBytes] at h
  | _ + 1, [], h => by simp [isVarintBytes] at h
  | _ + 1, _ :: _, _ => by simp

/-- One iteration of `Unmarshal` that starts on a malformed tag, or on a varint of ten bytes
that does not end, returns an error. -/
theorem unmarshalStep_malformed {D : List Byte} (pre t rest : List Byte) (m : FileExtent)
    (hD : D = pre ++ t ++ rest) (hl : D.length < 2 ^ 63)
    (ht : (isVarintBytes 10 t = true ∧ MalformedTag (varintValue t % 2 ^ 64))
      ∨ (t.length = 10 ∧ ∀ b ∈ t, 128 ≤ b.val)) :
    ∃ e, unmarshalStep D D.length pre.length m = .err e := by
  subst hD
  unfold unmarshalStep
  rcases ht with ⟨hv, hbad⟩ | ⟨h10, hb⟩
  · rw [readVarint_bytes 10 t pre rest 11 0 0 hv (by norm_num) (by norm_num) (by norm_num) hl,
      Res.ok_bind]
    dsimp only
    rw [Nat.zero_add, Nat.pow_zero, Nat.mul_one]
    exact unmarshalField_malformed _ _ _ _ _ m (by simpa using hbad)
  · rw [readVarint_overflow t pre rest 11 0 0 hb (by omega) (by omega) hl]
    exact ⟨_, rfl⟩

theorem unmarshalLoop_step_err (D : List Byte) (l i : Int) (m : FileExtent) (fuel : Nat)
    (e : Err) (hi : i < l) (h : unmarshalStep D l i m = .err e) :
    unmarshalLoop D l (fuel + 1) i m = .err e := by
  rw [unmarshalLoop, if_pos hi, h]
  rfl

/-- The loop of `Unmarshal` at a field boundary where the tag is malformed. -/
theorem unmarshalLoop_malformed (pre t rest : List Byte) (m : FileExtent) (fuel : Nat)
    (hl : (pre ++ t ++ rest).length < 2 ^ 63)
    (ht : (isVarintBytes 10 t = true ∧ MalformedTag (varintValue t % 2 ^ 64))
      ∨ (t.length = 10 ∧ ∀ b ∈ t, 128 ≤ b.val)) :
    ∃ e, unmarshalLoop (pre ++ t ++ rest) (pre ++ t ++ rest).length (fuel + 1) pre.length m
      = .err e := by
  have hpos : 0 < t.length := by
    rcases ht with ⟨hv, _⟩ | ⟨h10, _⟩
    · exact isVarintBytes_length_pos 10 t hv
    · omega
  obtain ⟨e, he⟩ := unmarshalStep_malformed pre t rest m rfl hl ht
  exact ⟨e, unmarshalLoop_step_err _ _ _ m fuel e (by simp; omega) he⟩

/-! ### The statement `panic("unreachable")` -/

theorem Res.bind_ne_unreachable {α β : Type} (r : Res α) (f : α → Res β)
    (hr : r ≠ .panicked .unreachable)
    (hf : ∀ a, r = .ok a → f a ≠ .panicked .unreachable) :
    (r >>= f) ≠ .panicked .unreachable := by
  cases r with
  | ok a => exact hf a rfl
  | err e => intro h; cases h
  | panicked p =>
    intro h
    apply hr
    cases p <;> first | rfl | cases h
  | outOfFuel => intro h; cases h

theorem index_ne_unreachable (D : List Byte) (i : Int) :
    index D i ≠ .panicked .unreachable := by
  unfold index
  split <;> intro h <;> cases h

theorem index_ok_bounds {D : List Byte} {i : Int} {b : Byte} (h : index D i = .ok b) :
    0 ≤ i ∧ i < D.length := by
  unfold index at h
  by_cases hr : 0 ≤ i ∧ i < D.length
  · exact hr
  · rw [if_neg hr] at h; cases h

theorem slice_ne_unreachable (D : List Byte) (lo hi : Int) :
    slice D lo hi ≠ .panicked .unreachable := by
  unfold slice
  split <;> intro h <;> cases h

theorem sliceFrom_ne_unreachable (D : List Byte) (lo : Int) :
    sliceFrom D lo ≠ .panicked .unreachable := by
  unfold sliceFrom
  split <;> intro h <;> cases h

theorem readVarint_ne_unreachable (D : List Byte) (l : Int) : ∀ (fuel shift : Nat) (i : Int)
    (acc : Nat), readVarint D l fuel shift i acc ≠ .panicked .unreachable
  | 0, _, _, _ => by
    unfold readVarint
    intro h; cases h
  | fuel + 1, shift, i, acc => by
    unfold readVarint
    by_cases h1 : shift ≥ 64
    · rw [if_pos h1]; intro h; cases h
    · rw [if_neg h1]
      by_cases h2 : i ≥ l
      · rw [if_pos h2]; intro h; cases h
      · rw [if_neg h2]
        apply Res.bind_ne_unreachable _ _ (index_ne_unreachable D i)
        intro b _
        dsimp only
        by_cases h3 : b.val < 0x80
        · rw [if_pos h3]; intro h; cases h
        · rw [if_neg h3]
          exact readVarint_ne_unreachable D l fuel _ _ _

/-- A varint is read only from an index inside the input. -/
theorem readVarint_ok_bounds {D : List Byte} {l : Int} {fuel shift : Nat} {i : Int}
    {acc w : Nat} {j : Int} (h : readVarint D l fuel shift i acc = .ok (w, j)) :
    0 ≤ i ∧ i < D.length := by
  cases fuel with
  | zero => unfold readVarint at h; cases h
  | succ fuel =>
    unfold readVarint at h
    by_cases h1 : shift ≥ 64
    · rw [if_pos h1] at h; cases h
    · rw [if_neg h1] at h
      by_cases h2 : i ≥ l
      · rw [if_pos h2] at h; cases h
      · rw [if_neg h2] at h
        cases hidx : index D i with
        | ok b => exact index_ok_bounds hidx
        | err e => rw [hidx] at h; cases h
        | panicked p => rw [hidx] at h; cases h
        | outOfFuel => rw [hidx] at h; cases h

theorem skipVarint_ne_unreachable (D : List Byte) (l : Int) : ∀ (fuel shift : Nat) (i : Int),
    skipVarint D l fuel shift i ≠ .panicked .unreachable
  | 0, _, _ => by
    unfold skipVarint
    intro h; cases h
  | fuel + 1, shift, i => by
    unfold skipVarint
    by_cases h1 : shift ≥ 64
    · rw [if_pos h1]; intro h; cases h
    · rw [if_neg h1]
      by_cases h2 : i ≥ l
      · rw [if_pos h2]; intro h; cases h
      · rw [if_neg h2]
        apply Res.bind_ne_unreachable _ _ (index_ne_unreachable D _)
        intro b _
        dsimp only
        by_cases h3 : b.val < 0x80
        · rw [if_pos h3]; intro h; cases h
        · rw [if_neg h3]
          exact skipVarint_ne_unreachable D l fuel _ _

theorem skipBytes_ne_unreachable (D : List Byte) (l i : Int) :
    skipBytes D l i ≠ .panicked .unreachable := by
  unfold skipBytes
  apply Res.bind_ne_unreachable _ _ (readVarint_ne_unreachable D l _ _ _ _)
  rintro ⟨w, j⟩ _
  dsimp only
  split <;> intro h <;> cases h

theorem unmarshalBytes_ne_unreachable (D : List Byte) (l i : Int) :
    unmarshalBytes D l i ≠ .panicked .unreachable := by
  unfold unmarshalBytes
  apply Res.bind_ne_unreachable _ _ (readVarint_ne_unreachable D l _ _ _ _)
  rintro ⟨w, j⟩ _
  dsimp only
  by_cases h1 : toInt64 w < 0
  · rw [if_pos h1]; intro h; cases h
  · rw [if_neg h1]
    by_cases h2 : wrapInt (j + toInt64 w) > l
    · rw [if_pos h2]; intro h; cases h
    · rw [if_neg h2]
      apply Res.bind_ne_unreachable _ _ (slice_ne_unreachable D _ _)
      intro x _ h
      cases h

theorem sliceFrom_nonempty {D : List Byte} {i : Int} (h : 0 ≤ i ∧ i < D.length) :
    ∃ b sub, sliceFrom D i = .ok (b :: sub) := by
  unfold sliceFrom
  rw [if_pos ⟨h.1, le_of_lt h.2⟩]
  have hlt : i.toNat < D.length := by omega
  cases hd : D.drop i.toNat with
  | nil =>
    have := congrArg List.length hd
    simp at this
    omega
  | cons b sub => exact ⟨b, sub, rfl⟩

/-- The functions `skipFileextent` and its group loop, at every depth of the recursion:
the final panic is reached on no non-empty slice. -/
theorem skip_ne_unreachable : ∀ (fuel : Nat),
    (∀ D : List Byte, D ≠ [] → skipFileextentFuel fuel D ≠ .panicked .unreachable) ∧
    (∀ (D : List Byte) (l i : Int), skipGroup fuel D l i ≠ .panicked .unreachable)
  | 0 => by
    constructor
    · intro D _
      unfold skipFileextentFuel
      intro h; cases h
    · intro D l i
      unfold skipGroup
      intro h; cases h
  | fuel + 1 => by
    obtain ⟨ih1, ih2⟩ := skip_ne_unreachable fuel
    constructor
    · intro D hD
      have hpos : 0 < D.length := List.length_pos.mpr hD
      rw [skipFileextentFuel]
      dsimp only
      rw [if_pos (by omega)]
      apply Res.bind_ne_unreachable _ _ (readVarint_ne_unreachable D _ _ _ _ _)
      rintro ⟨w, j⟩ _
      dsimp only
      by_cases h0 : toInt64 (w &&& 7) = 0
      · rw [if_pos h0]; exact skipVarint_ne_unreachable D _ _ _ _
      rw [if_neg h0]
      by_cases h1 : toInt64 (w &&& 7) = 1
      · rw [if_pos h1]; intro h; cases h
      rw [if_neg h1]
      by_cases h2 : toInt64 (w &&& 7) = 2
      · rw [if_pos h2]; exact skipBytes_ne_unreachable D _ _
      rw [if_neg h2]
      by_cases h3 : toInt64 (w &&& 7) = 3
      · rw [if_pos h3]; exact ih2 D _ _
      rw [if_neg h3]
      by_cases h4 : toInt64 (w &&& 7) = 4
      · rw [if_pos h4]; intro h; cases h
      rw [if_neg h4]
      by_cases h5 : toInt64 (w &&& 7) = 5
      · rw [if_pos h5]; intro h; cases h
      rw [if_neg h5]
      intro h; cases h
    · intro D l i
      rw [skipGroup]
      apply Res.bind_ne_unreachable _ _ (readVarint_ne_unreachable D _ _ _ _ _)
      rintro ⟨w, j⟩ hr
      dsimp only
      by_cases h4 : toInt64 (w &&& 7) = 4
      · rw [if_pos h4]; intro h; cases h
      rw [if_neg h4]
      obtain ⟨b, sub, hsub⟩ := sliceFrom_nonempty (readVarint_ok_bounds hr)
      rw [hsub, Res.ok_bind]
      apply Res.bind_ne_unreachable _ _ (ih1 _ (List.cons_ne_nil _ _))
      intro next _
      exact ih2 D _ _

theorem skipFileextent_ne_unreachable (D : List Byte) (hD : D ≠ []) :
    skipFileextent D ≠ .panicked .unreachable :=
  (skip_ne_unreachable _).1 D hD

theorem unmarshalSkip_ne_unreachable (D : List Byte) (l i : Int)
    (hi : 0 ≤ i ∧ i < D.length) : unmarshalSkip D l i ≠ .panicked .unreachable := by
  unfold unmarshalSkip
  dsimp only
  obtain ⟨b, sub, hsub⟩ := sliceFrom_nonempty hi
  rw [hsub, Res.ok_bind]
  apply Res.bind_ne_unreachable _ _ (skipFileextent_ne_unreachable _ (List.cons_ne_nil _ _))
  intro skippy _
  dsimp only
  split
  · intro h; cases h
  · split <;> intro h <;> cases h

theorem unmarshalField_ne_unreachable (D : List Byte) (l pre : Int) (w : Nat) (i : Int)
    (m : FileExtent) (hpre : 0 ≤ pre ∧ pre < D.length) :
    unmarshalField D l pre w i m ≠ .panicked .unreachable := by
  unfold unmarshalField
  dsimp only
  by_cases h4 : toInt64 (w &&& 7) = 4
  · rw [if_pos h4]; intro h; cases h
  rw [if_neg h4]
  by_cases h0 : toInt32 (w >>> 3) ≤ 0
  · rw [if_pos h0]; intro h; cases h
  rw [if_neg h0]
  by_cases h1 : toInt32 (w >>> 3) = 1
  · rw [if_pos h1]
    by_cases h2 : toInt64 (w &&& 7) ≠ 2
    · rw [if_pos h2]; intro h; cases h
    · rw [if_neg h2]
      apply Res.bind_ne_unreachable _ _ (unmarshalBytes_ne_unreachable D l i)
      rintro ⟨j, x⟩ _ h
      cases h
  rw [if_neg h1]
  by_cases h2 : toInt32 (w >>> 3) = 2
  · rw [if_pos h2]
    by_cases h3 : toInt64 (w &&& 7) ≠ 2
    · rw [if_pos h3]; intro h; cases h
    · rw [if_neg h3]
      apply Res.bind_ne_unreachable _ _ (unmarshalBytes_ne_unreachable D l i)
      rintro ⟨j, x⟩ _ h
      cases h
  rw [if_neg h2]
  apply Res.bind_ne_unreachable _ _ (unmarshalSkip_ne_unreachable D l pre hpre)
  intro j _ h
  cases h

theorem unmarshalStep_ne_unreachable (D : List Byte) (l i : Int) (m : FileExtent) :
    unmarshalStep D l i m ≠ .panicked .unreachable := by
  unfold unmarshalStep
  dsimp only
  apply Res.bind_ne_unreachable _ _ (readVarint_ne_unreachable D l _ _ _ _)
  rintro ⟨w, j⟩ hr
  exact unmarshalField_ne_unreachable D l i w j m (readVarint_ok_bounds hr)

theorem unmarshalLoop_ne_unreachable (D : List Byte) (l : Int) : ∀ (fuel : Nat) (i : Int)
    (m : FileExtent), unmarshalLoop D l fuel i m ≠ .panicked .unreachable
  | 0, _, _ => by
    unfold unmarshalLoop
    intro h; cases h
  | fuel + 1, i, m => by
    unfold unmarshalLoop
    by_cases h1 : i < l
    · rw [if_pos h1]
      apply Res.bind_ne_unreachable _ _ (unmarshalStep_ne_unreachable D l i m)
      rintro ⟨j, x⟩ _
      exact unmarshalLoop_ne_unreachable D l fuel j x
    · rw [if_neg h1]
      split <;> intro h <;> cases h

/-! ### The receiver -/

theorem Res.bind_eq_ok {α β : Type} {r : Res α} {f : α → Res β} {b : β}
    (h : (r >>= f) = .ok b) : ∃ a, r = .ok a ∧ f a = .ok b := by
  cases r with
  | ok a => exact ⟨a, rfl, h⟩
  | err e => cases h
  | panicked p => cases h
  | outOfFuel => cases h

/-- The body of the loop of `Unmarshal` changes only the field that the tag names. -/
theorem unmarshalField_frame {D : List Byte} {l pre : Int} {w : Nat} {i : Int}
    {m : FileExtent} {j : Int} {m1 : FileExtent}
    (h : unmarshalField D l pre w i m = .ok (j, m1)) :
    (toInt32 (w >>> 3) ≠ 1 → m1.Checksum = m.Checksum) ∧
    (toInt32 (w >>> 3) ≠ 2 → m1.Data = m.Data) := by
  unfold unmarshalField at h
  dsimp only at h
  by_cases h4 : toInt64 (w &&& 7) = 4
  · rw [if_pos h4] at h; cases h
  rw [if_neg h4] at h
  by_cases h0 : toInt32 (w >>> 3) ≤ 0
  · rw [if_pos h0] at h; cases h
  rw [if_neg h0] at h
  by_cases h1 : toInt32 (w >>> 3) = 1
  · rw [if_pos h1] at h
    by_cases h2 : toInt64 (w &&& 7) ≠ 2
    · rw [if_pos h2] at h; cases h
    · rw [if_neg h2] at h
      obtain ⟨⟨p, x⟩, _, hx⟩ := Res.bind_eq_ok h
      cases hx
      exact ⟨fun hne => absurd h1 hne, fun _ => rfl⟩
  rw [if_neg h1] at h
  by_cases h2 : toInt32 (w >>> 3) = 2
  · rw [if_pos h2] at h
    by_cases h3 : toInt64 (w &&& 7) ≠ 2
    · rw [if_pos h3] at h; cases h
    · rw [if_neg h3] at h
      obtain ⟨⟨p, x⟩, _, hx⟩ := Res.bind_eq_ok h
      cases hx
      exact ⟨fun _ => rfl, fun hne => absurd h2 hne⟩
  rw [if_neg h2] at h
  obtain ⟨p, _, hx⟩ := Res.bind_eq_ok h
  cases hx
  exact ⟨fun _ => rfl, fun _ => rfl⟩

theorem unmarshalStep_frame {D : List Byte} {l i : Int} {m : FileExtent} {j : Int}
    {m1 : FileExtent} (h : unmarshalStep D l i m = .ok (j, m1)) :
    ∃ w k, readVarint D l 11 0 i 0 = .ok (w, k) ∧
      (toInt32 (w >>> 3) ≠ 1 → m1.Checksum = m.Checksum) ∧
      (toInt32 (w >>> 3) ≠ 2 → m1.Data = m.Data) := by
  unfold unmarshalStep at h
  dsimp only at h
  obtain ⟨⟨w, k⟩, hr, hf⟩ := Res.bind_eq_ok h
  exact ⟨w, k, hr, unmarshalField_frame hf⟩

/-- The loop of `Unmarshal`, when it returns nil, has left alone every field that none of
the tags it read names. -/
theorem unmarshalLoop_frame (D : List Byte) (l : Int) : ∀ (fuel : Nat) (i : Int)
    (m r : FileExtent), unmarshalLoop D l fuel i m = .ok r →
    ((∀ w ∈ unmarshalTagsLoop D l fuel i m, toInt32 (w >>> 3) ≠ 1) →
      r.Checksum = m.Checksum) ∧
    ((∀ w ∈ unmarshalTagsLoop D l fuel i m, toInt32 (w >>> 3) ≠ 2) → r.Data = m.Data)
  | 0, _, _, _, h => by
    unfold unmarshalLoop at h
    cases h
  | fuel + 1, i, m, r, h => by
    unfold unmarshalLoop at h
    by_cases h1 : i < l
    · rw [if_pos h1] at h
      obtain ⟨⟨j, m1⟩, hs, hrest⟩ := Res.bind_eq_ok h
      obtain ⟨w, k, hr, hf1, hf2⟩ := unmarshalStep_frame hs
      have htags : unmarshalTagsLoop D l (fuel + 1) i m
          = w :: unmarshalTagsLoop D l fuel j m1 := by
        rw [unmarshalTagsLoop, if_pos h1, hr, hs]
      obtain ⟨ih1, ih2⟩ := unmarshalLoop_frame D l fuel j m1 r hrest
      rw [htags]
      constructor
      · intro hall
        rw [ih1 (fun x hx => hall x (List.mem_cons_of_mem _ hx)),
          hf1 (hall w (List.mem_cons_self _ _))]
      · intro hall
        rw [ih2 (fun x hx => hall x (List.mem_cons_of_mem _ hx)),
          hf2 (hall w (List.mem_cons_self _ _))]
    · rw [if_neg h1] at h
      by_cases h2 : i > l
      · rw [if_pos h2] at h; cases h
      · rw [if_neg h2] at h
        cases h
        exact ⟨fun _ => rfl, fun _ => rfl⟩

/-! ### The receiver in memory -/

theorem write_getElem? (mem src : List Byte) (p j : Nat) (hp : p + src.length ≤ mem.length) :
    (mem.take p ++ src ++ mem.drop (p + src.length))[j]? =
      if p ≤ j ∧ j < p + src.length then src[j - p]? else mem[j]? := by
  have hlen : (mem.take p).length = p := by rw [List.length_take]; omega
  by_cases h1 : j < p
  · rw [if_neg (by omega), List.append_assoc, List.getElem?_append_left (by omega),
      List.getElem?_take_of_lt h1]
  · by_cases h2 : j < p + src.length
    · rw [if_pos (by omega), List.getElem?_append_left (by rw [List.length_append]; omega),
        List.getElem?_append_right (by omega), hlen]
    · rw [if_neg (by omega), List.getElem?_append_right (by rw [List.length_append]; omega),
        List.getElem?_drop, List.length_append, hlen]
      congr 1
      omega

theorem read_write_other (mem src : List Byte) (p a k : Nat) (hp : p + src.length ≤ mem.length)
    (hd : src.length = 0 ∨ k = 0 ∨ a + k ≤ p ∨ p + src.length ≤ a) :
    ((mem.take p ++ src ++ mem.drop (p + src.length)).drop a).take k = (mem.drop a).take k := by
  apply List.ext_getElem?
  intro i
  rw [List.getElem?_take, List.getElem?_take]
  by_cases hi : i < k
  · rw [if_pos hi, if_pos hi, List.getElem?_drop, List.getElem?_drop, write_getElem? mem src p _ hp,
      if_neg (by omega)]
  · rw [if_neg hi, if_neg hi]

theorem read_write_self (mem src : List Byte) (p : Nat) (hp : p + src.length ≤ mem.length) :
    ((mem.take p ++ src ++ mem.drop (p + src.length)).drop p).take src.length = src := by
  have hlen : (mem.take p).length = p := by rw [List.length_take]; omega
  rw [List.append_assoc, List.drop_left' hlen, List.take_left]

theorem write_length (mem src : List Byte) (p : Nat) (hp : p + src.length ≤ mem.length) :
    (mem.take p ++ src ++ mem.drop (p + src.length)).length = mem.length := by
  rw [List.length_append, List.length_append, List.length_take, List.length_drop]
  omega

theorem read_alloc_other (mem extra : List Byte) (a k : Nat) (h : a + k ≤ mem.length) :
    ((mem ++ extra).drop a).take k = (mem.drop a).take k := by
  rw [List.drop_append_of_le_length (by omega), List.take_append_of_le_length]
  rw [List.length_drop]; omega

theorem read_alloc_self (mem src extra : List Byte) :
    ((mem ++ src ++ extra).drop mem.length).take src.length = src := by
  rw [List.append_assoc, List.drop_left, List.take_left]

theorem Apart.symm {a n b k : Nat} (h : Apart a n b k) : Apart b k a n := by
  unfold Apart at *; omega

theorem Apart.mono {a n b k k1 : Nat} (h : Apart a n b k) (hk : k1 ≤ k) : Apart a n b k1 := by
  unfold Apart at *; omega

/-- The expression `append(x[:0], src...)` yields a slice that holds `src`, and leaves alone
every range of addresses apart from the capacity of `x`. -/
theorem appendReuse_spec (grow : Nat → Nat → Nat) (mem : List Byte) (x : Slice)
    (src : List Byte) (hx : x.WF mem) :
    (appendReuse grow mem x src).2.bytes (appendReuse grow mem x src).1 = src ∧
    (appendReuse grow mem x src).2.WF (appendReuse grow mem x src).1 ∧
    mem.length ≤ (appendReuse grow mem x src).1.length ∧
    ∀ a k, a + k ≤ mem.length → Apart x.ptr x.cap a k →
      (((appendReuse grow mem x src).1.drop a).take k = (mem.drop a).take k ∧
        Apart (appendReuse grow mem x src).2.ptr (appendReuse grow mem x src).2.cap a k) := by
  obtain ⟨hx1, hx2⟩ := hx
  unfold appendReuse
  by_cases hc : src.length ≤ x.cap
  · rw [if_pos hc]
    have hp : x.ptr + src.length ≤ mem.length := by omega
    refine ⟨read_write_self mem src x.ptr hp, ⟨hc, ?_⟩, ?_, ?_⟩
    · dsimp only
      rw [write_length mem src x.ptr hp]; exact hx2
    · dsimp only
      rw [write_length mem src x.ptr hp]
    · intro a k hak hap
      refine ⟨read_write_other mem src x.ptr a k hp ?_, hap⟩
      unfold Apart at hap
      omega
  · rw [if_neg hc]
    dsimp only
    have hlen : (mem ++ src ++ List.replicate
        (max src.length (grow x.cap src.length) - src.length) (0 : Byte)).length
          = mem.length + max src.length (grow x.cap src.length) := by
      rw [List.length_append, List.length_append, List.length_replicate]
      omega
    refine ⟨read_alloc_self mem src _, ⟨le_max_left _ _, ?_⟩, ?_, ?_⟩
    · dsimp only
      rw [hlen]
    · rw [hlen]; omega
    · intro a k hak _
      refine ⟨?_, ?_⟩
      · rw [List.append_assoc]
        exact read_alloc_other mem _ a k hak
      · unfold Apart
        omega

/-- The statement `m.Checksum = append(m.Checksum[:0], s...)` on a receiver that shares no
memory: `Checksum` becomes `s`, `Data` and the input keep their elements, and the receiver
still shares no memory. -/
theorem setChecksum_spec (grow : Nat → Nat → Nat) (st : Store) (s : List Byte) (hwf : st.WF)
    (hsep : st.Separate) :
    (st.setChecksum grow s).values = ⟨s, st.values.Data⟩ ∧
    (st.setChecksum grow s).WF ∧ (st.setChecksum grow s).Separate ∧
    (st.setChecksum grow s).dAtA = st.dAtA ∧ (st.setChecksum grow s).input = st.input := by
  obtain ⟨hi, hc, hd⟩ := hwf
  obtain ⟨hcd, hci, hdi⟩ := hsep
  obtain ⟨a1, a2, a3, a4⟩ := appendReuse_spec grow st.mem st.Checksum s hc
  have hi1 := hi.1
  have hi2 := hi.2
  have hd1 := hd.1
  have hd2 := hd.2
  obtain ⟨d1, d2⟩ := a4 st.Data.ptr st.Data.cap hd2 hcd
  obtain ⟨d3, _⟩ := a4 st.Data.ptr st.Data.len (by omega) (hcd.mono hd1)
  obtain ⟨i1, i2⟩ := a4 st.dAtA.ptr st.dAtA.len (by omega) hci
  unfold Store.setChecksum
  refine ⟨?_, ⟨⟨hi1, ?_⟩, a2, ⟨hd1, ?_⟩⟩, ⟨d2, i2, hdi⟩, rfl, i1⟩
  · unfold Store.values Slice.bytes
    dsimp only
    unfold Slice.bytes at a1
    rw [a1, d3]
  · dsimp only; omega
  · dsimp only; omega

/-- The statement `m.Data = append(m.Data[:0], s...)` on a receiver that shares no memory:
`Data` becomes `s`, `Checksum` and the input keep their elements, and the receiver still
shares no memory. -/
theorem setData_spec (grow : Nat → Nat → Nat) (st : Store) (s : List Byte) (hwf : st.WF)
    (hsep : st.Separate) :
    (st.setData grow s).values = ⟨st.values.Checksum, s⟩ ∧
    (st.setData grow s).WF ∧ (st.setData grow s).Separate ∧
    (st.setData grow s).dAtA = st.dAtA ∧ (st.setData grow s).input = st.input := by
  obtain ⟨hi, hc, hd⟩ := hwf
  obtain ⟨hcd, hci, hdi⟩ := hsep
  obtain ⟨a1, a2, a3, a4⟩ := appendReuse_spec grow st.mem st.Data s hd
  have hi1 := hi.1
  have hi2 := hi.2
  have hc1 := hc.1
  have hc2 := hc.2
  obtain ⟨c1, c2⟩ := a4 st.Checksum.ptr st.Checksum.cap hc2 hcd.symm
  obtain ⟨c3, _⟩ := a4 st.Checksum.ptr st.Checksum.len (by omega) (hcd.symm.mono hc1)
  obtain ⟨i1, i2⟩ := a4 st.dAtA.ptr st.dAtA.len (by omega) hdi
  unfold Store.setData
  refine ⟨?_, ⟨⟨hi1, ?_⟩, ⟨hc1, ?_⟩, a2⟩, ⟨c2.symm, hci, i2⟩, rfl, i1⟩
  · unfold Store.values Slice.bytes
    dsimp only
    unfold Slice.bytes at a1
    rw [a1, c3]
  · dsimp only; omega
  · dsimp only; omega

theorem Res.map_ok {α β : Type} (f : α → β) (a : α) : Res.map f (Res.ok a) = .ok (f a) := rfl

/-- The body of the loop on a receiver that shares no memory computes the values of the
body of the loop on values, and leaves a receiver that shares no memory and the same input. -/
theorem unmarshalFieldMem_values (grow : Nat → Nat → Nat) (st : Store) (hwf : st.WF)
    (hsep : st.Separate) (D : List Byte) (l pre : Int) (w : Nat) (i : Int) :
    Res.map (fun p => (p.1, p.2.values)) (unmarshalFieldMem grow D l pre w i st)
      = unmarshalField D l pre w i st.values ∧
    ∀ j st1, unmarshalFieldMem grow D l pre w i st = .ok (j, st1) →
      st1.WF ∧ st1.Separate ∧ st1.dAtA = st.dAtA ∧ st1.input = st.input := by
  unfold unmarshalFieldMem unmarshalField
  dsimp only
  by_cases h4 : toInt64 (w &&& 7) = 4
  · rw [if_pos h4, if_pos h4]
    exact ⟨rfl, fun j st1 h => by cases h⟩
  rw [if_neg h4, if_neg h4]
  by_cases h0 : toInt32 (w >>> 3) ≤ 0
  · rw [if_pos h0, if_pos h0]
    exact ⟨rfl, fun j st1 h => by cases h⟩
  rw [if_neg h0, if_neg h0]
  by_cases h1 : toInt32 (w >>> 3) = 1
  · rw [if_pos h1, if_pos h1]
    by_cases h2 : toInt64 (w &&& 7) ≠ 2
    · rw [if_pos h2, if_pos h2]
      exact ⟨rfl, fun j st1 h => by cases h⟩
    · rw [if_neg h2, if_neg h2]
      cases hb : unmarshalBytes D l i with
      | ok a =>
        obtain ⟨p, s⟩ := a
        obtain ⟨e1, e2, e3, e4, e5⟩ := setChecksum_spec grow st s hwf hsep
        rw [Res.ok_bind, Res.ok_bind]
        dsimp only
        rw [Res.map_ok]
        dsimp only
        rw [e1]
        refine ⟨rfl, fun j st1 h => ?_⟩
        cases h
        exact ⟨e2, e3, e4, e5⟩
      | err e => exact ⟨rfl, fun j st1 h => by cases h⟩
      | panicked p => exact ⟨rfl, fun j st1 h => by cases h⟩
      | outOfFuel => exact ⟨rfl, fun j st1 h => by cases h⟩
  rw [if_neg h1, if_neg h1]
  by_cases h2 : toInt32 (w >>> 3) = 2
  · rw [if_pos h2, if_pos h2]
    by_cases h3 : toInt64 (w &&& 7) ≠ 2
    · rw [if_pos h3, if_pos h3]
      exact ⟨rfl, fun j st1 h => by cases h⟩
    · rw [if_neg h3, if_neg h3]
      cases hb : unmarshalBytes D l i with
      | ok a =>
        obtain ⟨p, s⟩ := a
        obtain ⟨e1, e2, e3, e4, e5⟩ := setData_spec grow st s hwf hsep
        rw [Res.ok_bind, Res.ok_bind]
        dsimp only
        rw [Res.map_ok]
        dsimp only
        rw [e1]
        refine ⟨rfl, fun j st1 h => ?_⟩
        cases h
        exact ⟨e2, e3, e4, e5⟩
      | err e => exact ⟨rfl, fun j st1 h => by cases h⟩
      | panicked p => exact ⟨rfl, fun j st1 h => by cases h⟩
      | outOfFuel => exact ⟨rfl, fun j st1 h => by cases h⟩
  rw [if_neg h2, if_neg h2]
  cases hb : unmarshalSkip D l pre with
  | ok a =>
    rw [Res.ok_bind, Res.ok_bind]
    refine ⟨rfl, fun j st1 h => ?_⟩
    cases h
    exact ⟨hwf, hsep, rfl, rfl⟩
  | err e => exact ⟨rfl, fun j st1 h => by cases h⟩
  | panicked p => exact ⟨rfl, fun j st1 h => by cases h⟩
  | outOfFuel => exact ⟨rfl, fun j st1 h => by cases h⟩

theorem unmarshalStepMem_values (grow : Nat → Nat → Nat) (st : Store) (hwf : st.WF)
    (hsep : st.Separate) (l i : Int) :
    Res.map (fun p => (p.1, p.2.values)) (unmarshalStepMem grow l i st)
      = unmarshalStep st.input l i st.values ∧
    ∀ j st1, unmarshalStepMem grow l i st = .ok (j, st1) →
      st1.WF ∧ st1.Separate ∧ st1.dAtA = st.dAtA ∧ st1.input = st.input := by
  unfold unmarshalStepMem unmarshalStep Store.input
  dsimp only
  cases hr : readVarint (st.dAtA.bytes st.mem) l 11 0 i 0 with
  | ok a =>
    obtain ⟨w, k⟩ := a
    rw [Res.ok_bind, Res.ok_bind]
    exact unmarshalFieldMem_values grow st hwf hsep _ l i w k
  | err e => exact ⟨rfl, fun j st1 h => by cases h⟩
  | panicked p => exact ⟨rfl, fun j st1 h => by cases h⟩
  | outOfFuel => exact ⟨rfl, fun j st1 h => by cases h⟩

/-- The loop of `Unmarshal` on a receiver that shares no memory computes the values of the
loop on values and reads the same tags. -/
theorem unmarshalLoopMem_values (grow : Nat → Nat → Nat) (D : List Byte) (l : Int) :
    ∀ (fuel : Nat) (i : Int) (st : Store), st.WF → st.Separate → st.input = D →
      Res.map Store.values (unmarshalLoopMem grow l fuel i st) = unmarshalLoop D l fuel i st.values ∧
      unmarshalTagsLoopMem grow l fuel i st = unmarshalTagsLoop D l fuel i st.values
  | 0, _, _, _, _, _ => ⟨rfl, rfl⟩
  | fuel + 1, i, st, hwf, hsep, hD => by
    obtain ⟨hs1, hs2⟩ := unmarshalStepMem_values grow st hwf hsep l i
    rw [hD] at hs1
    have hin : st.dAtA.bytes st.mem = D := hD
    unfold unmarshalLoopMem unmarshalLoop unmarshalTagsLoopMem unmarshalTagsLoop
    rw [hin]
    by_cases h1 : i < l
    · rw [if_pos h1, if_pos h1, if_pos h1, if_pos h1]
      cases hX : unmarshalStepMem grow l i st with
      | ok a =>
        obtain ⟨j, st1⟩ := a
        rw [hX, Res.map_ok] at hs1
        obtain ⟨w1, w2, _, w4⟩ := hs2 j st1 hX
        obtain ⟨ih1, ih2⟩ := unmarshalLoopMem_values grow D l fuel j st1 w1 w2 (w4.trans hD)
        rw [← hs1, Res.ok_bind, Res.ok_bind]
        dsimp only
        rw [ih1]
        refine ⟨rfl, ?_⟩
        cases readVarint D l 11 0 i 0 with
        | ok a =>
          dsimp only
          rw [ih2]
        | err e => rfl
        | panicked p => rfl
        | outOfFuel => rfl
      | err e =>
        rw [hX] at hs1
        rw [← hs1]
        refine ⟨rfl, ?_⟩
        cases readVarint D l 11 0 i 0 <;> rfl
      | panicked p =>
        rw [hX] at hs1
        rw [← hs1]
        refine ⟨rfl, ?_⟩
        cases readVarint D l 11 0 i 0 <;> rfl
      | outOfFuel =>
        rw [hX] at hs1
        rw [← hs1]
        refine ⟨rfl, ?_⟩
        cases readVarint D l 11 0 i 0 <;> rfl
    · rw [if_neg h1, if_neg h1, if_neg h1, if_neg h1]
      by_cases h2 : i > l
      · rw [if_pos h2, if_pos h2]
        exact ⟨rfl, rfl⟩
      · rw [if_neg h2, if_neg h2]
        exact ⟨rfl, rfl⟩

theorem Store.input_length (st : Store) (hwf : st.WF) : st.input.length = st.dAtA.len := by
  obtain ⟨⟨h1, h2⟩, _⟩ := hwf
  unfold Store.input Slice.bytes
  rw [List.length_take, List.length_drop]
  omega

/-- The method `Unmarshal` on a receiver that shares no memory (the capacities of `Checksum`
and of `Data` and the input overlap nowhere) yields the values of `Unmarshal` on values,
and reads the same tags. -/
theorem Unmarshal_in_memory (grow : Nat → Nat → Nat) (st : Store) (hwf : st.WF)
    (hsep : st.Separate) :
    Res.map Store.values (st.Unmarshal grow) = st.values.Unmarshal st.input ∧
    st.tags grow = unmarshalTags st.values st.input := by
  unfold Store.Unmarshal FileExtent.Unmarshal Store.tags unmarshalTags
  rw [Store.input_length st hwf]
  exact unmarshalLoopMem_values grow st.input st.dAtA.len (st.dAtA.len + 1) 0 st hwf hsep rfl

theorem Res.map_eq_ok {α β : Type} {f : α → β} {r : Res α} {b : β} (h : Res.map f r = .ok b) :
    ∃ a, r = .ok a ∧ f a = b := by
  cases r with
  | ok a => exact ⟨a, rfl, by cases h; rfl⟩
  | err e => cases h
  | panicked p => cases h
  | outOfFuel => cases h

theorem toInt32_fieldNum (w : Nat) (h : w / 8 < 2 ^ 31) : toInt32 (w >>> 3) = ((w / 8 : Nat) : Int) := by
  rw [Nat.shiftRight_eq_div_pow]
  unfold toInt32
  norm_num at h ⊢
  omega

/-! ## The persisted-record codec: claims -/

/-- C1, codec round trip.  For every `FileExtent` `m` (whose two byte sequences fit a Go
slice together with their framing), `Marshal` returns the bytes without error, and
`Unmarshal` of these bytes into a zero `FileExtent` returns nil and yields the `Checksum` and
the `Data` of `m`. -/
theorem Marshal_Unmarshal_round_trip (m : FileExtent)
    (h : m.Checksum.length + m.Data.length + 20 < 2 ^ 63) :
    ∃ dAtA, m.Marshal = .ok dAtA ∧ ({} : FileExtent).Unmarshal dAtA = .ok m := by
  refine ⟨_, Marshal_eq m h, ?_⟩
  rw [← encodeFields_fieldsOf,
    Unmarshal_fields (fieldsOf m) {} (fieldsOf_WF m)
      (by rw [encodeFields_fieldsOf]; exact optFields_length_lt m h),
    foldl_fieldsOf]

theorem Marshal_Unmarshal_round_trip_witness :
    ∃ dAtA, (FileExtent.mk [1, 2, 3] [4, 5]).Marshal = .ok dAtA ∧
      ({} : FileExtent).Unmarshal dAtA = .ok (FileExtent.mk [1, 2, 3] [4, 5]) :=
  Marshal_Unmarshal_round_trip (FileExtent.mk [1, 2, 3] [4, 5]) (by decide)

/-- C2, wire framing.  `Marshal(m)` is exactly: when `Checksum` is not empty, the byte 0x0A,
the base-128 little-endian varint of its length and its bytes; then, when `Data` is not
empty, the byte 0x12, the varint of its length and its bytes.  An empty field is left out. -/
theorem Marshal_wire_framing (m : FileExtent)
    (h : m.Checksum.length + m.Data.length + 20 < 2 ^ 63) :
    m.Marshal = .ok
      ((if m.Checksum = [] then []
          else (0x0A : Byte) :: (varint m.Checksum.length ++ m.Checksum))
        ++ (if m.Data = [] then []
          else (0x12 : Byte) :: (varint m.Data.length ++ m.Data))) := by
  rw [Marshal_eq m h]
  rfl

theorem Marshal_wire_framing_witness :
    (FileExtent.mk [1, 2, 3] [4, 5]).Marshal = .ok
      ((if (FileExtent.mk [1, 2, 3] [4, 5]).Checksum = [] then []
          else (0x0A : Byte) :: (varint (FileExtent.mk [1, 2, 3] [4, 5]).Checksum.length
            ++ (FileExtent.mk [1, 2, 3] [4, 5]).Checksum))
        ++ (if (FileExtent.mk [1, 2, 3] [4, 5]).Data = [] then []
          else (0x12 : Byte) :: (varint (FileExtent.mk [1, 2, 3] [4, 5]).Data.length
            ++ (FileExtent.mk [1, 2, 3] [4, 5]).Data))) :=
  Marshal_wire_framing (FileExtent.mk [1, 2, 3] [4, 5]) (by decide)

/-- C3, at the failing input.  On the ten bytes `0A FF FF FF FF FF FF FF FF 7F` (field 1,
length `2^63 - 1`) the sum `iNdEx + byteLen` wraps to a negative `postIndex`, the test
`postIndex > l` lets it through, and the slice expression `dAtA[iNdEx:postIndex]` panics:
`Unmarshal` neither returns nil nor an error. -/
theorem Unmarshal_panics_on_wrapped_postIndex :
    ({} : FileExtent).Unmarshal [0x0a, 0xff, 0xff, 0xff, 0xff, 0xff, 0xff, 0xff, 0xff, 0x7f]
      = .panicked .outOfRange := by
  decide

/-- C4, forward-compatible framing.  For every `FileExtent` `m` and every well-formed
unknown field (number between 3 and `2^29 - 1`; wire type varint, fixed64, length-delimited
or fixed32; content fully present) put before, between or after the fields of `Marshal(m)`,
`Unmarshal` into a zero `FileExtent` returns nil and yields what it yields on `Marshal(m)`
alone, the `Checksum` and the `Data` of `m`. -/
theorem Unmarshal_skips_unknown_field (m : FileExtent) (fieldNum : Nat) (u : Unknown)
    (hwf : (Field.unknown fieldNum u).WF)
    (h : m.Checksum.length + m.Data.length + (Field.unknown fieldNum u).bytes.length + 20
      < 2 ^ 63) :
    m.Marshal = .ok (optField 0xa m.Checksum ++ optField 0x12 m.Data) ∧
    ({} : FileExtent).Unmarshal (optField 0xa m.Checksum ++ optField 0x12 m.Data) = .ok m ∧
    ({} : FileExtent).Unmarshal
      ((Field.unknown fieldNum u).bytes ++ optField 0xa m.Checksum ++ optField 0x12 m.Data)
        = .ok m ∧
    ({} : FileExtent).Unmarshal
      (optField 0xa m.Checksum ++ (Field.unknown fieldNum u).bytes ++ optField 0x12 m.Data)
        = .ok m ∧
    ({} : FileExtent).Unmarshal
      (optField 0xa m.Checksum ++ optField 0x12 m.Data ++ (Field.unknown fieldNum u).bytes)
        = .ok m := by
  have hb : m.Checksum.length + m.Data.length + 20 < 2 ^ 63 := by omega
  refine ⟨Marshal_eq _ hb, ?_, ?_, ?_, ?_⟩
  · have := Unmarshal_fields (fieldsOf m) {} (fieldsOf_WF _)
      (by rw [encodeFields_fieldsOf]; exact optFields_length_lt m hb)
    rw [encodeFields_fieldsOf, foldl_fieldsOf] at this
    exact this
  · have := Unmarshal_with_extra m [] (fieldsOf m) rfl _ hwf (fun _ => rfl) h
    rw [encodeFields_fieldsOf] at this
    simpa [encodeFields] using this
  · have := Unmarshal_with_extra m (if m.Checksum = [] then [] else [Field.checksum m.Checksum])
      (if m.Data = [] then [] else [Field.data m.Data]) rfl _ hwf (fun _ => rfl) h
    rw [encodeFields_checksum, encodeFields_data] at this
    exact this
  · have := Unmarshal_with_extra m (fieldsOf m) [] (by simp) _ hwf (fun _ => rfl) h
    rw [encodeFields_fieldsOf] at this
    simpa [encodeFields] using this

theorem Unmarshal_skips_unknown_field_witness :
    (FileExtent.mk [1, 2, 3] [4, 5]).Marshal
      = .ok (optField 0xa [1, 2, 3] ++ optField 0x12 [4, 5]) ∧
    ({} : FileExtent).Unmarshal (optField 0xa [1, 2, 3] ++ optField 0x12 [4, 5])
      = .ok (FileExtent.mk [1, 2, 3] [4, 5]) ∧
    ({} : FileExtent).Unmarshal
      ((Field.unknown 3 (.bytes [7])).bytes ++ optField 0xa [1, 2, 3] ++ optField 0x12 [4, 5])
        = .ok (FileExtent.mk [1, 2, 3] [4, 5]) ∧
    ({} : FileExtent).Unmarshal
      (optField 0xa [1, 2, 3] ++ (Field.unknown 3 (.bytes [7])).bytes ++ optField 0x12 [4, 5])
        = .ok (FileExtent.mk [1, 2, 3] [4, 5]) ∧
    ({} : FileExtent).Unmarshal
      (optField 0xa [1, 2, 3] ++ optField 0x12 [4, 5] ++ (Field.unknown 3 (.bytes [7])).bytes)
        = .ok (FileExtent.mk [1, 2, 3] [4, 5]) :=
  Unmarshal_skips_unknown_field (FileExtent.mk [1, 2, 3] [4, 5]) 3 (.bytes [7])
    (by decide) (by simp [Field.bytes, Unknown.wireType, Unknown.body, varint])

/-- C6, corruption is not masked by the framing.  For every `FileExtent` `m`, changing one
byte inside the Data content (respectively the Checksum content) of `Marshal(m)` gives
bytes that `Unmarshal` decodes, into a zero `FileExtent`, without error, to a message whose
Data (respectively Checksum) differs from the original at exactly that position and whose
other field is unchanged: never the original pair. -/
theorem Unmarshal_exposes_mutation (m : FileExtent) (j : Nat) (b : Byte)
    (h : m.Checksum.length + m.Data.length + 20 < 2 ^ 63) :
    (j < m.Data.length → m.Data[j]? ≠ some b →
      ∃ dAtA r, m.Marshal = .ok dAtA ∧
        ({} : FileExtent).Unmarshal
          (dAtA.set ((optField 0xa m.Checksum).length + (1 + (varint m.Data.length).length + j))
            b) = .ok r ∧
        r.Checksum = m.Checksum ∧ r.Data.length = m.Data.length ∧
        (∀ i, r.Data[i]? ≠ m.Data[i]? ↔ i = j) ∧ r ≠ m) ∧
    (j < m.Checksum.length → m.Checksum[j]? ≠ some b →
      ∃ dAtA r, m.Marshal = .ok dAtA ∧
        ({} : FileExtent).Unmarshal
          (dAtA.set (1 + (varint m.Checksum.length).length + j) b) = .ok r ∧
        r.Data = m.Data ∧ r.Checksum.length = m.Checksum.length ∧
        (∀ i, r.Checksum[i]? ≠ m.Checksum[i]? ↔ i = j) ∧ r ≠ m) := by
  have key : ∀ (xs : List Byte), j < xs.length → xs[j]? ≠ some b →
      ∀ i, (xs.set j b)[i]? ≠ xs[i]? ↔ i = j := by
    intro xs hj hne i
    rw [List.getElem?_set]
    by_cases hij : j = i
    · subst hij; simp [hj]
      exact fun hc => hne (by rw [List.getElem?_eq_getElem hj, hc])
    · simp [hij]; exact fun hc => hij hc.symm
  constructor
  · intro hj hne
    refine ⟨_, ⟨m.Checksum, m.Data.set j b⟩, Marshal_eq m h, ?_, rfl, by simp, key _ hj hne, ?_⟩
    · rw [List.set_append_right _ _ (by omega), Nat.add_sub_cancel_left,
        optField_set _ _ _ _ hj, ← encodeFields_fieldsOf ⟨m.Checksum, m.Data.set j b⟩,
        Unmarshal_fields _ {} (fieldsOf_WF _)
          (by rw [encodeFields_fieldsOf]; exact optFields_length_lt _ (by simpa using h)),
        foldl_fieldsOf]
    · intro hc
      have := congrArg (fun r : FileExtent => r.Data[j]?) hc
      simp [hj] at this
      exact hne (by rw [List.getElem?_eq_getElem hj, ← this])
  · intro hj hne
    refine ⟨_, ⟨m.Checksum.set j b, m.Data⟩, Marshal_eq m h, ?_, rfl, by simp, key _ hj hne, ?_⟩
    · have hlt : 1 + (varint m.Checksum.length).length + j < (optField 0xa m.Checksum).length := by
        have hc : m.Checksum ≠ [] := by intro hc; rw [hc] at hj; simp at hj
        rw [optField_ne_nil hc]; simp [lenField]; omega
      rw [List.set_append_left _ _ hlt,
        optField_set _ _ _ _ hj, ← encodeFields_fieldsOf ⟨m.Checksum.set j b, m.Data⟩,
        Unmarshal_fields _ {} (fieldsOf_WF _)
          (by rw [encodeFields_fieldsOf]; exact optFields_length_lt _ (by simpa using h)),
        foldl_fieldsOf]
    · intro hc
      have := congrArg (fun r : FileExtent => r.Checksum[j]?) hc
      simp [hj] at this
      exact hne (by rw [List.getElem?_eq_getElem hj, ← this])

theorem Unmarshal_exposes_mutation_witness :
    (∃ dAtA r, (FileExtent.mk [1, 2, 3] [4, 5]).Marshal = .ok dAtA ∧
        ({} : FileExtent).Unmarshal
          (dAtA.set ((optField 0xa (FileExtent.mk [1, 2, 3] [4, 5]).Checksum).length
            + (1 + (varint (FileExtent.mk [1, 2, 3] [4, 5]).Data.length).length + 1)) 9)
          = .ok r ∧
        r.Checksum = (FileExtent.mk [1, 2, 3] [4, 5]).Checksum ∧
        r.Data.length = (FileExtent.mk [1, 2, 3] [4, 5]).Data.length ∧
        (∀ i, r.Data[i]? ≠ (FileExtent.mk [1, 2, 3] [4, 5]).Data[i]? ↔ i = 1) ∧
        r ≠ FileExtent.mk [1, 2, 3] [4, 5]) ∧
    (∃ dAtA r, (FileExtent.mk [1, 2, 3] [4, 5]).Marshal = .ok dAtA ∧
        ({} : FileExtent).Unmarshal
          (dAtA.set (1 + (varint (FileExtent.mk [1, 2, 3] [4, 5]).Checksum.length).length + 1) 9)
          = .ok r ∧
        r.Data = (FileExtent.mk [1, 2, 3] [4, 5]).Data ∧
        r.Checksum.length = (FileExtent.mk [1, 2, 3] [4, 5]).Checksum.length ∧
        (∀ i, r.Checksum[i]? ≠ (FileExtent.mk [1, 2, 3] [4, 5]).Checksum[i]? ↔ i = 1) ∧
        r ≠ FileExtent.mk [1, 2, 3] [4, 5]) :=
  ⟨(Unmarshal_exposes_mutation (FileExtent.mk [1, 2, 3] [4, 5]) 1 9 (by decide)).1
      (by decide) (by decide),
    (Unmarshal_exposes_mutation (FileExtent.mk [1, 2, 3] [4, 5]) 1 9 (by decide)).2
      (by decide) (by decide)⟩

/-- C16, `Size` agrees with `Marshal`.  For every `FileExtent` `m`, `Size(m)` is the sum,
over the non-empty fields, of 1, the `sovFileextent` of the length and the length;
`MarshalTo` on any buffer of that length writes inside the buffer (no panic, same length)
and returns exactly `Size(m)`; `Marshal(m)` has that length; and `sovFileextent(x)` is the
number of bytes `encodeVarintFileextent` writes for `x`, the bytes before and after them
being left as they were. -/
theorem Size_agrees_with_Marshal (m : FileExtent)
    (h : m.Checksum.length + m.Data.length + 20 < 2 ^ 63) :
    ∃ n sc sd : Int,
      sovFileextent (toUint64 m.Checksum.length) = .ok sc ∧
      sovFileextent (toUint64 m.Data.length) = .ok sd ∧
      m.Size = .ok n ∧
      n = (if m.Checksum = [] then 0 else 1 + sc + m.Checksum.length)
          + (if m.Data = [] then 0 else 1 + sd + m.Data.length) ∧
      (∀ buf : List Byte, (buf.length : Int) = n →
        ∃ out, m.MarshalTo buf = .ok (out, n) ∧ out.length = buf.length) ∧
      (∃ dAtA, m.Marshal = .ok dAtA ∧ (dAtA.length : Int) = n) ∧
      (∀ (x : Nat) (pre zs : List Byte), x < 2 ^ 64 → 10 ≤ zs.length →
        (pre ++ zs).length < 2 ^ 63 →
        ∃ (k : Nat) (out : List Byte), sovFileextent x = .ok (k : Int) ∧
          encodeVarintFileextent (pre ++ zs) pre.length x = .ok (out, (pre.length : Int) + k) ∧
          out.length = (pre ++ zs).length ∧ out.take pre.length = pre ∧
          out.drop (pre.length + k) = zs.drop k) := by
  have hc64 : m.Checksum.length < 2 ^ 64 := by omega
  have hd64 : m.Data.length < 2 ^ 64 := by omega
  refine ⟨((optField 0xa m.Checksum ++ optField 0x12 m.Data).length : Nat),
    ((varint m.Checksum.length).length : Nat), ((varint m.Data.length).length : Nat),
    ?_, ?_, Size_eq m h, ?_, ?_, ?_, ?_⟩
  · rw [toUint64_eq hc64, sovFileextent_eq hc64]
  · rw [toUint64_eq hd64, sovFileextent_eq hd64]
  · unfold optField
    by_cases hc : m.Checksum = [] <;> by_cases hd : m.Data = [] <;>
      simp [hc, hd, lenField] <;> omega
  · intro buf hbuf
    have hb : buf.length = (optField 0xa m.Checksum ++ optField 0x12 m.Data).length := by
      exact_mod_cast hbuf
    exact ⟨_, MarshalTo_buffer m buf h hb, hb.symm⟩
  · exact ⟨_, Marshal_eq m h, rfl⟩
  · intro x pre zs hx hz hl
    have h10 := varint_length_le_10 hx
    refine ⟨(varint x).length, pre ++ varint x ++ zs.drop (varint x).length,
      sovFileextent_eq hx, ?_, ?_, ?_, ?_⟩
    · rw [encodeVarintFileextent_eq x pre zs hx hz hl]
      simp
    · simp; omega
    · simp [List.take_append_of_le_length]
    · rw [List.append_assoc, List.drop_append_eq_append_drop]
      simp [List.drop_append_eq_append_drop]

theorem Size_agrees_with_Marshal_witness :
    ∃ n sc sd : Int,
      sovFileextent (toUint64 (FileExtent.mk [1, 2, 3] [4, 5]).Checksum.length) = .ok sc ∧
      sovFileextent (toUint64 (FileExtent.mk [1, 2, 3] [4, 5]).Data.length) = .ok sd ∧
      (FileExtent.mk [1, 2, 3] [4, 5]).Size = .ok n ∧
      n = (if (FileExtent.mk [1, 2, 3] [4, 5]).Checksum = [] then 0
            else 1 + sc + (FileExtent.mk [1, 2, 3] [4, 5]).Checksum.length)
          + (if (FileExtent.mk [1, 2, 3] [4, 5]).Data = [] then 0
            else 1 + sd + (FileExtent.mk [1, 2, 3] [4, 5]).Data.length) ∧
      (∀ buf : List Byte, (buf.length : Int) = n →
        ∃ out, (FileExtent.mk [1, 2, 3] [4, 5]).MarshalTo buf = .ok (out, n) ∧
          out.length = buf.length) ∧
      (∃ dAtA, (FileExtent.mk [1, 2, 3] [4, 5]).Marshal = .ok dAtA ∧ (dAtA.length : Int) = n) ∧
      (∀ (x : Nat) (pre zs : List Byte), x < 2 ^ 64 → 10 ≤ zs.length →
        (pre ++ zs).length < 2 ^ 63 →
        ∃ (k : Nat) (out : List Byte), sovFileextent x = .ok (k : Int) ∧
          encodeVarintFileextent (pre ++ zs) pre.length x = .ok (out, (pre.length : Int) + k) ∧
          out.length = (pre ++ zs).length ∧ out.take pre.length = pre ∧
          out.drop (pre.length + k) = zs.drop k) :=
  Size_agrees_with_Marshal (FileExtent.mk [1, 2, 3] [4, 5]) (by decide)

/-- C19, decoding is order-insensitive and last-wins.  For all byte sequences `c` and `d`
that fit a slice with their framing, `Unmarshal` into a zero `FileExtent` of the encoding
with the Data field placed before the Checksum field yields the same `Checksum` and `Data`
as the canonical order, with the empty fields left out or written with length 0.  And for
every well-formed sequence of fields, `Unmarshal` into a zero `FileExtent` returns nil and
each decoded field is the content of the last field of its number only, and empty when
there is none. -/
theorem Unmarshal_any_order_last_wins (c d : List Byte) (fs : List Field)
    (h : c.length + d.length + 20 < 2 ^ 63) (hwf : ∀ f ∈ fs, f.WF)
    (hl : (encodeFields fs).length < 2 ^ 63) :
    (({} : FileExtent).Unmarshal (optField 0x12 d ++ optField 0xa c) = .ok ⟨c, d⟩ ∧
      ({} : FileExtent).Unmarshal (optField 0xa c ++ optField 0x12 d) = .ok ⟨c, d⟩ ∧
      ({} : FileExtent).Unmarshal (lenField 0x12 d ++ lenField 0xa c) = .ok ⟨c, d⟩ ∧
      ({} : FileExtent).Unmarshal (lenField 0xa c ++ lenField 0x12 d) = .ok ⟨c, d⟩) ∧
    (∃ r, ({} : FileExtent).Unmarshal (encodeFields fs) = .ok r ∧
      r.Checksum = ((fs.filterMap Field.checksumContent).getLast?).getD [] ∧
      r.Data = ((fs.filterMap Field.dataContent).getLast?).getD []) := by
  have h1 := optField_length_le 0xa c (by omega)
  have h2 := optField_length_le 0x12 d (by omega)
  have h3 := lenField_length_le 0xa c (by omega)
  have h4 := lenField_length_le 0x12 d (by omega)
  have hwf1 : ∀ (a b : List Field), (∀ f ∈ a, f.WF) → (∀ f ∈ b, f.WF) → ∀ f ∈ a ++ b, f.WF := by
    intro a b ha hb f hf
    rcases List.mem_append.mp hf with hf | hf
    · exact ha f hf
    · exact hb f hf
  have hwc : ∀ f ∈ (if c = [] then [] else [Field.checksum c]), f.WF := by
    intro f hf
    by_cases hc : c = [] <;> simp [hc] at hf
    subst hf; trivial
  have hwd : ∀ f ∈ (if d = [] then [] else [Field.data d]), f.WF := by
    intro f hf
    by_cases hd : d = [] <;> simp [hd] at hf
    subst hf; trivial
  refine ⟨⟨?_, ?_, ?_, ?_⟩, ?_⟩
  · have := Unmarshal_fields ((if d = [] then [] else [Field.data d])
        ++ (if c = [] then [] else [Field.checksum c])) {} (hwf1 _ _ hwd hwc)
      (by rw [encodeFields_append, encodeFields_data, encodeFields_checksum]; simp; omega)
    rw [encodeFields_append, encodeFields_data, encodeFields_checksum] at this
    rw [this]
    by_cases hc : c = [] <;> by_cases hd : d = [] <;> simp [hc, hd, Field.apply]
  · have := Unmarshal_fields ((if c = [] then [] else [Field.checksum c])
        ++ (if d = [] then [] else [Field.data d])) {} (hwf1 _ _ hwc hwd)
      (by rw [encodeFields_append, encodeFields_data, encodeFields_checksum]; simp; omega)
    rw [encodeFields_append, encodeFields_data, encodeFields_checksum] at this
    rw [this]
    by_cases hc : c = [] <;> by_cases hd : d = [] <;> simp [hc, hd, Field.apply]
  · have := Unmarshal_fields [Field.data d, Field.checksum c] {}
      (by intro f hf; simp at hf; rcases hf with rfl | rfl <;> trivial)
      (by simp [encodeFields, Field.bytes]; omega)
    simpa [encodeFields, Field.bytes, Field.apply] using this
  · have := Unmarshal_fields [Field.checksum c, Field.data d] {}
      (by intro f hf; simp at hf; rcases hf with rfl | rfl <;> trivial)
      (by simp [encodeFields, Field.bytes]; omega)
    simpa [encodeFields, Field.bytes, Field.apply] using this
  · exact ⟨_, Unmarshal_fields fs {} hwf hl, foldl_apply_Checksum fs {},
      foldl_apply_Data fs {}⟩

theorem Unmarshal_any_order_last_wins_witness :
    (({} : FileExtent).Unmarshal (optField 0x12 [4, 5] ++ optField 0xa [1, 2, 3])
        = .ok ⟨[1, 2, 3], [4, 5]⟩ ∧
      ({} : FileExtent).Unmarshal (optField 0xa [1, 2, 3] ++ optField 0x12 [4, 5])
        = .ok ⟨[1, 2, 3], [4, 5]⟩ ∧
      ({} : FileExtent).Unmarshal (lenField 0x12 [4, 5] ++ lenField 0xa [1, 2, 3])
        = .ok ⟨[1, 2, 3], [4, 5]⟩ ∧
      ({} : FileExtent).Unmarshal (lenField 0xa [1, 2, 3] ++ lenField 0x12 [4, 5])
        = .ok ⟨[1, 2, 3], [4, 5]⟩) ∧
    (∃ r, ({} : FileExtent).Unmarshal
        (encodeFields [.data [1], .checksum [2], .data [3, 4], .unknown 3 (.fixed32 [0, 0, 0, 0])])
          = .ok r ∧
      r.Checksum = ((([.data [1], .checksum [2], .data [3, 4],
          .unknown 3 (.fixed32 [0, 0, 0, 0])] : List Field).filterMap
            Field.checksumContent).getLast?).getD [] ∧
      r.Data = ((([.data [1], .checksum [2], .data [3, 4],
          .unknown 3 (.fixed32 [0, 0, 0, 0])] : List Field).filterMap
            Field.dataContent).getLast?).getD []) :=
  Unmarshal_any_order_last_wins [1, 2, 3] [4, 5]
    [.data [1], .checksum [2], .data [3, 4], .unknown 3 (.fixed32 [0, 0, 0, 0])]
    (by decide) (by decide)
    (by simp [encodeFields, Field.bytes, lenField, varint, Unknown.wireType, Unknown.body])

/-- C17, the assertion `panic("unreachable")` holds.  The function `skipFileextent`
reaches its final panic if and only if it is given an empty slice; at every depth of its
recursion a non-empty slice never reaches it.  Both call sites, in `Unmarshal` and in the
group loop, pass the slice `dAtA[start:]` right after a tag was read at `start`, and that
slice is never empty.  So `Unmarshal` reaches that panic on no input, whatever the
receiver. -/
theorem skipFileextent_unreachable_holds :
    (∀ dAtA : List Byte, skipFileextent dAtA = .panicked .unreachable ↔ dAtA = []) ∧
    (∀ (fuel : Nat) (dAtA : List Byte), dAtA ≠ [] →
      skipFileextentFuel fuel dAtA ≠ .panicked .unreachable) ∧
    (∀ (dAtA : List Byte) (l start : Int) (wire : Nat) (iNdEx : Int),
      readVarint dAtA l 11 0 start 0 = .ok (wire, iNdEx) →
      ∃ b rest, sliceFrom dAtA start = .ok (b :: rest)) ∧
    (∀ (recv : FileExtent) (dAtA : List Byte),
      recv.Unmarshal dAtA ≠ .panicked .unreachable) := by
  refine ⟨fun dAtA => ⟨fun h => ?_, fun h => ?_⟩, fun fuel dAtA hne => ?_,
    fun dAtA l start wire iNdEx hr => ?_, fun recv dAtA => ?_⟩
  · by_contra hne
    exact skipFileextent_ne_unreachable dAtA hne h
  · subst h
    rfl
  · exact (skip_ne_unreachable fuel).1 dAtA hne
  · exact sliceFrom_nonempty (readVarint_ok_bounds hr)
  · exact unmarshalLoop_ne_unreachable dAtA _ _ _ _

/-- C18, at the counterexamples.  First a receiver whose `Checksum` and `Data` are the same
three bytes `01 02 03` of one array, and the input `12 03 09 09 09`: its only tag names
field 2, no field 1 occurs in it, yet `Unmarshal` returns nil and `Checksum` is `09 09 09`
after the call, because `append(m.Data[:0], ...)` writes into the array that `Checksum`
shares.  Then a receiver that shares no memory and the input `92 80 80 80 80 01 01 55`: its
only tag is `2^35 + 18`, field number `2^32 + 2`, no field 2 occurs in it, yet `Unmarshal`
returns nil and replaces `Data`, because `int32(wire >> 3)` keeps the low 32 bits of the
field number. -/
theorem Unmarshal_changes_field_not_in_input :
    (sharedStore.WF ∧ ¬ sharedStore.Separate ∧
      sharedStore.values = ⟨[1, 2, 3], [1, 2, 3]⟩ ∧
      sharedStore.input = [0x12, 3, 9, 9, 9] ∧
      sharedStore.tags growExact = [0x12] ∧ 0x12 / 8 = 2 ∧
      Res.map Store.values (sharedStore.Unmarshal growExact) = .ok ⟨[9, 9, 9], [9, 9, 9]⟩) ∧
    (wideTagStore.WF ∧ wideTagStore.Separate ∧
      wideTagStore.values = ⟨[], [9]⟩ ∧
      wideTagStore.input = [0x92, 0x80, 0x80, 0x80, 0x80, 0x01, 0x01, 0x55] ∧
      wideTagStore.tags growExact = [34359738386] ∧ 34359738386 / 8 = 4294967298 ∧
      Res.map Store.values (wideTagStore.Unmarshal growExact) = .ok ⟨[], [0x55]⟩) := by
  decide

/-- C18, as amended.  `Unmarshal` does not reset its receiver.  Take a receiver that shares
no memory: the capacities of its `Checksum` and of its `Data` and the input overlap nowhere.
For every input on which `Unmarshal` returns nil, a field (Checksum or Data) keeps the value
it had before the call when no tag read at a field boundary has its field number, the field
numbers of the tags read being below `2^31`.  `Unmarshal` of the empty input returns nil and
changes nothing in the memory, whatever the receiver.  And `Unmarshal` of `Marshal(m)` cut at
the boundary after the Checksum field, into a receiver that shares no memory, returns nil
and leaves `Data` untouched.  The capacity `grow` that the runtime gives a new array is
arbitrary. -/
theorem Unmarshal_keeps_unread_fields (grow : Nat → Nat → Nat) (st st1 sc : Store)
    (m : FileExtent) (hwf : st.WF) (hsep : st.Separate) (h : st.Unmarshal grow = .ok st1)
    (hcwf : sc.WF) (hcsep : sc.Separate)
    (hm : m.Checksum.length + m.Data.length + 20 < 2 ^ 63)
    (hc : sc.input = optField 0xa m.Checksum) :
    ((∀ w ∈ st.tags grow, w / 8 ≠ 1 ∧ w / 8 < 2 ^ 31) →
      st1.values.Checksum = st.values.Checksum) ∧
    ((∀ w ∈ st.tags grow, w / 8 ≠ 2 ∧ w / 8 < 2 ^ 31) → st1.values.Data = st.values.Data) ∧
    (∀ s0 : Store, s0.dAtA.len = 0 → s0.Unmarshal grow = .ok s0) ∧
    (∃ out s2, m.Marshal = .ok out ∧ out.take (optField 0xa m.Checksum).length = sc.input ∧
      sc.Unmarshal grow = .ok s2 ∧ s2.values.Data = sc.values.Data) := by
  obtain ⟨hv, ht⟩ := Unmarshal_in_memory grow st hwf hsep
  rw [h, Res.map_ok] at hv
  obtain ⟨f1, f2⟩ := unmarshalLoop_frame st.input st.input.length (st.input.length + 1) 0
    st.values st1.values hv.symm
  have ht1 : st.tags grow
      = unmarshalTagsLoop st.input st.input.length (st.input.length + 1) 0 st.values := ht
  rw [← ht1] at f1 f2
  refine ⟨fun hall => f1 (fun w hw => ?_), fun hall => f2 (fun w hw => ?_), ?_, ?_⟩
  · obtain ⟨a, b⟩ := hall w hw
    rw [toInt32_fieldNum w b]
    exact_mod_cast a
  · obtain ⟨a, b⟩ := hall w hw
    rw [toInt32_fieldNum w b]
    exact_mod_cast a
  · intro s0 h0
    unfold Store.Unmarshal
    rw [h0]
    rfl
  · obtain ⟨cv, _⟩ := Unmarshal_in_memory grow sc hcwf hcsep
    have h1 := optField_length_le 0xa m.Checksum (by omega)
    have hu := Unmarshal_fields (if m.Checksum = [] then [] else [Field.checksum m.Checksum])
      sc.values
      (by
        intro f hf
        by_cases hc0 : m.Checksum = [] <;> simp [hc0] at hf
        subst hf; trivial)
      (by rw [encodeFields_checksum]; omega)
    rw [encodeFields_checksum, ← hc] at hu
    rw [hu] at cv
    obtain ⟨s2, hs2, hs2v⟩ := Res.map_eq_ok cv
    refine ⟨optField 0xa m.Checksum ++ optField 0x12 m.Data, s2, Marshal_eq m hm, ?_, hs2, ?_⟩
    · rw [List.take_left, hc]
    · rw [hs2v]
      by_cases hc0 : m.Checksum = [] <;> simp [hc0, Field.apply]

theorem Unmarshal_keeps_unread_fields_witness :
    ((∀ w ∈ witnessStore.tags growExact, w / 8 ≠ 1 ∧ w / 8 < 2 ^ 31) →
      (Store.mk [5, 9, 0, 0x0a, 1, 5] ⟨3, 3, 3⟩ ⟨0, 1, 1⟩ ⟨1, 1, 2⟩).values.Checksum
        = witnessStore.values.Checksum) ∧
    ((∀ w ∈ witnessStore.tags growExact, w / 8 ≠ 2 ∧ w / 8 < 2 ^ 31) →
      (Store.mk [5, 9, 0, 0x0a, 1, 5] ⟨3, 3, 3⟩ ⟨0, 1, 1⟩ ⟨1, 1, 2⟩).values.Data
        = witnessStore.values.Data) ∧
    (∀ s0 : Store, s0.dAtA.len = 0 → s0.Unmarshal growExact = .ok s0) ∧
    (∃ out s2, (FileExtent.mk [1, 2, 3] [4, 5]).Marshal = .ok out ∧
      out.take (optField 0xa (FileExtent.mk [1, 2, 3] [4, 5]).Checksum).length
        = witnessStoreCut.input ∧
      witnessStoreCut.Unmarshal growExact = .ok s2 ∧
      s2.values.Data = witnessStoreCut.values.Data) :=
  Unmarshal_keeps_unread_fields growExact witnessStore
    (Store.mk [5, 9, 0, 0x0a, 1, 5] ⟨3, 3, 3⟩ ⟨0, 1, 1⟩ ⟨1, 1, 2⟩) witnessStoreCut
    (FileExtent.mk [1, 2, 3] [4, 5]) (by decide) (by decide) (by decide) (by decide) (by decide)
    (by decide) (by rw [optField, if_neg (by decide), lenField, varint_lt (by decide)]; rfl)

/-! ## Node identity: claims -/

/-- C7, `FetchOrAssignNodeID` is idempotent.  Assume the round trip of the Checksum Store (a
`Write` that returns nil leaves a file that `os.Stat` finds and that `Read` returns
unchanged), that `IDFromString` inverts `ID.String`, and that the write of a new ID
succeeds.  Then for every data directory whose identity file is absent or holds a valid
record, the first call returns an ID, a second call returns the same ID, makes no write and
leaves the file system as the first call left it. -/
theorem FetchOrAssignNodeID_idempotent {σ ε : Type} (env : NodeEnv σ ε) (fs : σ)
    (dataDir : String) (r1 r2 : Nat)
    (hRT : ∀ (s : σ) (path : String) (payload : List Byte) (s1 : σ),
      env.Write s path payload = (s1, none) →
        env.Stat s1 path = none ∧ env.Read s1 path = .ok payload)
    (hID : ∀ id, env.IDFromString (env.IDString id) = .ok id)
    (hW : (env.Write fs (nodeInfoFilePath env dataDir) (env.IDString r1)).2 = none)
    (hfile : (∃ e, env.Stat fs (nodeInfoFilePath env dataDir) = some e ∧ env.IsNotExist e = true)
      ∨ (env.Stat fs (nodeInfoFilePath env dataDir) = none ∧
          ∃ raw id, env.Read fs (nodeInfoFilePath env dataDir) = .ok raw ∧
            env.IDFromString raw = .ok id)) :
    ∃ id, (FetchOrAssignNodeID env r1 fs dataDir).exit = .returned id ∧
      (FetchOrAssignNodeID env r2 (FetchOrAssignNodeID env r1 fs dataDir).fs dataDir).exit
        = .returned id ∧
      (FetchOrAssignNodeID env r2 (FetchOrAssignNodeID env r1 fs dataDir).fs dataDir).fs
        = (FetchOrAssignNodeID env r1 fs dataDir).fs ∧
      ∀ path payload, FsOp.write path payload ∉
        (FetchOrAssignNodeID env r2 (FetchOrAssignNodeID env r1 fs dataDir).fs dataDir).ops := by
  have second : ∀ (s : σ) (raw : List Byte) (id : Nat),
      env.Stat s (nodeInfoFilePath env dataDir) = none →
      env.Read s (nodeInfoFilePath env dataDir) = .ok raw → env.IDFromString raw = .ok id →
      (FetchOrAssignNodeID env r2 s dataDir).exit = .returned id ∧
      (FetchOrAssignNodeID env r2 s dataDir).fs = s ∧
      ∀ path payload, FsOp.write path payload ∉ (FetchOrAssignNodeID env r2 s dataDir).ops := by
    intro s raw id hs hr hp
    simp [FetchOrAssignNodeID, FetchNodeID, hs, hr, hp]
  rcases hfile with ⟨e, hs, hne⟩ | ⟨hs, raw, id, hr, hp⟩
  · obtain ⟨s1, hw⟩ : ∃ s1, env.Write fs (nodeInfoFilePath env dataDir) (env.IDString r1)
        = (s1, none) := ⟨_, Prod.ext rfl hW⟩
    obtain ⟨hs1, hr1⟩ := hRT _ _ _ _ hw
    have h1 : FetchOrAssignNodeID env r1 fs dataDir
        = ⟨.returned r1, s1, [.stat (nodeInfoFilePath env dataDir),
            .write (nodeInfoFilePath env dataDir) (env.IDString r1)]⟩ := by
      simp [FetchOrAssignNodeID, hs, hne, hw]
    rw [h1]
    exact ⟨r1, rfl, second s1 _ r1 hs1 hr1 (hID r1)⟩
  · have h1 : (FetchOrAssignNodeID env r1 fs dataDir).exit = .returned id ∧
        (FetchOrAssignNodeID env r1 fs dataDir).fs = fs := by
      simp [FetchOrAssignNodeID, FetchNodeID, hs, hr, hp]
    rw [h1.2]
    exact ⟨id, h1.1, second fs raw id hs hr hp⟩

theorem FetchOrAssignNodeID_idempotent_witness :
    ∃ id, (FetchOrAssignNodeID witnessEnv 7 (fun _ => .absent) "d").exit = .returned id ∧
      (FetchOrAssignNodeID witnessEnv 9
        (FetchOrAssignNodeID witnessEnv 7 (fun _ => .absent) "d").fs "d").exit
        = .returned id ∧
      (FetchOrAssignNodeID witnessEnv 9
        (FetchOrAssignNodeID witnessEnv 7 (fun _ => .absent) "d").fs "d").fs
        = (FetchOrAssignNodeID witnessEnv 7 (fun _ => .absent) "d").fs ∧
      ∀ path payload, FsOp.write path payload ∉
        (FetchOrAssignNodeID witnessEnv 9
          (FetchOrAssignNodeID witnessEnv 7 (fun _ => .absent) "d").fs "d").ops :=
  FetchOrAssignNodeID_idempotent witnessEnv (fun _ => .absent) "d" 7 9
    (by intro s path payload s1 h
        simp only [witnessEnv, Prod.mk.injEq, and_true] at h
        subst h
        simp [witnessEnv])
    (by intro id; simp [witnessEnv])
    rfl
    (Or.inl ⟨.notExist, rfl, rfl⟩)

/-- C8, a corrupted identity file is never treated as absent.  `FetchOrAssignNodeID` makes
a write only when `os.Stat` of the identity file reports that it does not exist.  When
`os.Stat` fails for another reason, when the file exists and `Read` fails, and when the file
exists and its payload does not parse as an ID, the call makes no write, leaves the file
system as it was, returns no ID and ends in `log.Fatal` with that error. -/
theorem FetchOrAssignNodeID_surfaces_failures {σ ε : Type} (env : NodeEnv σ ε) (fs : σ)
    (dataDir : String) (r : Nat) :
    ((∃ path payload, FsOp.write path payload ∈ (FetchOrAssignNodeID env r fs dataDir).ops) →
      ∃ e, env.Stat fs (nodeInfoFilePath env dataDir) = some e ∧ env.IsNotExist e = true) ∧
    (∀ e, env.Stat fs (nodeInfoFilePath env dataDir) = some e → env.IsNotExist e = false →
      (FetchOrAssignNodeID env r fs dataDir).exit = .fatal e ∧
      (FetchOrAssignNodeID env r fs dataDir).fs = fs ∧
      ∀ path payload, FsOp.write path payload ∉ (FetchOrAssignNodeID env r fs dataDir).ops) ∧
    (∀ e, env.Stat fs (nodeInfoFilePath env dataDir) = none →
      env.Read fs (nodeInfoFilePath env dataDir) = .error e →
      (FetchOrAssignNodeID env r fs dataDir).exit = .fatal e ∧
      (FetchOrAssignNodeID env r fs dataDir).fs = fs ∧
      ∀ path payload, FsOp.write path payload ∉ (FetchOrAssignNodeID env r fs dataDir).ops) ∧
    (∀ raw e, env.Stat fs (nodeInfoFilePath env dataDir) = none →
      env.Read fs (nodeInfoFilePath env dataDir) = .ok raw → env.IDFromString raw = .error e →
      (FetchOrAssignNodeID env r fs dataDir).exit = .fatal e ∧
      (FetchOrAssignNodeID env r fs dataDir).fs = fs ∧
      ∀ path payload, FsOp.write path payload ∉ (FetchOrAssignNodeID env r fs dataDir).ops) := by
  refine ⟨?_, ?_, ?_, ?_⟩
  · rintro ⟨path, payload, hmem⟩
    cases hs : env.Stat fs (nodeInfoFilePath env dataDir) with
    | none =>
      exfalso
      cases hr : env.Read fs (nodeInfoFilePath env dataDir) with
      | error e => simp [FetchOrAssignNodeID, FetchNodeID, hs, hr] at hmem
      | ok raw =>
        cases hp : env.IDFromString raw <;>
          simp [FetchOrAssignNodeID, FetchNodeID, hs, hr, hp] at hmem
    | some e =>
      cases hne : env.IsNotExist e with
      | true => exact ⟨e, rfl, hne⟩
      | false => simp [FetchOrAssignNodeID, hs, hne] at hmem
  · intro e hs hne
    simp [FetchOrAssignNodeID, hs, hne]
  · intro e hs hr
    simp [FetchOrAssignNodeID, FetchNodeID, hs, hr]
  · intro raw e hs hr hp
    simp [FetchOrAssignNodeID, FetchNodeID, hs, hr, hp]

theorem FetchOrAssignNodeID_surfaces_failures_witness :
    (FetchOrAssignNodeID witnessEnv 7 (fun _ => .damaged) "d").exit = .fatal .corrupt ∧
    (FetchOrAssignNodeID witnessEnv 7 (fun _ => .damaged) "d").fs = (fun _ => .damaged) ∧
    ∀ path payload, FsOp.write path payload ∉
      (FetchOrAssignNodeID witnessEnv 7 (fun _ => .damaged) "d").ops :=
  (FetchOrAssignNodeID_surfaces_failures witnessEnv (fun _ => .damaged) "d" 7).2.2.1
    .corrupt rfl rfl

/-- C9, `PersistNewNodeID` never overwrites.  The identity file is `dataDir` joined with
"node-info".  If it exists, the call makes no write and leaves the file system unchanged.
If `os.Stat` reports that it does not exist, the call makes exactly one write, of the bytes
of `id` to that path through the Checksum Store, and the file system is what that write
leaves.  If `os.Stat` fails otherwise, the call makes no write either. -/
theorem PersistNewNodeID_never_overwrites {σ ε : Type} (env : NodeEnv σ ε) (fs : σ)
    (dataDir : String) (id : List Byte) :
    (env.Stat fs (env.Join dataDir "node-info") = none →
      (PersistNewNodeID env id fs dataDir).exit = .returned () ∧
      (PersistNewNodeID env id fs dataDir).fs = fs ∧
      (PersistNewNodeID env id fs dataDir).ops = [.stat (env.Join dataDir "node-info")]) ∧
    (∀ e, env.Stat fs (env.Join dataDir "node-info") = some e → env.IsNotExist e = true →
      (PersistNewNodeID env id fs dataDir).ops
        = [.stat (env.Join dataDir "node-info"), .write (env.Join dataDir "node-info") id] ∧
      (PersistNewNodeID env id fs dataDir).fs
        = (env.Write fs (env.Join dataDir "node-info") id).1 ∧
      ((env.Write fs (env.Join dataDir "node-info") id).2 = none →
        (PersistNewNodeID env id fs dataDir).exit = .returned ()) ∧
      (∀ e1, (env.Write fs (env.Join dataDir "node-info") id).2 = some e1 →
        (PersistNewNodeID env id fs dataDir).exit = .fatal e1)) ∧
    (∀ e, env.Stat fs (env.Join dataDir "node-info") = some e → env.IsNotExist e = false →
      (PersistNewNodeID env id fs dataDir).exit = .fatal e ∧
      (PersistNewNodeID env id fs dataDir).fs = fs ∧
      (PersistNewNodeID env id fs dataDir).ops = [.stat (env.Join dataDir "node-info")]) := by
  have hp : nodeInfoFilePath env dataDir = env.Join dataDir "node-info" := rfl
  refine ⟨?_, ?_, ?_⟩
  · intro hs
    simp [PersistNewNodeID, hp, hs]
  · intro e hs hne
    cases hw : env.Write fs (env.Join dataDir "node-info") id with
    | mk s1 r =>
      cases r <;> simp [PersistNewNodeID, hp, hs, hne, hw]
  · intro e hs hne
    simp [PersistNewNodeID, hp, hs, hne]

theorem PersistNewNodeID_never_overwrites_witness :
    (PersistNewNodeID witnessEnv [1, 2]
        (fun _ => .record [0, 0, 0]) "d").exit = .returned () ∧
    (PersistNewNodeID witnessEnv [1, 2] (fun _ => .record [0, 0, 0]) "d").fs
      = (fun _ => .record [0, 0, 0]) ∧
    (PersistNewNodeID witnessEnv [1, 2] (fun _ => .record [0, 0, 0]) "d").ops
      = [.stat (witnessEnv.Join "d" "node-info")] :=
  (PersistNewNodeID_never_overwrites witnessEnv (fun _ => .record [0, 0, 0]) "d" [1, 2]).1 rfl

/-! ## The blocking time read: claims -/

/-- C10, `Now` returns only a synchronized value.  Take `KronosTimeNow` as a sequence of
outcomes whose first success is the outcome number `k`.  On a non-nil server, `Now` (given
more than `k` iterations) returns exactly the `Time` of that outcome; it has called
`KronosTimeNow` `k + 1` times and has slept `k` times, each time for 100 ms, once after each
failure.  And whatever the outcomes, a value `Now` returns is the `Time` of a successful
call. -/
theorem Now_returns_first_success {ε : Type} (srv : Server ε) (errs : Nat → ε)
    (kt : KronosTime) (k fuel : Nat) (hfail : ∀ j, j < k → srv j = .error (errs j))
    (hok : srv k = .ok kt) (hfuel : k < fuel) :
    Now (some srv) fuel = (.returned kt.Time, retryTrace errs 0 k ++ [.kronosTimeNow]) ∧
    (Now (some srv) fuel).2.countP NowEvent.isCall = k + 1 ∧
    (Now (some srv) fuel).2.countP NowEvent.isSleep = k ∧
    (Now (some srv) fuel).2.countP (NowEvent.isSleepFor 100000000) = k ∧
    (∀ (other : Server ε) (n : Nat) (t : Int) (trace : List (NowEvent ε)),
      Now (some other) n = (.returned t, trace) → ∃ j r, other j = .ok r ∧ r.Time = t) := by
  have h := nowLoop_first_success srv errs kt k 0 fuel []
    (fun j _ h2 => hfail j (by omega)) (by simpa using hok) hfuel
  have hN : Now (some srv) fuel
      = (.returned kt.Time, retryTrace errs 0 k ++ [.kronosTimeNow]) := by
    simpa [Now] using h
  obtain ⟨h1, h2, h3⟩ := retryTrace_counts errs k 0
  refine ⟨hN, ?_, ?_, ?_, ?_⟩
  · rw [hN]; simp [List.countP_append, h1, NowEvent.isCall]
  · rw [hN]; simp [List.countP_append, h2, NowEvent.isSleep]
  · rw [hN]; simp [List.countP_append, h3, NowEvent.isSleepFor]
  · intro other n t trace hret
    exact nowLoop_returned other n 0 [] trace t (by simpa [Now] using hret)

theorem Now_returns_first_success_witness :
    Now (some (fun n => if n < 2 then Except.error "stale" else Except.ok ⟨42⟩)) 5
      = (.returned (KronosTime.mk 42).Time,
          retryTrace (fun _ => "stale") 0 2 ++ [.kronosTimeNow]) ∧
    (Now (some (fun n => if n < 2 then Except.error "stale" else Except.ok ⟨42⟩)) 5).2.countP
      NowEvent.isCall = 2 + 1 ∧
    (Now (some (fun n => if n < 2 then Except.error "stale" else Except.ok ⟨42⟩)) 5).2.countP
      NowEvent.isSleep = 2 ∧
    (Now (some (fun n => if n < 2 then Except.error "stale" else Except.ok ⟨42⟩)) 5).2.countP
      (NowEvent.isSleepFor 100000000) = 2 ∧
    (∀ (other : Server String) (n : Nat) (t : Int) (trace : List (NowEvent String)),
      Now (some other) n = (.returned t, trace) → ∃ j r, other j = .ok r ∧ r.Time = t) :=
  Now_returns_first_success
    (fun n => if n < 2 then Except.error "stale" else Except.ok ⟨42⟩) (fun _ => "stale")
    ⟨42⟩ 2 5 (by intro j hj; simp [hj]) (by simp) (by decide)

/-- C11, at the counterexample.  `Now` has one parameter, the server handle, and no
cancellation signal among its inputs.  On a server whose every call of `KronosTimeNow`
fails, there is no number of iterations after which `Now` has returned. -/
theorem Now_never_returns_while_failing :
    ¬ ∃ (n : Nat) (t : Int),
      (Now (some (fun _ => (Except.error "stale" : Except String KronosTime))) n).1
        = .returned t := by
  rintro ⟨n, t, h⟩
  have h2 := nowLoop_all_fail (fun _ => (Except.error "stale" : Except String KronosTime))
    (fun _ => "stale") n 0 [] (fun _ _ _ => rfl)
  have h3 : Now (some (fun _ => (Except.error "stale" : Except String KronosTime))) n
      = (.outOfFuel, retryTrace (fun _ => "stale") 0 n) := by
    simpa [Now] using h2
  rw [h3] at h
  cases h

/-- C11, as amended.  `Now` takes no cancellation signal.  As long as the calls of
`KronosTimeNow` fail it keeps retrying, one call and one sleep of 100 ms for each
iteration, and does not return: when the first `n` calls fail, `Now` is still in its loop
after `n` iterations, whatever the outcomes of the later calls. -/
theorem Now_retries_while_failing {ε : Type} (srv : Server ε) (errs : Nat → ε) (n : Nat)
    (hfail : ∀ j, j < n → srv j = .error (errs j)) :
    Now (some srv) n = (.outOfFuel, retryTrace errs 0 n) ∧
    (Now (some srv) n).2.countP NowEvent.isCall = n ∧
    (Now (some srv) n).2.countP (NowEvent.isSleepFor 100000000) = n := by
  have h := nowLoop_all_fail srv errs n 0 [] (fun j _ h2 => hfail j (by omega))
  have hN : Now (some srv) n = (.outOfFuel, retryTrace errs 0 n) := by
    simpa [Now] using h
  obtain ⟨h1, _, h3⟩ := retryTrace_counts errs n 0
  exact ⟨hN, by rw [hN]; exact h1, by rw [hN]; exact h3⟩

theorem Now_retries_while_failing_witness :
    Now (some (fun n => if n < 3 then Except.error "stale" else Except.ok ⟨42⟩)) 3
      = (.outOfFuel, retryTrace (fun _ => "stale") 0 3) ∧
    (Now (some (fun n => if n < 3 then Except.error "stale" else Except.ok ⟨42⟩)) 3).2.countP
      NowEvent.isCall = 3 ∧
    (Now (some (fun n => if n < 3 then Except.error "stale" else Except.ok ⟨42⟩)) 3).2.countP
      (NowEvent.isSleepFor 100000000) = 3 :=
  Now_retries_while_failing
    (fun n => if n < 3 then Except.error "stale" else Except.ok ⟨42⟩) (fun _ => "stale") 3
    (by intro j hj; simp [hj])

/-- C12, at the failing input.  On a nil server handle `Now` calls
`log.Fatalf(context.TODO(), "Kronos server is not initialized")`: it makes no call of
`KronosTimeNow`, and it returns no time at all, system time or other. -/
theorem Now_nil_server_is_fatal :
    ∀ n, Now (none : Option (Server String)) n = (.fatal, []) ∧
      ∀ t, (Now (none : Option (Server String)) n).1 ≠ .returned t := by
  intro n
  exact ⟨rfl, fun t h => by simp [Now] at h⟩

/-! ## Cluster membership: claims -/

/-- C13, `RemoveNode` rejects an empty node id immediately.  For every server handle and
context, `RemoveNode` with a node id of length 0 returns the error "node id is empty" and
does nothing else: no client is created, no remote call is made.  For every non-empty node
id it calls `NewClusterClient`, once. -/
theorem RemoveNode_rejects_empty_id {κ ε : Type} (ctx : κ) (srv : ClusterServer κ ε) :
    RemoveNode ctx [] srv = (some .nodeIDEmpty, []) ∧
    ∀ (b : Byte) (bs : List Byte),
      (RemoveNode ctx (b :: bs) srv).2.countP RemoveEvent.isNewClient = 1 := by
  refine ⟨rfl, ?_⟩
  intro b bs
  obtain ⟨r⟩ := srv
  cases r <;> simp [RemoveNode, RemoveEvent.isNewClient, List.countP_cons]

/-- C14, `RemoveNode` always releases its connection.  For every non-empty node id: when
the creation of the client succeeds, `RemoveNode` makes the remote call, then closes the
client, exactly once, and returns exactly what the remote call returned, nil or an error;
when the creation fails, it returns that error and makes no remote call. -/
theorem RemoveNode_closes_client {κ ε : Type} (ctx : κ) (b : Byte) (bs : List Byte) :
    (∀ client : ClusterClient κ ε,
      RemoveNode ctx (b :: bs) (ClusterServer.mk (.ok client))
        = ((client.RemoveNode ctx (b :: bs)).map .other,
            [.infof ctx (b :: bs), .newClusterClient, .removeNode ctx (b :: bs), .close]) ∧
      (RemoveNode ctx (b :: bs) (ClusterServer.mk (.ok client))).2.countP RemoveEvent.isClose
        = 1 ∧
      (RemoveNode ctx (b :: bs) (ClusterServer.mk (.ok client))).2.countP RemoveEvent.isRemote
        = 1 ∧
      ((RemoveNode ctx (b :: bs) (ClusterServer.mk (.ok client))).1 = none
        ↔ client.RemoveNode ctx (b :: bs) = none)) ∧
    (∀ e : ε,
      RemoveNode ctx (b :: bs) (ClusterServer.mk (.error e) : ClusterServer κ ε)
        = (some (.other e), [.infof ctx (b :: bs), .newClusterClient])) := by
  refine ⟨fun client => ⟨?_, ?_, ?_, ?_⟩, fun e => ?_⟩
  · simp [RemoveNode]
  · simp [RemoveNode, RemoveEvent.isClose, List.countP_cons]
  · simp [RemoveNode, RemoveEvent.isRemote, List.countP_cons]
  · simp [RemoveNode]
  · simp [RemoveNode]

end Kronos
